import Mathlib

/-!
# jgmenu-ob: Openbox menu to jgmenu CSV

A shallow embedding of `jgmenu-ob.c`.  The program walks a libxml2 tree,
builds a list of tags, each with a list of items, and prints them as
jgmenu-flavoured CSV.

Conventions of the embedding:

* a C string (`char *`) is a `Str`, a list of characters; a pointer that may be
  `NULL` is an `Option`;
* the global list `tags` is a `List Tag` in creation order, and a
  `struct tag *` is the index of the tag in that list;
* `stdout` is the list of the lines written so far: every `printf` of the
  program writes exactly one record ended by a newline;
* a step that would dereference a null pointer yields a `Fault`.
-/

namespace JgmenuOb

/-- C strings. -/
abbrev Str := List Char

/-! ## libc -/

/-- `strcmp`: only whether the result is zero is modelled. -/
def strcmp (a b : Str) : Int := if a = b then 0 else 1

/-- `strcasecmp` in the C locale: zero iff the strings agree after folding
`A`..`Z` to lower case. -/
def strcasecmp (a b : Str) : Int :=
  if a.map Char.toLower = b.map Char.toLower then 0 else 1

/-- `strstr(haystack, needle) != NULL`: `needle` occurs in `haystack`. -/
def strstr : Str → Str → Bool
  | [], needle => needle.isEmpty
  | c :: cs, needle => needle.isPrefixOf (c :: cs) || strstr cs needle

/-- `isspace` in the C locale. -/
def isspace (c : Char) : Bool :=
  c = ' ' || c = '\t' || c = '\n' || c = '\x0b' || c = '\x0c' || c = '\r'

/-- What glibc's `printf` writes for a `%s` argument: the string, or
`(null)` for a null pointer. -/
def printf_s : Option Str → Str
  | some s => s
  | none => "(null)".toList

/-! ## Helpers of the repository that are declared in `sbuf.h` and `util.h` -/

/-- Modelled from the spec: `sbuf_cpy` (declared in `sbuf.h`, defined outside
this file) sets the buffer to a copy of the string; an absent label gives the
empty buffer ("propagate as an empty/absent label"). -/
def sbuf_cpy : Option Str → Str
  | some s => s
  | none => []

/-- Scanning loop of `sbuf_replace`: `skip` characters of a match that was just
replaced are still to be passed over. -/
def sbuf_replace_from (before after : Str) : Nat → Str → Str
  | _, [] => []
  | skip + 1, _ :: cs => sbuf_replace_from before after skip cs
  | 0, c :: cs =>
    if before.isPrefixOf (c :: cs) && !before.isEmpty then
      after ++ sbuf_replace_from before after (before.length - 1) cs
    else
      c :: sbuf_replace_from before after 0 cs

/-- Modelled from the spec: `sbuf_replace` (declared in `sbuf.h`, defined
outside this file) replaces every occurrence of `before`, found left to right,
by `after` ("replace literal `&` with the entity `&amp;` ... no other
characters are escaped"). -/
def sbuf_replace (s before after : Str) : Str :=
  sbuf_replace_from before after 0 s

/-- Modelled from the spec: `sbuf_prepend` (declared in `sbuf.h`, defined
outside this file) puts a string in front of the buffer. -/
def sbuf_prepend (buf s : Str) : Str := s ++ buf

/-- Modelled from the spec: `strstrip` (declared in `util.h`, defined outside
this file) gives "the trimmed text": leading and trailing whitespace removed. -/
def strstrip (s : Str) : Str :=
  ((s.reverse.dropWhile isspace).reverse).dropWhile isspace

/-! ## Data model -/

/-- The `struct item`. -/
structure Item where
  label : Option Str
  cmd : Option Str
  pipe : Bool
  checkout : Bool
  isseparator : Bool
  deriving DecidableEq, Repr

/-- The `struct tag`; `parent` is an index into the list of tags. -/
structure Tag where
  label : Option Str
  id : Option Str
  parent : Option Nat
  items : List Item
  deriving DecidableEq, Repr

/-! ## Serializer -/

/-- The label of an item as `print_it` escapes it (`sbuf_init`, `sbuf_cpy`,
`sbuf_replace`). -/
def label_escaped (item : Item) : Str :=
  sbuf_replace (sbuf_cpy item.label) "&".toList "&amp;".toList

/-- Body of the loop of `print_it`: the one record printed for an item. -/
def print_item (stdout : List Str) (item : Item) : List Str :=
  if item.pipe then
    stdout ++ [label_escaped item ++ ",^pipe(jgmenu_run ob --cmd='".toList
      ++ printf_s item.cmd ++ "' --tag='".toList ++ printf_s item.label ++ "')".toList]
  else if item.checkout then
    stdout ++ [label_escaped item ++ ",^checkout(".toList ++ printf_s item.cmd ++ ")".toList]
  else if item.isseparator then
    stdout ++ ["^sep(".toList ++ label_escaped item ++ ")".toList]
  else
    stdout ++ [label_escaped item ++ ",".toList ++ printf_s item.cmd]

/-- The function `print_it`. -/
def print_it (stdout : List Str) (tag : Tag) : List Str :=
  if tag.items.isEmpty then
    stdout
  else
    let out := stdout ++ [printf_s tag.label ++ ",^tag(".toList ++ printf_s tag.id ++ ")".toList]
    let out := if tag.parent.isSome then out ++ ["Back,^back()".toList] else out
    let out := tag.items.foldl print_item out
    out ++ [[]]

/-- The function `print_menu`: two passes over the tags. -/
def print_menu (root_menu : Str) (tags : List Tag) (stdout : List Str) : List Str :=
  let out := tags.foldl
    (fun out tag =>
      match tag.id with
      | some id => if strcmp id root_menu = 0 then print_it out tag else out
      | none => out)
    stdout
  tags.foldl
    (fun out tag =>
      match tag.id with
      | some id => if strcmp id root_menu ≠ 0 then print_it out tag else out
      | none => out)
    out

/-! ## The libxml2 tree -/

/-- An `xmlNode *` in first-child / next-sibling form: `null` is the null
pointer, and a node has a name (null for a document node), its attributes, a
text payload, its first child and its next sibling. -/
inductive XmlNode where
  | null : XmlNode
  | node (name : Option Str) (props : List (Str × Str)) (content : Option Str)
      (children : XmlNode) (next : XmlNode) : XmlNode
  deriving Repr

/-- What the program reads of an ancestor of a node: its name and its
attributes. -/
structure Elem where
  name : Option Str
  props : List (Str × Str)
  deriving DecidableEq, Repr

/-- A node as the functions called on it see it: its own fields and the chain
of `parent` pointers, nearest ancestor first. -/
structure NodePtr where
  name : Option Str
  props : List (Str × Str)
  content : Option Str
  ancestors : List Elem
  deriving DecidableEq, Repr

/-- `xmlGetProp` on a list of attributes: the value of the first attribute of
that name. -/
def getProp : List (Str × Str) → Str → Option Str
  | [], _ => none
  | (k, v) :: rest, key => if k = key then some v else getProp rest key

/-- `xmlGetProp(n, key)`; null for a null node. -/
def xmlGetProp (n : Option NodePtr) (key : Str) : Option Str :=
  match n with
  | none => none
  | some p => getProp p.props key

/-! ## Interpreter state -/

/-- Null-pointer dereferences the program can run into. -/
inductive Fault where
  /-- `strcmp(n->parent->name, ...)` in `get_parent_tag` with a null name. -/
  | parent_name_null
  /-- `strcmp(id, root_menu)` in `new_tag` with a null `id`. -/
  | strcmp_null_id
  /-- A write through a null `curitem`. -/
  | curitem_null
  /-- `list_add_tail(..., &curtag->items)` with a null `curtag`. -/
  | curtag_null
  deriving DecidableEq, Repr

/-- The globals `tags`, `curtag` and `curitem`.  `curitem` points at an item
by the index of its tag and its position in that tag's item list. -/
structure State where
  tags : List Tag
  curtag : Option Nat
  curitem : Option (Nat × Nat)
  deriving DecidableEq, Repr

/-- The state at the start of `parse_xml`: `INIT_LIST_HEAD(&tags)` and
zero-initialised cursors. -/
def State.init : State := ⟨[], none, none⟩

/-- Update of the tag behind a `struct tag *`. -/
def modifyTag (tags : List Tag) (t : Nat) (f : Tag → Tag) : List Tag :=
  tags.modify f t

/-- Update of the item behind a `struct item *`. -/
def modifyItem (tags : List Tag) (ref : Nat × Nat) (f : Item → Item) : List Tag :=
  modifyTag tags ref.1 (fun tag => { tag with items := tag.items.modify f ref.2 })

/-- The statement `list_add_tail(&curitem->list, &t->items)` for the item that
`new_item` has just allocated: the item goes to the tail of the item list of
tag `t`, and `curitem` (set by `new_item`) points at it. -/
def list_add_tail_item (s : State) (t : Nat) (item : Item) : State :=
  { s with
    tags := modifyTag s.tags t (fun tag => { tag with items := tag.items ++ [item] })
    curitem := some (t, ((s.tags[t]?).map (fun tag => tag.items.length)).getD 0) }

/-- The function `get_tag_label`. -/
def get_tag_label (tags : List Tag) (id : Option Str) : Option Str :=
  match id with
  | none => none
  | some i =>
    match tags.find? (fun tag =>
        match tag.id with
        | some j => strcmp j i = 0
        | none => false) with
    | some tag => tag.label
    | none => none

/-- First index whose tag has the given id: the loop of `get_parent_tag`. -/
def find_tag_by_id (id : Str) : List Tag → Nat → Option Nat
  | [], _ => none
  | tag :: rest, k =>
    match tag.id with
    | some j => if strcmp j id = 0 then some k else find_tag_by_id id rest (k + 1)
    | none => find_tag_by_id id rest (k + 1)

/-- The function `get_parent_tag`. -/
def get_parent_tag (root_menu : Str) (tags : List Tag) (n : Option NodePtr) :
    Except Fault (Option Nat) :=
  match n with
  | none => .ok none
  | some p =>
    match p.ancestors with
    | [] => .ok none
    | parent :: _ =>
      match parent.name with
      | none => .error .parent_name_null
      | some pname =>
        let id :=
          if strcmp pname "openbox_pipe_menu".toList = 0 then some root_menu
          else getProp parent.props "id".toList
        match id with
        | none => .ok none
        | some i => .ok (find_tag_by_id i tags 0)

/-- The call `new_tag(NULL)`: `get_parent_tag` and both `xmlGetProp` give null,
so the tag gets the root identifier, no label and no parent, and the test
`parent && ...` fails. -/
def new_tag_null (root_menu : Str) (s : State) : State :=
  { s with
    tags := s.tags ++ [⟨none, some root_menu, none, []⟩]
    curtag := some s.tags.length }

/-- The function `new_item`: the state after the root tag is made on demand,
and the fresh item.  The item is not in any list yet, so it is handed to the
caller as a value; `curitem` points at it from the moment it is linked into an
item list, which every caller does before `curitem` is read again. -/
def new_item (root_menu : Str) (n : Option NodePtr) (isseparator : Bool) (s : State) :
    State × Item :=
  let label := xmlGetProp n "label".toList
  let s := if s.curtag.isNone then new_tag_null root_menu s else s
  (s, { label := label, cmd := none, pipe := false, checkout := false,
        isseparator := isseparator })

/-- The function `new_tag`. -/
def new_tag (root_menu : Str) (n : Option NodePtr) (s : State) : Except Fault State := do
  let parent ← get_parent_tag root_menu s.tags n
  let label := xmlGetProp n "label".toList
  let id := xmlGetProp n "id".toList
  let t : Tag :=
    { label := label, id := (if id.isSome then id else some root_menu),
      parent := parent, items := [] }
  let s : State := { s with tags := s.tags ++ [t], curtag := some s.tags.length }
  match parent with
  | none => pure s
  | some p =>
    match id with
    | none => throw .strcmp_null_id
    | some i =>
      if strcmp i root_menu ≠ 0 then
        let r := new_item root_menu n false s
        let item := { r.2 with label := label, cmd := id, checkout := true }
        pure (list_add_tail_item r.1 p item)
      else
        pure s

/-- The function `revert_to_parent`. -/
def revert_to_parent (s : State) : State :=
  match s.curtag with
  | none => s
  | some c =>
    match (s.tags[c]?).bind (fun tag => tag.parent) with
    | none => s
    | some p => { s with curtag := some p }

/-- The function `node_filter`. -/
def node_filter (name : Str) : Int := strcasecmp name "menu".toList

/-- The `for (;;)` loop of `get_full_node_name` from `node = node->parent` on:
`parents` is the rest of the chain of parents. -/
def get_full_node_name_loop (node_name : Str) : List Elem → Str
  | [] => node_name
  | parent :: rest =>
    match parent.name with
    | none => node_name
    | some pname =>
      let incl := node_filter pname
      let node_name := if incl ≠ 0 then sbuf_prepend node_name ".".toList else node_name
      let node_name := if incl ≠ 0 then sbuf_prepend node_name pname else node_name
      get_full_node_name_loop node_name rest

/-- The function `get_full_node_name`, for a node with a name, on an empty
buffer. -/
def get_full_node_name (name : Str) (ancestors : List Elem) : Str :=
  if strcmp name "text".toList = 0 then
    match ancestors with
    | [] => []
    | parent :: rest =>
      match parent.name with
      | none => []
      | some pname =>
        let node_name := if node_filter pname ≠ 0 then sbuf_prepend [] pname else []
        get_full_node_name_loop node_name rest
  else
    let node_name := if node_filter name ≠ 0 then sbuf_prepend [] name else []
    get_full_node_name_loop node_name ancestors

/-- The function `get_special_action`: the value it stores through `cmd`, if
it stores one. -/
def get_special_action (props : List (Str × Str)) : Option Str :=
  match getProp props "name".toList with
  | none => none
  | some action =>
    if strcasecmp action "Execute".toList = 0 then none
    else if strcasecmp action "reconfigure".toList = 0 then
      some "openbox --reconfigure".toList
    else if strcasecmp action "restart".toList = 0 then
      some "openbox --restart".toList
    else none

/-- The assignment `curitem->cmd = v`. -/
def set_curitem_cmd (s : State) (v : Str) : Except Fault State :=
  match s.curitem with
  | none => .error .curitem_null
  | some ref =>
    .ok { s with tags := modifyItem s.tags ref (fun item => { item with cmd := some v }) }

/-- The function `process_node`, for a node with a name. -/
def process_node (name : Str) (props : List (Str × Str)) (content : Option Str)
    (ancestors : List Elem) (s : State) : Except Fault State :=
  let node_name := get_full_node_name name ancestors
  if node_name.length = 0 then
    .ok s
  else if strstr node_name "item.action.command".toList && content.isSome then
    match content with
    | some text => set_curitem_cmd s (strstrip text)
    | none => .ok s
  else if strstr node_name "item.action".toList then
    match get_special_action props with
    | some v => set_curitem_cmd s v
    | none => .ok s
  else
    .ok s

/-- The statement `list_add_tail(&curitem->list, &curtag->items)`. -/
def add_to_curtag (s : State) (item : Item) : Except Fault State :=
  match s.curtag with
  | none => .error .curtag_null
  | some c => .ok (list_add_tail_item s c item)

/-- The function `menu_start`: the new state and the return value. -/
def menu_start (root_menu : Str) (n : NodePtr) (s : State) : Except Fault (State × Bool) :=
  let label := getProp n.props "label".toList
  let execute := getProp n.props "execute".toList
  let id := getProp n.props "id".toList
  if label.isSome && execute.isNone then do
    let s ← new_tag root_menu (some n) s
    pure (s, true)
  else if execute.isSome then do
    let r := new_item root_menu (some n) false s
    let item := { r.2 with pipe := true, cmd := execute }
    let s ← add_to_curtag r.1 item
    pure (s, false)
  else if id.isSome then do
    let r := new_item root_menu (some n) false s
    let item := { r.2 with checkout := true, cmd := id, label := get_tag_label r.1.tags id }
    let s ← add_to_curtag r.1 item
    pure (s, false)
  else
    pure (s, false)

/-- The function `xml_tree_walk`; `ancestors` is the chain of parents of the
nodes of the sibling list. -/
def xml_tree_walk (root_menu : Str) (ancestors : List Elem) : XmlNode → State → Except Fault State
  | .null, s => .ok s
  | .node none _ _ _ _, s => .ok s
  | .node (some name) props content children next, s =>
    let n : NodePtr := ⟨some name, props, content, ancestors⟩
    let below : List Elem := ⟨some name, props⟩ :: ancestors
    if strcasecmp name "menu".toList = 0 then do
      let r ← menu_start root_menu n s
      let s ← xml_tree_walk root_menu below children r.1
      let s := if r.2 then revert_to_parent s else s
      xml_tree_walk root_menu ancestors next s
    else if strcasecmp name "item".toList = 0 then do
      let r := new_item root_menu (some n) false s
      let s ← add_to_curtag r.1 r.2
      let s ← xml_tree_walk root_menu below children s
      xml_tree_walk root_menu ancestors next s
    else if strcasecmp name "separator".toList = 0 then do
      let r := new_item root_menu (some n) true s
      let s ← add_to_curtag r.1 r.2
      let s ← xml_tree_walk root_menu below children s
      xml_tree_walk root_menu ancestors next s
    else if strcasecmp name "Comment".toList = 0 then
      xml_tree_walk root_menu ancestors next s
    else do
      let s ← process_node name props content ancestors s
      let s ← xml_tree_walk root_menu below children s
      xml_tree_walk root_menu ancestors next s

/-- The function `parse_xml` after parsing: the walk from the root element,
whose parent is the document node (no name, no attributes), then
`print_menu`. -/
def parse_xml (root_menu : Str) (doc : XmlNode) : Except Fault (List Str) := do
  let s ← xml_tree_walk root_menu [⟨none, []⟩] doc State.init
  pure (print_menu root_menu s.tags [])


/-! ## Words of the specification -/

/-- The one record `print_it` writes for an item. -/
def item_line (item : Item) : Str := (print_item [] item).headD []

/-- The escaping rule of the specification: every `&` becomes `&amp;`, every
other character stays. -/
def escape_amp (s : Str) : Str :=
  s.flatMap (fun c => if c = '&' then "&amp;".toList else [c])

/-- What the walk never changes of an item once it is made: its label and its
kind.  (The command can be set later by `process_node`.) -/
def Item.shape (item : Item) : Option Str × Bool × Bool × Bool :=
  (item.label, item.pipe, item.checkout, item.isseparator)

/-- The tags `b` come from the tags `a` by appending tags, appending items at
the tail of item lists and setting commands: every tag of `a` is in `b` at the
same place with the same label, id and parent, and its items are, in the same
order and with the same labels and kinds, the first items of the tag in `b`. -/
def TagsGrow (a b : List Tag) : Prop :=
  ∀ (t : Nat) (tag : Tag), a[t]? = some tag →
    ∃ tag', b[t]? = some tag' ∧ tag'.label = tag.label ∧ tag'.id = tag.id
      ∧ tag'.parent = tag.parent
      ∧ tag.items.map Item.shape <+: tag'.items.map Item.shape

/-- The sibling list `a` followed by the sibling list `b`: `b` is hung on the
last `next` pointer of `a`. -/
def XmlNode.append : XmlNode → XmlNode → XmlNode
  | .null, b => b
  | .node name props content children next, b =>
    .node name props content children (XmlNode.append next b)

/-- The names that make up the dotted path of a starting element `start` with
the chain of parents `up`: the starting element and its ancestors up to the
document node (the first one without a name), listed root-first, without the
elements named `menu` in any case. -/
def path_names (start : Str) (up : List Elem) : List Str :=
  ((start :: (up.takeWhile (fun e => e.name.isSome)).filterMap (fun e => e.name)).filter
    (fun name => decide (node_filter name ≠ 0))).reverse

/-- What `new_tag` guarantees of the tag it appends to the tags `tags`: it has
an id and no items, and its parent, if any, is one of `tags`. -/
def NewTagOk (tags : List Tag) (new : Tag) : Prop :=
  new.id.isSome = true ∧ new.items = [] ∧ ∀ p, new.parent = some p → p < tags.length

/-- Every parent link points to a tag created earlier. -/
def ParentsEarlier (tags : List Tag) : Prop :=
  ∀ (k : Nat) (tag : Tag) (p : Nat), tags[k]? = some tag → tag.parent = some p → p < k

/-- A property of the tags that is kept when a tag is updated without change
of its label, id and parent, and when a tag made by `new_tag` is appended. -/
structure TagsInvariant (P : List Tag → Prop) : Prop where
  modify : ∀ (tags : List Tag) (k : Nat) (f : Tag → Tag),
    (∀ t, (f t).label = t.label ∧ (f t).id = t.id ∧ (f t).parent = t.parent) →
    P tags → P (tags.modify f k)
  append : ∀ (tags : List Tag) (new : Tag), NewTagOk tags new → P tags → P (tags ++ [new])

/-- What the walk never changes of a tag once it is made, and the labels and
kinds of its items in order. -/
def Tag.skel (tag : Tag) : Option Str × Option Str × Option Nat × List (Option Str × Bool × Bool × Bool) :=
  (tag.label, tag.id, tag.parent, tag.items.map Item.shape)

/-- A sibling list in which, and below which, the walk meets no `menu`, `item`
or `separator` node: every node it visits goes to `process_node`.  (What is
below a `Comment` node or after a node without name is never visited.) -/
def quiet : XmlNode → Bool
  | .null => true
  | .node none _ _ _ _ => true
  | .node (some name) _ _ children next =>
    if strcasecmp name "menu".toList = 0 then false
    else if strcasecmp name "item".toList = 0 then false
    else if strcasecmp name "separator".toList = 0 then false
    else if strcasecmp name "Comment".toList = 0 then quiet next
    else quiet children && quiet next

/-- The label and kind of the item that the walk makes for a node that is an
`item`, a `separator`, a pipe-menu `menu` (with `execute`) or a forward-checkout
`menu` (`id` only), with the tags `tags` registered at that moment; `none` for
any other node. -/
def child_shape (tags : List Tag) (name : Str) (props : List (Str × Str)) :
    Option (Option Str × Bool × Bool × Bool) :=
  if strcasecmp name "menu".toList = 0 then
    if (getProp props "execute".toList).isSome then
      some (getProp props "label".toList, true, false, false)
    else if (getProp props "label".toList).isNone && (getProp props "id".toList).isSome then
      some (get_tag_label tags (getProp props "id".toList), false, true, false)
    else none
  else if strcasecmp name "item".toList = 0 then
    some (getProp props "label".toList, false, false, false)
  else if strcasecmp name "separator".toList = 0 then
    some (getProp props "label".toList, false, false, true)
  else none

/-- For a sibling list made only of `item`, `separator`, pipe-menu and
forward-checkout nodes, with nothing but action and content nodes below them:
the labels and kinds of the nodes, in order. -/
def flat_children (tags : List Tag) : XmlNode → Option (List (Option Str × Bool × Bool × Bool))
  | .null => some []
  | .node none _ _ _ _ => none
  | .node (some name) props _ children next =>
    match child_shape tags name props, quiet children, flat_children tags next with
    | some shape, true, some rest => some (shape :: rest)
    | _, _, _ => none

/-- The skeleton of a tag after items with the labels and kinds `shapes` are
appended to it. -/
def skel_append (shapes : List (Option Str × Bool × Bool × Bool))
    (k : Option Str × Option Str × Option Nat × List (Option Str × Bool × Bool × Bool)) :
    Option Str × Option Str × Option Nat × List (Option Str × Bool × Bool × Bool) :=
  (k.1, k.2.1, k.2.2.1, k.2.2.2 ++ shapes)

/-- The number of nodes of a sibling list. -/
def sibling_count : XmlNode → Nat
  | .null => 0
  | .node _ _ _ _ next => sibling_count next + 1

/-- A sibling list in which the inline submenus (`menu` with `label` and
without `execute`) can be nested to any depth, each with an `id` that no tag
made before it has, and in which nothing but action and content nodes stands
below the other nodes.  `used` lists the ids of the tags that exist when the
walk reaches the list; the result lists those that exist when it is done, or is
`none` when the list is not of that form. -/
def tidy (used : List (Option Str)) : XmlNode → Option (List (Option Str))
  | .null => some used
  | .node none _ _ _ _ => some used
  | .node (some name) props _ children next =>
    if strcasecmp name "menu".toList = 0 then
      if (getProp props "label".toList).isSome && (getProp props "execute".toList).isNone then
        match getProp props "id".toList with
        | none => none
        | some i =>
          if some i ∈ used then none
          else
            match tidy (used ++ [some i]) children with
            | none => none
            | some used1 => tidy used1 next
      else if quiet children then tidy used next
      else none
    else if strcasecmp name "item".toList = 0 then
      if quiet children then tidy used next else none
    else if strcasecmp name "separator".toList = 0 then
      if quiet children then tidy used next else none
    else if strcasecmp name "Comment".toList = 0 then tidy used next
    else if quiet children then tidy used next
    else none

/-! ## Serializer: lemmas -/

theorem strcmp_eq_zero (a b : Str) : strcmp a b = 0 ↔ a = b := by
  unfold strcmp
  split_ifs with h <;> simp [h]

theorem print_item_append (out : List Str) (item : Item) :
    print_item out item = out ++ print_item [] item := by
  unfold print_item
  split_ifs <;> simp

theorem print_item_length (item : Item) : (print_item [] item).length = 1 := by
  unfold print_item
  split_ifs <;> simp

theorem foldl_print_item (items : List Item) (out : List Str) :
    items.foldl print_item out = out ++ items.flatMap (print_item []) := by
  induction items generalizing out with
  | nil => simp
  | cons item rest ih =>
    rw [List.foldl_cons, ih, print_item_append out item]
    simp

theorem flatMap_print_item_length (items : List Item) :
    (items.flatMap (print_item [])).length = items.length := by
  induction items with
  | nil => rfl
  | cons item rest ih =>
    rw [List.flatMap_cons, List.length_append, ih, print_item_length]
    simp [Nat.add_comm]

theorem print_it_append (out : List Str) (tag : Tag) :
    print_it out tag = out ++ print_it [] tag := by
  unfold print_it
  split_ifs <;> simp [foldl_print_item]

theorem print_it_nil_iff (tag : Tag) : print_it [] tag = [] ↔ tag.items = [] := by
  unfold print_it
  constructor
  · intro h
    by_contra hne
    have he : tag.items.isEmpty = false := by simpa using hne
    simp [he] at h
  · intro h
    simp [h]

theorem foldl_print_it (p : Tag → Bool) (tags : List Tag) (out : List Str) :
    tags.foldl (fun out tag => if p tag then print_it out tag else out) out
      = out ++ (tags.filter p).flatMap (print_it []) := by
  induction tags generalizing out with
  | nil => simp
  | cons tag rest ih =>
    rw [List.foldl_cons, ih]
    by_cases h : p tag
    · simp [h, print_it_append out tag]
    · simp [h]

theorem flatMap_print_it_filter (tags : List Tag) :
    (tags.filter (fun t => !t.items.isEmpty)).flatMap (print_it [])
      = tags.flatMap (print_it []) := by
  induction tags with
  | nil => rfl
  | cons tag rest ih =>
    by_cases h : tag.items = []
    · have h0 : print_it [] tag = [] := (print_it_nil_iff tag).2 h
      simp [List.filter_cons, h, h0, ih]
    · have h1 : tag.items.isEmpty = false := by simpa using h
      simp [List.filter_cons, h1, ih]

theorem print_item_eq_line (out : List Str) (item : Item) :
    print_item out item = out ++ [item_line item] := by
  rw [print_item_append out item]
  unfold item_line print_item
  split_ifs <;> simp

theorem flatMap_print_item_eq_map (items : List Item) :
    items.flatMap (print_item []) = items.map item_line := by
  induction items with
  | nil => rfl
  | cons item rest ih =>
    rw [List.flatMap_cons, ih, print_item_eq_line [] item]
    simp

theorem sbuf_replace_amp (s : Str) :
    sbuf_replace s "&".toList "&amp;".toList = escape_amp s := by
  unfold sbuf_replace escape_amp
  induction s with
  | nil => rfl
  | cons c cs ih =>
    have hs : "&".toList = ['&'] := rfl
    have ha : "&amp;".toList = ['&', 'a', 'm', 'p', ';'] := rfl
    rw [hs, ha] at ih ⊢
    by_cases h : c = '&'
    · subst h
      simp [sbuf_replace_from, ih]
    · have h2 : ¬ '&' = c := fun e => h e.symm
      simp [sbuf_replace_from, h, h2, ih]

theorem escape_amp_of_not_mem (s : Str) (h : '&' ∉ s) : escape_amp s = s := by
  unfold escape_amp
  induction s with
  | nil => rfl
  | cons c cs ih =>
    have hc : c ≠ '&' := fun e => h (by simp [e])
    have hcs : '&' ∉ cs := fun e => h (by simp [e])
    simp [hc]
    simpa using ih hcs

theorem sbuf_replace_escape_amp (s : Str) :
    sbuf_replace (escape_amp s) "&amp;".toList "&".toList = s := by
  unfold sbuf_replace escape_amp
  induction s with
  | nil => rfl
  | cons c cs ih =>
    have hs : "&".toList = ['&'] := rfl
    have ha : "&amp;".toList = ['&', 'a', 'm', 'p', ';'] := rfl
    rw [hs, ha] at ih ⊢
    by_cases h : c = '&'
    · subst h
      simp only [List.flatMap_def] at ih ⊢
      simp [sbuf_replace_from, ih]
    · have h2 : ¬ '&' = c := fun e => h e.symm
      simp only [List.flatMap_def] at ih ⊢
      simp [sbuf_replace_from, h, h2, ih]

theorem print_it_of_items_ne (out : List Str) (tag : Tag) (h : tag.items ≠ []) :
    print_it out tag
      = out ++ [printf_s tag.label ++ ",^tag(".toList ++ printf_s tag.id ++ ")".toList]
          ++ (if tag.parent.isSome then ["Back,^back()".toList] else [])
          ++ tag.items.map item_line ++ [[]] := by
  have he : tag.items.isEmpty = false := by simpa using h
  unfold print_it
  simp only [foldl_print_item, flatMap_print_item_eq_map]
  cases tag.parent <;> simp [he]

theorem label_escaped_some (item : Item) (s : Str) (h : item.label = some s) :
    label_escaped item = escape_amp s := by
  unfold label_escaped
  rw [h]
  exact sbuf_replace_amp s

theorem item_line_label (item : Item) (s : Str) (h : item.label = some s) :
    (∃ rest, item_line item = escape_amp s ++ rest)
      ∨ item_line item = "^sep(".toList ++ escape_amp s ++ ")".toList := by
  unfold item_line print_item
  rw [label_escaped_some item s h]
  cases item.pipe <;> cases item.checkout <;> cases item.isseparator <;> simp

/-! ## Serializer: the claims -/

/-- C1: for tags that all carry an id, `print_menu` writes the blocks of the
tags whose id is the root identifier, in creation order, then the blocks of the
tags whose id differs from it, in creation order; a tag with an empty item list
has no block, a tag with items has a non-empty block, and the printed tags are
the tags with items, each one once. -/
theorem print_menu_blocks (root_menu : Str) (tags : List Tag) (out : List Str)
    (hid : ∀ t ∈ tags, t.id.isSome = true) :
    print_menu root_menu tags out
        = out ++ ((tags.filter (fun t => decide (t.id = some root_menu))
                    ++ tags.filter (fun t => decide (t.id ≠ some root_menu))).filter
                  (fun t => !t.items.isEmpty)).flatMap (print_it [])
      ∧ (∀ t : Tag, t.items = [] → print_it out t = out)
      ∧ (∀ t : Tag, t.items ≠ [] → print_it [] t ≠ [])
      ∧ ((tags.filter (fun t => decide (t.id = some root_menu))
            ++ tags.filter (fun t => decide (t.id ≠ some root_menu))).filter
          (fun t => !t.items.isEmpty)).Perm
          (tags.filter (fun t => !t.items.isEmpty)) := by
  refine ⟨?_, ?_, ?_, ?_⟩
  · have h1 : (fun (o : List Str) (tag : Tag) =>
          match tag.id with
          | some id => if strcmp id root_menu = 0 then print_it o tag else o
          | none => o)
        = (fun o tag => if decide (tag.id = some root_menu) then print_it o tag else o) := by
      funext o tag
      cases hi : tag.id with
      | none => simp
      | some id => simp [strcmp_eq_zero]
    have h2 : (fun (o : List Str) (tag : Tag) =>
          match tag.id with
          | some id => if strcmp id root_menu ≠ 0 then print_it o tag else o
          | none => o)
        = (fun o tag =>
            if decide (tag.id.isSome = true ∧ tag.id ≠ some root_menu) then print_it o tag
            else o) := by
      funext o tag
      cases hi : tag.id with
      | none => simp
      | some id => simp [strcmp_eq_zero]
    have h3 : tags.filter (fun t => decide (t.id.isSome = true ∧ t.id ≠ some root_menu))
        = tags.filter (fun t => decide (t.id ≠ some root_menu)) := by
      apply List.filter_congr
      intro t ht
      simp [hid t ht]
    unfold print_menu
    simp only [h1, h2]
    rw [foldl_print_it, foldl_print_it, h3, flatMap_print_it_filter, List.flatMap_append,
      List.append_assoc]
  · intro t ht
    rw [print_it_append, (print_it_nil_iff t).2 ht, List.append_nil]
  · intro t ht h
    exact ht ((print_it_nil_iff t).1 h)
  · apply List.Perm.filter
    have h := List.filter_append_perm (fun t : Tag => decide (t.id = some root_menu)) tags
    simpa using h

/-- C1 at a model of three tags. -/
theorem print_menu_blocks_witness :
    print_menu "r".toList
        [⟨some "A".toList, some "a".toList, some 1, [⟨some "x".toList, none, false, false, true⟩]⟩,
         ⟨some "R".toList, some "r".toList, none, [⟨some "y".toList, none, false, false, true⟩]⟩,
         ⟨some "E".toList, some "e".toList, some 1, []⟩] []
      = ["R,^tag(r)".toList, "^sep(y)".toList, [],
         "A,^tag(a)".toList, "Back,^back()".toList, "^sep(x)".toList, []] := by
  have h := (print_menu_blocks "r".toList
    [⟨some "A".toList, some "a".toList, some 1, [⟨some "x".toList, none, false, false, true⟩]⟩,
     ⟨some "R".toList, some "r".toList, none, [⟨some "y".toList, none, false, false, true⟩]⟩,
     ⟨some "E".toList, some "e".toList, some 1, []⟩] [] (by decide)).1
  rw [h]
  decide

/-- C2: for a tag with items, `print_it` writes the tag-open line, then
`Back,^back()` exactly if the tag has a parent, then one line per item in the
order of the item list, then one empty line. -/
theorem print_it_lines (out : List Str) (tag : Tag) (h : tag.items ≠ []) :
    print_it out tag
        = out ++ [printf_s tag.label ++ ",^tag(".toList ++ printf_s tag.id ++ ")".toList]
            ++ (if tag.parent.isSome then ["Back,^back()".toList] else [])
            ++ tag.items.map item_line ++ [[]]
      ∧ (tag.items.map item_line).length = tag.items.length
      ∧ ∀ (o : List Str) (item : Item), print_item o item = o ++ [item_line item] := by
  exact ⟨print_it_of_items_ne out tag h, by simp, print_item_eq_line⟩

/-- C2 at a tag with a parent and two items. -/
theorem print_it_lines_witness :
    print_it [] ⟨some "Sub".toList, some "sub".toList, some 0,
        [⟨some "a".toList, some "xterm".toList, false, false, false⟩,
         ⟨some "b".toList, none, false, false, true⟩]⟩
      = ["Sub,^tag(sub)".toList, "Back,^back()".toList, "a,xterm".toList, "^sep(b)".toList, []] := by
  have h := (print_it_lines [] ⟨some "Sub".toList, some "sub".toList, some 0,
        [⟨some "a".toList, some "xterm".toList, false, false, false⟩,
         ⟨some "b".toList, none, false, false, true⟩]⟩ (by decide)).1
  rw [h]
  decide

/-- C3: the line of an item by kind, with `E` the escaped label, `L` the label
and `C` the command as `printf` writes them: a pipe item gives
`E,^pipe(jgmenu_run ob --cmd='C' --tag='L')`, a checkout item `E,^checkout(C)`,
a separator `^sep(E)`, and a command item `E,C`. -/
theorem print_item_kinds (out : List Str) (label cmd : Option Str) (checkout isseparator : Bool) :
    print_item out ⟨label, cmd, true, checkout, isseparator⟩
        = out ++ [sbuf_replace (sbuf_cpy label) "&".toList "&amp;".toList
            ++ ",^pipe(jgmenu_run ob --cmd='".toList ++ printf_s cmd
            ++ "' --tag='".toList ++ printf_s label ++ "')".toList]
      ∧ print_item out ⟨label, cmd, false, true, isseparator⟩
        = out ++ [sbuf_replace (sbuf_cpy label) "&".toList "&amp;".toList
            ++ ",^checkout(".toList ++ printf_s cmd ++ ")".toList]
      ∧ print_item out ⟨label, cmd, false, false, true⟩
        = out ++ ["^sep(".toList ++ sbuf_replace (sbuf_cpy label) "&".toList "&amp;".toList
            ++ ")".toList]
      ∧ print_item out ⟨label, cmd, false, false, false⟩
        = out ++ [sbuf_replace (sbuf_cpy label) "&".toList "&amp;".toList
            ++ ",".toList ++ printf_s cmd] := by
  refine ⟨?_, ?_, ?_, ?_⟩ <;> simp [print_item, label_escaped]

/-- C4: the escaped label of an item with label `s` is `s` with every `&`
replaced by `&amp;` and every other character kept in place; it opens the line
of the item, or stands inside `^sep(...)`; a label without `&` is unchanged;
and replacing `&amp;` by `&` in the escaped label gives `s` back. -/
theorem label_escaped_amp (s : Str) (cmd : Option Str) (pipe checkout isseparator : Bool) :
    label_escaped ⟨some s, cmd, pipe, checkout, isseparator⟩ = escape_amp s
      ∧ ((∃ rest, item_line ⟨some s, cmd, pipe, checkout, isseparator⟩ = escape_amp s ++ rest)
          ∨ item_line ⟨some s, cmd, pipe, checkout, isseparator⟩
              = "^sep(".toList ++ escape_amp s ++ ")".toList)
      ∧ escape_amp s = (s.map (fun c => if c = '&' then "&amp;".toList else [c])).flatten
      ∧ ('&' ∉ s → escape_amp s = s)
      ∧ sbuf_replace (escape_amp s) "&amp;".toList "&".toList = s := by
  refine ⟨label_escaped_some _ s rfl, item_line_label _ s rfl, ?_, escape_amp_of_not_mem s,
    sbuf_replace_escape_amp s⟩
  simp [escape_amp, List.flatMap_def]

/-- C4 at the label `a&b`. -/
theorem label_escaped_amp_witness :
    label_escaped ⟨some "a&b".toList, none, false, false, false⟩ = "a&amp;b".toList
      ∧ escape_amp "ab".toList = "ab".toList := by
  have h := label_escaped_amp "a&b".toList none false false false
  have h2 := (label_escaped_amp "ab".toList none false false false).2.2.2.1 (by decide)
  exact ⟨h.1.trans (by decide), h2⟩

/-- C5, counterexample: the tag label `A&B` is written as it is stored in the
tag-open line, not as `A&amp;B`. -/
theorem print_it_tag_label_counterexample :
    (print_it [] ⟨some "A&B".toList, some "x".toList, none,
        [⟨some "i".toList, some "c".toList, false, false, false⟩]⟩).head?
        = some "A&B,^tag(x)".toList
      ∧ (print_it [] ⟨some "A&B".toList, some "x".toList, none,
        [⟨some "i".toList, some "c".toList, false, false, false⟩]⟩).head?
        ≠ some (escape_amp "A&B".toList ++ ",^tag(x)".toList) := by
  decide

/-- C5, amended: in the block of a printed tag the tag-open line carries the
label of the tag as it is stored, and the line of every item of the tag is in
the block and carries the escaped label of the item, at its start or inside
`^sep(...)`. -/
theorem print_it_escapes_item_labels (out : List Str) (tag : Tag) (l : Str)
    (h : tag.items ≠ []) (hl : tag.label = some l) :
    (print_it [] tag).head? = some (l ++ ",^tag(".toList ++ printf_s tag.id ++ ")".toList)
      ∧ ∀ (item : Item) (s : Str), item ∈ tag.items → item.label = some s →
          item_line item ∈ print_it out tag
            ∧ ((∃ rest, item_line item = escape_amp s ++ rest)
                ∨ item_line item = "^sep(".toList ++ escape_amp s ++ ")".toList) := by
  have hp := print_it_of_items_ne out tag h
  have hp0 := print_it_of_items_ne [] tag h
  refine ⟨?_, ?_⟩
  · rw [hp0, hl]
    simp [printf_s]
  · intro item s hmem hs
    refine ⟨?_, ?_⟩
    · rw [hp]
      simp only [List.mem_append, List.mem_map]
      exact Or.inl (Or.inr ⟨item, hmem, rfl⟩)
    · exact item_line_label item s hs

/-- C5, amended, at a tag labelled `A&B` with one item labelled `i&j`. -/
theorem print_it_escapes_item_labels_witness :
    (print_it [] ⟨some "A&B".toList, some "x".toList, none,
        [⟨some "i&j".toList, some "c".toList, false, false, false⟩]⟩).head?
      = some ("A&B".toList ++ ",^tag(".toList ++ printf_s (some "x".toList) ++ ")".toList) :=
  (print_it_escapes_item_labels [] ⟨some "A&B".toList, some "x".toList, none,
        [⟨some "i&j".toList, some "c".toList, false, false, false⟩]⟩ "A&B".toList
        (by decide) rfl).1

/-! ## Interpreter: lemmas -/

theorem modify_append_left {α : Type} (f : α → α) (l m : List α) (p : Nat) (hp : p < l.length) :
    (l ++ m).modify f p = l.modify f p ++ m := by
  induction l generalizing p with
  | nil => simp at hp
  | cons a l ih =>
    cases p with
    | zero => simp
    | succ p =>
      have hp2 : p < l.length := by simpa using hp
      simp [ih p hp2]

theorem find_tag_by_id_first (id : Str) (tags : List Tag) (k p : Nat) (hp : p < tags.length)
    (hid : tags[p]?.bind (fun tag => tag.id) = some id)
    (hfirst : ∀ j, j < p → tags[j]?.bind (fun tag => tag.id) ≠ some id) :
    find_tag_by_id id tags k = some (k + p) := by
  induction tags generalizing k p with
  | nil => simp at hp
  | cons tag rest ih =>
    cases p with
    | zero =>
      have h0 : tag.id = some id := by simpa using hid
      simp [find_tag_by_id, h0, strcmp]
    | succ p =>
      have hp2 : p < rest.length := by simpa using hp
      have hid2 : rest[p]?.bind (fun tag => tag.id) = some id := by simpa using hid
      have hfirst2 : ∀ j, j < p → rest[j]?.bind (fun tag => tag.id) ≠ some id := by
        intro j hj
        have := hfirst (j + 1) (by omega)
        simpa using this
      have h0 : tag.id ≠ some id := by
        have := hfirst 0 (by omega)
        simpa using this
      have hrec := ih (k + 1) p hp2 hid2 hfirst2
      have hk : k + 1 + p = k + (p + 1) := by omega
      unfold find_tag_by_id
      cases hi : tag.id with
      | none => simp [hrec, hk]
      | some j =>
        have hj : j ≠ id := fun e => h0 (by rw [hi, e])
        simp [strcmp, hj, hrec, hk]

theorem strcasecmp_menu_ne_pipe (name : Str) (h : strcasecmp name "menu".toList = 0) :
    strcmp name "openbox_pipe_menu".toList ≠ 0 := by
  unfold strcasecmp at h
  unfold strcmp
  split_ifs at h with h1
  · have hlen : name.length = 4 := by
      have := congrArg List.length h1
      simpa using this
    have hne : name ≠ "openbox_pipe_menu".toList := by
      intro e
      rw [e] at hlen
      simp at hlen
    rw [if_neg hne]
    decide
  · simp at h

/-- The item appended as a checkout to a parent tag by `new_tag`. -/
theorem new_tag_with_parent (root_menu : Str) (s : State) (n : NodePtr) (p : Nat) (i : Str)
    (hparent : get_parent_tag root_menu s.tags (some n) = .ok (some p))
    (hp : p < s.tags.length)
    (hi : getProp n.props "id".toList = some i) (hne : i ≠ root_menu) :
    new_tag root_menu (some n) s
      = .ok ⟨s.tags.modify (fun tag => { tag with items := tag.items ++
                [⟨getProp n.props "label".toList, some i, false, true, false⟩] }) p
              ++ [⟨getProp n.props "label".toList, some i, some p, []⟩],
            some s.tags.length,
            some (p, ((s.tags[p]?).map (fun tag => tag.items.length)).getD 0)⟩ := by
  have hs : strcmp i root_menu ≠ 0 := by
    rw [Ne, strcmp_eq_zero]
    exact hne
  unfold new_tag
  simp only [hparent, xmlGetProp, hi]
  simp [bind, Except.bind, pure, Except.pure, hs, new_item, list_add_tail_item, modifyTag,
    modify_append_left _ _ _ _ hp, List.getElem?_append_left hp, hi, xmlGetProp]

/-! ## The walk only appends -/

theorem bind_ok {α β : Type} (x : Except Fault α) (f : α → Except Fault β) (b : β)
    (h : (x >>= f) = .ok b) : ∃ a, x = .ok a ∧ f a = .ok b := by
  cases x with
  | error e => simp [bind, Except.bind] at h
  | ok a => exact ⟨a, rfl, h⟩

theorem TagsGrow.refl (a : List Tag) : TagsGrow a a :=
  fun _ tag h => ⟨tag, h, rfl, rfl, rfl, List.prefix_refl _⟩

theorem TagsGrow.trans {a b c : List Tag} (hab : TagsGrow a b) (hbc : TagsGrow b c) :
    TagsGrow a c := by
  intro t tag h
  obtain ⟨tag1, h1, hl1, hi1, hp1, hs1⟩ := hab t tag h
  obtain ⟨tag2, h2, hl2, hi2, hp2, hs2⟩ := hbc t tag1 h1
  exact ⟨tag2, h2, hl2.trans hl1, hi2.trans hi1, hp2.trans hp1, hs1.trans hs2⟩

theorem tagsGrow_append (a : List Tag) (new : Tag) : TagsGrow a (a ++ [new]) := by
  intro t tag h
  have hlt : t < a.length := (List.getElem?_eq_some_iff.1 h).1
  exact ⟨tag, by rw [List.getElem?_append_left hlt, h], rfl, rfl, rfl, List.prefix_refl _⟩

theorem tagsGrow_modify (a : List Tag) (k : Nat) (f : Tag → Tag)
    (hf : ∀ tag, (f tag).label = tag.label ∧ (f tag).id = tag.id ∧ (f tag).parent = tag.parent
      ∧ tag.items.map Item.shape <+: (f tag).items.map Item.shape) :
    TagsGrow a (a.modify f k) := by
  intro t tag h
  by_cases hk : k = t
  · subst hk
    refine ⟨f tag, by simp [h], (hf tag).1, (hf tag).2.1, (hf tag).2.2.1, (hf tag).2.2.2⟩
  · exact ⟨tag, by rw [List.getElem?_modify_ne f a hk, h], rfl, rfl, rfl, List.prefix_refl _⟩

theorem tagsGrow_add_item (a : List Tag) (k : Nat) (item : Item) :
    TagsGrow a (modifyTag a k (fun tag => { tag with items := tag.items ++ [item] })) := by
  apply tagsGrow_modify
  intro tag
  refine ⟨rfl, rfl, rfl, ?_⟩
  simp

theorem map_shape_modify (items : List Item) (j : Nat) (f : Item → Item)
    (hf : ∀ item, (f item).shape = item.shape) :
    (items.modify f j).map Item.shape = items.map Item.shape := by
  induction items generalizing j with
  | nil => simp
  | cons item rest ih =>
    cases j with
    | zero => simp [hf]
    | succ j => simp [ih]

theorem tagsGrow_modifyItem (a : List Tag) (ref : Nat × Nat) (f : Item → Item)
    (hf : ∀ item, (f item).shape = item.shape) :
    TagsGrow a (modifyItem a ref f) := by
  apply tagsGrow_modify
  intro tag
  refine ⟨rfl, rfl, rfl, ?_⟩
  simp only
  rw [map_shape_modify _ _ _ hf]

theorem tagsGrow_list_add_tail_item (s : State) (k : Nat) (item : Item) :
    TagsGrow s.tags (list_add_tail_item s k item).tags :=
  tagsGrow_add_item s.tags k item

theorem tagsGrow_new_item (root_menu : Str) (n : Option NodePtr) (sep : Bool) (s : State) :
    TagsGrow s.tags (new_item root_menu n sep s).1.tags := by
  unfold new_item
  cases h : s.curtag with
  | none => simpa [h, new_tag_null] using tagsGrow_append s.tags _
  | some c => simpa [h] using TagsGrow.refl s.tags

theorem tagsGrow_new_tag (root_menu : Str) (n : Option NodePtr) (s s' : State)
    (h : new_tag root_menu n s = .ok s') : TagsGrow s.tags s'.tags := by
  unfold new_tag at h
  obtain ⟨parent, _, h⟩ := bind_ok _ _ _ h
  generalize xmlGetProp n "id".toList = idv at h
  generalize xmlGetProp n "label".toList = lbl at h
  cases parent with
  | none =>
    simp only [pure, Except.pure, Except.ok.injEq] at h
    subst h
    exact tagsGrow_append s.tags _
  | some p =>
    cases idv with
    | none => simp [throw, throwThe, MonadExceptOf.throw] at h
    | some i =>
      simp only [Option.isSome_some, if_true] at h
      split_ifs at h with hne
      · simp only [pure, Except.pure, Except.ok.injEq] at h
        subst h
        exact (tagsGrow_append s.tags _).trans
          ((tagsGrow_new_item root_menu n false
              ⟨s.tags ++ [⟨lbl, some i, some p, []⟩], some s.tags.length, s.curitem⟩).trans
            (tagsGrow_list_add_tail_item _ p _))
      · simp only [pure, Except.pure, Except.ok.injEq] at h
        subst h
        exact tagsGrow_append s.tags _

theorem tagsGrow_add_to_curtag (s s' : State) (item : Item)
    (h : add_to_curtag s item = .ok s') : TagsGrow s.tags s'.tags := by
  unfold add_to_curtag at h
  cases hc : s.curtag with
  | none => simp [hc] at h
  | some c =>
    simp only [hc, Except.ok.injEq] at h
    subst h
    exact tagsGrow_list_add_tail_item s c item

theorem tagsGrow_set_curitem_cmd (s s' : State) (v : Str)
    (h : set_curitem_cmd s v = .ok s') : TagsGrow s.tags s'.tags := by
  unfold set_curitem_cmd at h
  cases hc : s.curitem with
  | none => simp [hc] at h
  | some ref =>
    simp only [hc, Except.ok.injEq] at h
    subst h
    exact tagsGrow_modifyItem s.tags ref _ (fun _ => rfl)

theorem tagsGrow_process_node (name : Str) (props : List (Str × Str)) (content : Option Str)
    (ancestors : List Elem) (s s' : State)
    (h : process_node name props content ancestors s = .ok s') : TagsGrow s.tags s'.tags := by
  unfold process_node at h
  simp only at h
  split_ifs at h
  · simp only [Except.ok.injEq] at h
    subst h
    exact TagsGrow.refl _
  · cases content with
    | none =>
      simp only [Except.ok.injEq] at h
      subst h
      exact TagsGrow.refl _
    | some text => exact tagsGrow_set_curitem_cmd s s' _ h
  · cases hsp : get_special_action props with
    | none =>
      simp only [hsp, Except.ok.injEq] at h
      subst h
      exact TagsGrow.refl _
    | some v =>
      simp only [hsp] at h
      exact tagsGrow_set_curitem_cmd s s' _ h
  · simp only [Except.ok.injEq] at h
    subst h
    exact TagsGrow.refl _

theorem revert_to_parent_tags (s : State) : (revert_to_parent s).tags = s.tags := by
  unfold revert_to_parent
  cases s.curtag with
  | none => rfl
  | some c =>
    simp only
    cases (s.tags[c]?).bind (fun tag => tag.parent) <;> rfl

theorem tagsGrow_menu_start (root_menu : Str) (n : NodePtr) (s s' : State) (ret : Bool)
    (h : menu_start root_menu n s = .ok (s', ret)) : TagsGrow s.tags s'.tags := by
  unfold menu_start at h
  simp only at h
  split_ifs at h
  · obtain ⟨s1, h1, h2⟩ := bind_ok _ _ _ h
    simp only [pure, Except.pure, Except.ok.injEq, Prod.mk.injEq] at h2
    rw [← h2.1]
    exact tagsGrow_new_tag root_menu (some n) s s1 h1
  · obtain ⟨s1, h1, h2⟩ := bind_ok _ _ _ h
    simp only [pure, Except.pure, Except.ok.injEq, Prod.mk.injEq] at h2
    rw [← h2.1]
    exact (tagsGrow_new_item root_menu (some n) false s).trans
      (tagsGrow_add_to_curtag _ s1 _ h1)
  · obtain ⟨s1, h1, h2⟩ := bind_ok _ _ _ h
    simp only [pure, Except.pure, Except.ok.injEq, Prod.mk.injEq] at h2
    rw [← h2.1]
    exact (tagsGrow_new_item root_menu (some n) false s).trans
      (tagsGrow_add_to_curtag _ s1 _ h1)
  · simp only [pure, Except.pure, Except.ok.injEq, Prod.mk.injEq] at h
    rw [← h.1]
    exact TagsGrow.refl _

theorem tagsGrow_xml_tree_walk (root_menu : Str) (doc : XmlNode) :
    ∀ (ancestors : List Elem) (s s' : State),
      xml_tree_walk root_menu ancestors doc s = .ok s' → TagsGrow s.tags s'.tags := by
  induction doc with
  | null =>
    intro ancestors s s' h
    simp only [xml_tree_walk, Except.ok.injEq] at h
    subst h
    exact TagsGrow.refl _
  | node name props content children next ihc ihn =>
    intro ancestors s s' h
    cases name with
    | none =>
      simp only [xml_tree_walk, Except.ok.injEq] at h
      subst h
      exact TagsGrow.refl _
    | some name =>
      unfold xml_tree_walk at h
      simp only at h
      split_ifs at h
      · obtain ⟨r, h1, h⟩ := bind_ok _ _ _ h
        obtain ⟨s2, h2, h⟩ := bind_ok _ _ _ h
        have g1 := tagsGrow_menu_start root_menu _ s r.1 r.2 h1
        have g2 := ihc _ _ _ h2
        have g3 := ihn _ _ _ h
        have g4 : (if r.2 = true then revert_to_parent s2 else s2).tags = s2.tags := by
          split_ifs
          · exact revert_to_parent_tags s2
          · rfl
        rw [g4] at g3
        exact g1.trans (g2.trans g3)
      · obtain ⟨s1, h1, h⟩ := bind_ok _ _ _ h
        obtain ⟨s2, h2, h⟩ := bind_ok _ _ _ h
        exact (tagsGrow_new_item root_menu _ false s).trans
          ((tagsGrow_add_to_curtag _ s1 _ h1).trans ((ihc _ _ _ h2).trans (ihn _ _ _ h)))
      · obtain ⟨s1, h1, h⟩ := bind_ok _ _ _ h
        obtain ⟨s2, h2, h⟩ := bind_ok _ _ _ h
        exact (tagsGrow_new_item root_menu _ true s).trans
          ((tagsGrow_add_to_curtag _ s1 _ h1).trans ((ihc _ _ _ h2).trans (ihn _ _ _ h)))
      · exact ihn _ _ _ h
      · obtain ⟨s1, h1, h⟩ := bind_ok _ _ _ h
        obtain ⟨s2, h2, h⟩ := bind_ok _ _ _ h
        exact (tagsGrow_process_node _ _ _ _ s s1 h1).trans
          ((ihc _ _ _ h2).trans (ihn _ _ _ h))

/-! ## Every tag the walk makes has an id -/

theorem ids_append (a : List Tag) (new : Tag) (ha : ∀ t ∈ a, t.id.isSome = true)
    (hn : new.id.isSome = true) : ∀ t ∈ a ++ [new], t.id.isSome = true := by
  intro t ht
  rcases List.mem_append.1 ht with h | h
  · exact ha t h
  · rw [List.mem_singleton.1 h]
    exact hn

theorem ids_modify (a : List Tag) (k : Nat) (f : Tag → Tag) (hf : ∀ tag, (f tag).id = tag.id)
    (ha : ∀ t ∈ a, t.id.isSome = true) : ∀ t ∈ a.modify f k, t.id.isSome = true := by
  intro t ht
  obtain ⟨m, hm⟩ := List.getElem?_of_mem ht
  rw [List.getElem?_modify] at hm
  cases hget : a[m]? with
  | none => simp [hget] at hm
  | some tag =>
    have hmem : tag ∈ a := List.mem_iff_getElem?.2 ⟨m, hget⟩
    simp only [hget, Option.map_eq_map, Option.map_some', Option.some.injEq] at hm
    rw [← hm]
    split_ifs
    · rw [hf]
      exact ha tag hmem
    · exact ha tag hmem

theorem ids_list_add_tail_item (s : State) (k : Nat) (item : Item)
    (ha : ∀ t ∈ s.tags, t.id.isSome = true) :
    ∀ t ∈ (list_add_tail_item s k item).tags, t.id.isSome = true :=
  ids_modify s.tags k _ (fun _ => rfl) ha

theorem ids_new_item (root_menu : Str) (n : Option NodePtr) (sep : Bool) (s : State)
    (ha : ∀ t ∈ s.tags, t.id.isSome = true) :
    ∀ t ∈ (new_item root_menu n sep s).1.tags, t.id.isSome = true := by
  unfold new_item
  cases h : s.curtag with
  | none => simpa [h, new_tag_null] using ids_append s.tags ⟨none, some root_menu, none, []⟩ ha rfl
  | some c => simpa [h] using ha

theorem ids_new_tag (root_menu : Str) (n : Option NodePtr) (s s' : State)
    (h : new_tag root_menu n s = .ok s') (ha : ∀ t ∈ s.tags, t.id.isSome = true) :
    ∀ t ∈ s'.tags, t.id.isSome = true := by
  unfold new_tag at h
  obtain ⟨parent, _, h⟩ := bind_ok _ _ _ h
  generalize xmlGetProp n "id".toList = idv at h
  generalize xmlGetProp n "label".toList = lbl at h
  have hnew : ∀ t ∈ s.tags ++ [(⟨lbl, if idv.isSome = true then idv else some root_menu,
      parent, []⟩ : Tag)], t.id.isSome = true := by
    apply ids_append _ _ ha
    cases idv <;> rfl
  cases parent with
  | none =>
    simp only [pure, Except.pure, Except.ok.injEq] at h
    subst h
    exact hnew
  | some p =>
    cases idv with
    | none => simp [throw, throwThe, MonadExceptOf.throw] at h
    | some i =>
      simp only [Option.isSome_some, if_true] at h hnew
      split_ifs at h with hne
      · simp only [pure, Except.pure, Except.ok.injEq] at h
        subst h
        exact ids_list_add_tail_item _ p _ (ids_new_item root_menu n false _ hnew)
      · simp only [pure, Except.pure, Except.ok.injEq] at h
        subst h
        exact hnew

theorem ids_add_to_curtag (s s' : State) (item : Item) (h : add_to_curtag s item = .ok s')
    (ha : ∀ t ∈ s.tags, t.id.isSome = true) : ∀ t ∈ s'.tags, t.id.isSome = true := by
  unfold add_to_curtag at h
  cases hc : s.curtag with
  | none => simp [hc] at h
  | some c =>
    simp only [hc, Except.ok.injEq] at h
    subst h
    exact ids_list_add_tail_item s c item ha

theorem ids_set_curitem_cmd (s s' : State) (v : Str) (h : set_curitem_cmd s v = .ok s')
    (ha : ∀ t ∈ s.tags, t.id.isSome = true) : ∀ t ∈ s'.tags, t.id.isSome = true := by
  unfold set_curitem_cmd at h
  cases hc : s.curitem with
  | none => simp [hc] at h
  | some ref =>
    simp only [hc, Except.ok.injEq] at h
    subst h
    exact ids_modify s.tags ref.1 _ (fun _ => rfl) ha

theorem ids_process_node (name : Str) (props : List (Str × Str)) (content : Option Str)
    (ancestors : List Elem) (s s' : State)
    (h : process_node name props content ancestors s = .ok s')
    (ha : ∀ t ∈ s.tags, t.id.isSome = true) : ∀ t ∈ s'.tags, t.id.isSome = true := by
  unfold process_node at h
  simp only at h
  split_ifs at h
  · simp only [Except.ok.injEq] at h
    subst h
    exact ha
  · cases content with
    | none =>
      simp only [Except.ok.injEq] at h
      subst h
      exact ha
    | some text => exact ids_set_curitem_cmd s s' _ h ha
  · cases hsp : get_special_action props with
    | none =>
      simp only [hsp, Except.ok.injEq] at h
      subst h
      exact ha
    | some v =>
      simp only [hsp] at h
      exact ids_set_curitem_cmd s s' _ h ha
  · simp only [Except.ok.injEq] at h
    subst h
    exact ha

theorem ids_menu_start (root_menu : Str) (n : NodePtr) (s s' : State) (ret : Bool)
    (h : menu_start root_menu n s = .ok (s', ret)) (ha : ∀ t ∈ s.tags, t.id.isSome = true) :
    ∀ t ∈ s'.tags, t.id.isSome = true := by
  unfold menu_start at h
  simp only at h
  split_ifs at h
  · obtain ⟨s1, h1, h2⟩ := bind_ok _ _ _ h
    simp only [pure, Except.pure, Except.ok.injEq, Prod.mk.injEq] at h2
    rw [← h2.1]
    exact ids_new_tag root_menu (some n) s s1 h1 ha
  · obtain ⟨s1, h1, h2⟩ := bind_ok _ _ _ h
    simp only [pure, Except.pure, Except.ok.injEq, Prod.mk.injEq] at h2
    rw [← h2.1]
    exact ids_add_to_curtag _ s1 _ h1 (ids_new_item root_menu (some n) false s ha)
  · obtain ⟨s1, h1, h2⟩ := bind_ok _ _ _ h
    simp only [pure, Except.pure, Except.ok.injEq, Prod.mk.injEq] at h2
    rw [← h2.1]
    exact ids_add_to_curtag _ s1 _ h1 (ids_new_item root_menu (some n) false s ha)
  · simp only [pure, Except.pure, Except.ok.injEq, Prod.mk.injEq] at h
    rw [← h.1]
    exact ha

/-- Every tag has an id after the walk if every tag had one before; in
particular after the walk from the empty model. -/
theorem ids_xml_tree_walk (root_menu : Str) (doc : XmlNode) :
    ∀ (ancestors : List Elem) (s s' : State),
      xml_tree_walk root_menu ancestors doc s = .ok s' →
      (∀ t ∈ s.tags, t.id.isSome = true) → ∀ t ∈ s'.tags, t.id.isSome = true := by
  induction doc with
  | null =>
    intro ancestors s s' h ha
    simp only [xml_tree_walk, Except.ok.injEq] at h
    subst h
    exact ha
  | node name props content children next ihc ihn =>
    intro ancestors s s' h ha
    cases name with
    | none =>
      simp only [xml_tree_walk, Except.ok.injEq] at h
      subst h
      exact ha
    | some name =>
      unfold xml_tree_walk at h
      simp only at h
      split_ifs at h
      · obtain ⟨r, h1, h⟩ := bind_ok _ _ _ h
        obtain ⟨s2, h2, h⟩ := bind_ok _ _ _ h
        have g1 := ids_menu_start root_menu _ s r.1 r.2 h1 ha
        have g2 := ihc _ _ _ h2 g1
        have g4 : (if r.2 = true then revert_to_parent s2 else s2).tags = s2.tags := by
          split_ifs
          · exact revert_to_parent_tags s2
          · rfl
        exact ihn _ _ _ h (by rw [g4]; exact g2)
      · obtain ⟨s1, h1, h⟩ := bind_ok _ _ _ h
        obtain ⟨s2, h2, h⟩ := bind_ok _ _ _ h
        exact ihn _ _ _ h (ihc _ _ _ h2
          (ids_add_to_curtag _ s1 _ h1 (ids_new_item root_menu _ false s ha)))
      · obtain ⟨s1, h1, h⟩ := bind_ok _ _ _ h
        obtain ⟨s2, h2, h⟩ := bind_ok _ _ _ h
        exact ihn _ _ _ h (ihc _ _ _ h2
          (ids_add_to_curtag _ s1 _ h1 (ids_new_item root_menu _ true s ha)))
      · exact ihn _ _ _ h ha
      · obtain ⟨s1, h1, h⟩ := bind_ok _ _ _ h
        obtain ⟨s2, h2, h⟩ := bind_ok _ _ _ h
        exact ihn _ _ _ h (ihc _ _ _ h2 (ids_process_node _ _ _ _ s s1 h1 ha))

/-! ## The walk, one node at a time -/

theorem xml_tree_walk_menu (root_menu : Str) (ancestors : List Elem) (name : Str)
    (props : List (Str × Str)) (content : Option Str) (children next : XmlNode) (s : State)
    (h : strcasecmp name "menu".toList = 0) :
    xml_tree_walk root_menu ancestors (.node (some name) props content children next) s
      = (menu_start root_menu ⟨some name, props, content, ancestors⟩ s >>= fun r =>
          xml_tree_walk root_menu (⟨some name, props⟩ :: ancestors) children r.1 >>= fun s1 =>
          xml_tree_walk root_menu ancestors next
            (if r.2 then revert_to_parent s1 else s1)) := by
  rw [xml_tree_walk]
  simp only [if_pos h]

theorem xml_tree_walk_item (root_menu : Str) (ancestors : List Elem) (name : Str)
    (props : List (Str × Str)) (content : Option Str) (children next : XmlNode) (s : State)
    (h1 : strcasecmp name "menu".toList ≠ 0) (h2 : strcasecmp name "item".toList = 0) :
    xml_tree_walk root_menu ancestors (.node (some name) props content children next) s
      = (add_to_curtag (new_item root_menu (some ⟨some name, props, content, ancestors⟩) false s).1
            (new_item root_menu (some ⟨some name, props, content, ancestors⟩) false s).2
          >>= fun s1 =>
          xml_tree_walk root_menu (⟨some name, props⟩ :: ancestors) children s1 >>= fun s2 =>
          xml_tree_walk root_menu ancestors next s2) := by
  rw [xml_tree_walk]
  simp only [if_neg h1, if_pos h2]

theorem xml_tree_walk_separator (root_menu : Str) (ancestors : List Elem) (name : Str)
    (props : List (Str × Str)) (content : Option Str) (children next : XmlNode) (s : State)
    (h1 : strcasecmp name "menu".toList ≠ 0) (h2 : strcasecmp name "item".toList ≠ 0)
    (h3 : strcasecmp name "separator".toList = 0) :
    xml_tree_walk root_menu ancestors (.node (some name) props content children next) s
      = (add_to_curtag (new_item root_menu (some ⟨some name, props, content, ancestors⟩) true s).1
            (new_item root_menu (some ⟨some name, props, content, ancestors⟩) true s).2
          >>= fun s1 =>
          xml_tree_walk root_menu (⟨some name, props⟩ :: ancestors) children s1 >>= fun s2 =>
          xml_tree_walk root_menu ancestors next s2) := by
  rw [xml_tree_walk]
  simp only [if_neg h1, if_neg h2, if_pos h3]

theorem xml_tree_walk_comment (root_menu : Str) (ancestors : List Elem) (name : Str)
    (props : List (Str × Str)) (content : Option Str) (children next : XmlNode) (s : State)
    (h1 : strcasecmp name "menu".toList ≠ 0) (h2 : strcasecmp name "item".toList ≠ 0)
    (h3 : strcasecmp name "separator".toList ≠ 0) (h4 : strcasecmp name "Comment".toList = 0) :
    xml_tree_walk root_menu ancestors (.node (some name) props content children next) s
      = xml_tree_walk root_menu ancestors next s := by
  rw [xml_tree_walk]
  simp only [if_neg h1, if_neg h2, if_neg h3, if_pos h4]

theorem xml_tree_walk_other (root_menu : Str) (ancestors : List Elem) (name : Str)
    (props : List (Str × Str)) (content : Option Str) (children next : XmlNode) (s : State)
    (h1 : strcasecmp name "menu".toList ≠ 0) (h2 : strcasecmp name "item".toList ≠ 0)
    (h3 : strcasecmp name "separator".toList ≠ 0) (h4 : strcasecmp name "Comment".toList ≠ 0) :
    xml_tree_walk root_menu ancestors (.node (some name) props content children next) s
      = (process_node name props content ancestors s >>= fun s1 =>
          xml_tree_walk root_menu (⟨some name, props⟩ :: ancestors) children s1 >>= fun s2 =>
          xml_tree_walk root_menu ancestors next s2) := by
  rw [xml_tree_walk]
  simp only [if_neg h1, if_neg h2, if_neg h3, if_neg h4]

theorem xml_tree_walk_null (root_menu : Str) (ancestors : List Elem) (s : State) :
    xml_tree_walk root_menu ancestors .null s = .ok s := by
  rw [xml_tree_walk]

/-! ## Node names -/

theorem get_full_node_name_loop_suffix (ancestors : List Elem) (buf : Str) :
    ∃ pre, get_full_node_name_loop buf ancestors = pre ++ buf := by
  induction ancestors generalizing buf with
  | nil => exact ⟨[], rfl⟩
  | cons parent rest ih =>
    unfold get_full_node_name_loop
    cases parent.name with
    | none => exact ⟨[], rfl⟩
    | some pname =>
      simp only
      split_ifs with h
      · obtain ⟨pre, hpre⟩ := ih (sbuf_prepend (sbuf_prepend buf ".".toList) pname)
        refine ⟨pre ++ pname ++ ".".toList, ?_⟩
        rw [hpre]
        simp [sbuf_prepend]
      · exact ih buf

theorem strstr_of_isPrefixOf (h needle : Str) (hp : needle.isPrefixOf h = true) :
    strstr h needle = true := by
  cases h with
  | nil =>
    cases needle with
    | nil => rfl
    | cons c cs => simp [List.isPrefixOf] at hp
  | cons c cs => simp [strstr, hp]

theorem strstr_append (pre needle post : Str) : strstr (pre ++ (needle ++ post)) needle = true := by
  induction pre with
  | nil =>
    apply strstr_of_isPrefixOf
    simp
  | cons c cs ih =>
    rw [List.cons_append, strstr, ih]
    simp

/-! ## An item with an Execute action -/

theorem process_node_without_content (name : Str) (props : List (Str × Str))
    (ancestors : List Elem) (s : State) (h : get_special_action props = none) :
    process_node name props none ancestors s = .ok s := by
  unfold process_node
  simp only [h, Option.isSome_none, Bool.and_false]
  split_ifs <;> rfl

theorem get_full_node_name_loop_cons (buf pname : Str) (props : List (Str × Str))
    (rest : List Elem) (h : node_filter pname ≠ 0) :
    get_full_node_name_loop buf (⟨some pname, props⟩ :: rest)
      = get_full_node_name_loop (sbuf_prepend (sbuf_prepend buf ".".toList) pname) rest := by
  rw [get_full_node_name_loop]
  simp only [if_pos h]

theorem get_full_node_name_loop_skip (buf pname : Str) (props : List (Str × Str))
    (rest : List Elem) (h : node_filter pname = 0) :
    get_full_node_name_loop buf (⟨some pname, props⟩ :: rest)
      = get_full_node_name_loop buf rest := by
  rw [get_full_node_name_loop]
  simp [h]

theorem get_full_node_name_command (ancestors : List Elem) (aprops iprops : List (Str × Str)) :
    ∃ pre, get_full_node_name "command".toList
        (⟨some "action".toList, aprops⟩ :: ⟨some "item".toList, iprops⟩ :: ancestors)
      = pre ++ "item.action.command".toList := by
  have h0 : strcmp "command".toList "text".toList ≠ 0 := by decide
  have h1 : node_filter "command".toList ≠ 0 := by decide
  have h2 : node_filter "action".toList ≠ 0 := by decide
  have h3 : node_filter "item".toList ≠ 0 := by decide
  obtain ⟨pre, hpre⟩ := get_full_node_name_loop_suffix ancestors "item.action.command".toList
  refine ⟨pre, ?_⟩
  rw [← hpre]
  have hbuf : sbuf_prepend (sbuf_prepend (sbuf_prepend (sbuf_prepend
      (sbuf_prepend [] "command".toList) ".".toList) "action".toList) ".".toList) "item".toList
      = "item.action.command".toList := by decide
  unfold get_full_node_name
  rw [if_neg h0, if_pos h1, get_full_node_name_loop_cons _ _ _ _ h2,
    get_full_node_name_loop_cons _ _ _ _ h3, hbuf]

theorem get_full_node_name_text (ancestors : List Elem) (cprops aprops iprops : List (Str × Str)) :
    get_full_node_name "text".toList
        (⟨some "command".toList, cprops⟩ :: ⟨some "action".toList, aprops⟩
          :: ⟨some "item".toList, iprops⟩ :: ancestors)
      = get_full_node_name "command".toList
        (⟨some "action".toList, aprops⟩ :: ⟨some "item".toList, iprops⟩ :: ancestors) := by
  have h0 : strcmp "command".toList "text".toList ≠ 0 := by decide
  have h1 : strcmp "text".toList "text".toList = 0 := by decide
  unfold get_full_node_name
  rw [if_neg h0, if_pos h1]

theorem process_node_command (ancestors : List Elem) (cprops aprops iprops : List (Str × Str))
    (s : State) :
    process_node "command".toList cprops none
        (⟨some "action".toList, aprops⟩ :: ⟨some "item".toList, iprops⟩ :: ancestors) s
      = match get_special_action cprops with
        | some v => set_curitem_cmd s v
        | none => .ok s := by
  obtain ⟨pre, hpre⟩ := get_full_node_name_command ancestors aprops iprops
  have hs : strstr (pre ++ "item.action.command".toList) "item.action".toList = true :=
    strstr_append pre "item.action".toList ".command".toList
  have hlen : (pre ++ "item.action.command".toList).length ≠ 0 := by simp
  unfold process_node
  simp only [hpre, if_neg hlen, Option.isSome_none, Bool.and_false, hs, if_true]
  rfl

theorem process_node_text (ancestors : List Elem) (tprops cprops aprops iprops : List (Str × Str))
    (text : Str) (s : State) :
    process_node "text".toList tprops (some text)
        (⟨some "command".toList, cprops⟩ :: ⟨some "action".toList, aprops⟩
          :: ⟨some "item".toList, iprops⟩ :: ancestors) s
      = set_curitem_cmd s (strstrip text) := by
  obtain ⟨pre, hpre⟩ := get_full_node_name_command ancestors aprops iprops
  have hs : strstr (pre ++ "item.action.command".toList) "item.action.command".toList = true := by
    have := strstr_append pre "item.action.command".toList []
    simpa using this
  have hlen : (pre ++ "item.action.command".toList).length ≠ 0 := by simp
  unfold process_node
  simp only [get_full_node_name_text, hpre, if_neg hlen, Option.isSome_some, Bool.and_true, hs,
    if_true]

theorem ok_bind {α β : Type} (a : α) (f : α → Except Fault β) :
    ((Except.ok a : Except Fault α) >>= f) = f a := rfl

theorem modify_congr_at {α : Type} (l : List α) (k : Nat) (a : α) (f g : α → α)
    (ha : l[k]? = some a) (hfg : f a = g a) : l.modify f k = l.modify g k := by
  apply List.ext_getElem?
  intro m
  rw [List.getElem?_modify, List.getElem?_modify]
  by_cases hm : k = m
  · subst hm
    simp [ha, hfg]
  · simp [hm]

theorem modifyItem_appended (tags : List Tag) (c : Nat) (tag : Tag) (item : Item)
    (f : Item → Item) (htag : tags[c]? = some tag) :
    modifyItem (tags.modify (fun t => { t with items := t.items ++ [item] }) c)
        (c, tag.items.length) f
      = tags.modify (fun t => { t with items := t.items ++ [f item] }) c := by
  unfold modifyItem modifyTag
  rw [List.modify_modify_eq]
  apply modify_congr_at tags c tag _ _ htag
  simp [List.modify_eq_take_drop]

theorem get_special_action_execute (props : List (Str × Str))
    (h : getProp props "name".toList = some "Execute".toList) :
    get_special_action props = none := by
  have h0 : strcasecmp "Execute".toList "Execute".toList = 0 := by decide
  unfold get_special_action
  rw [h]
  simp only [if_pos h0]

theorem list_add_tail_item_eq (s : State) (c : Nat) (tag : Tag) (item : Item)
    (htag : s.tags[c]? = some tag) :
    list_add_tail_item s c item
      = ⟨s.tags.modify (fun t => { t with items := t.items ++ [item] }) c, s.curtag,
          some (c, tag.items.length)⟩ := by
  unfold list_add_tail_item modifyTag
  rw [htag]
  rfl

theorem set_curitem_cmd_appended (tags : List Tag) (c : Nat) (tag : Tag) (item : Item)
    (cur : Option Nat) (v : Str) (htag : tags[c]? = some tag) :
    set_curitem_cmd
        ⟨tags.modify (fun t => { t with items := t.items ++ [item] }) c, cur,
          some (c, tag.items.length)⟩ v
      = .ok ⟨tags.modify (fun t => { t with items := t.items ++ [{ item with cmd := some v }] }) c,
          cur, some (c, tag.items.length)⟩ := by
  unfold set_curitem_cmd
  simp only
  rw [modifyItem_appended tags c tag item _ htag]

theorem xml_tree_walk_item_execute (root_menu : Str) (ancestors : List Elem) (s : State)
    (c : Nat) (tag : Tag) (iprops aprops cprops tprops : List (Str × Str))
    (icontent : Option Str) (l text : Str) (next : XmlNode)
    (hc : s.curtag = some c) (htag : s.tags[c]? = some tag)
    (hl : getProp iprops "label".toList = some l)
    (hname : getProp aprops "name".toList = some "Execute".toList) :
    xml_tree_walk root_menu ancestors
        (.node (some "item".toList) iprops icontent
          (.node (some "action".toList) aprops none
            (.node (some "command".toList) cprops none
              (.node (some "text".toList) tprops (some text) .null .null) .null) .null) next) s
      = xml_tree_walk root_menu ancestors next
          ⟨s.tags.modify
              (fun t => { t with items := t.items ++
                [⟨some l, some (strstrip text), false, false, false⟩] }) c,
            some c, some (c, tag.items.length)⟩ := by
  have hitem : new_item root_menu (some ⟨some "item".toList, iprops, icontent, ancestors⟩) false s
      = (s, ⟨some l, none, false, false, false⟩) := by
    unfold new_item
    simp only [hc, xmlGetProp, hl]
    rfl
  have hadd : add_to_curtag s ⟨some l, none, false, false, false⟩
      = .ok ⟨s.tags.modify (fun t => { t with items := t.items ++
          [⟨some l, none, false, false, false⟩] }) c, some c, some (c, tag.items.length)⟩ := by
    unfold add_to_curtag
    simp only [hc]
    rw [list_add_tail_item_eq s c tag _ htag, hc]
  rw [xml_tree_walk_item _ _ _ _ _ _ _ _ (by decide) (by decide), hitem]
  simp only [hadd, ok_bind]
  rw [xml_tree_walk_other _ _ _ _ _ _ _ _ (by decide) (by decide) (by decide) (by decide),
    process_node_without_content _ _ _ _ (get_special_action_execute aprops hname), ok_bind,
    xml_tree_walk_other _ _ _ _ _ _ _ _ (by decide) (by decide) (by decide) (by decide),
    process_node_command]
  cases get_special_action cprops with
  | none =>
    simp only [ok_bind]
    rw [xml_tree_walk_other _ _ _ _ _ _ _ _ (by decide) (by decide) (by decide) (by decide),
      process_node_text, set_curitem_cmd_appended _ _ _ _ _ _ htag]
    simp only [ok_bind, xml_tree_walk_null]
  | some v =>
    simp only
    rw [set_curitem_cmd_appended _ _ _ _ _ _ htag]
    simp only [ok_bind]
    rw [xml_tree_walk_other _ _ _ _ _ _ _ _ (by decide) (by decide) (by decide) (by decide),
      process_node_text, set_curitem_cmd_appended _ _ _ _ _ _ htag]
    simp only [ok_bind, xml_tree_walk_null]

theorem get_parent_tag_of_menu (root_menu : Str) (tags : List Tag) (n : NodePtr)
    (parent : Elem) (rest : List Elem) (pname pid : Str) (p : Nat)
    (hanc : n.ancestors = parent :: rest)
    (hpname : parent.name = some pname) (hmenu : strcasecmp pname "menu".toList = 0)
    (hpid : getProp parent.props "id".toList = some pid)
    (hp : p < tags.length)
    (hid : tags[p]?.bind (fun tag => tag.id) = some pid)
    (hfirst : ∀ j, j < p → tags[j]?.bind (fun tag => tag.id) ≠ some pid) :
    get_parent_tag root_menu tags (some n) = .ok (some p) := by
  have hne := strcasecmp_menu_ne_pipe pname hmenu
  have hfind := find_tag_by_id_first pid tags 0 p hp hid hfirst
  unfold get_parent_tag
  simp only [hanc, hpname, if_neg hne, hpid, hfind, Nat.zero_add]

/-! ## Interpreter: the claims -/

/-- C6, counterexample: the menu `<menu label="X">` gets the tag 0 (with the
root identifier as id), and the menu `<menu id="c" label="C">` nested directly
in it gets a tag without parent, while no checkout item is appended to tag 0:
the enclosing node has no `id` attribute to look its tag up by.  The third part
is the walk of the whole document
`<openbox_menu><menu label="X"><menu id="c" label="C"/></menu></openbox_menu>`. -/
theorem menu_start_nested_counterexample :
    menu_start "root-menu".toList
        ⟨some "menu".toList, [("label".toList, "X".toList)], none,
          [⟨some "openbox_menu".toList, []⟩, ⟨none, []⟩]⟩ State.init
        = .ok (⟨[⟨some "X".toList, some "root-menu".toList, none, []⟩], some 0, none⟩, true)
      ∧ menu_start "root-menu".toList
          ⟨some "menu".toList, [("id".toList, "c".toList), ("label".toList, "C".toList)], none,
            [⟨some "menu".toList, [("label".toList, "X".toList)]⟩,
             ⟨some "openbox_menu".toList, []⟩, ⟨none, []⟩]⟩
          ⟨[⟨some "X".toList, some "root-menu".toList, none, []⟩], some 0, none⟩
        = .ok (⟨[⟨some "X".toList, some "root-menu".toList, none, []⟩,
                 ⟨some "C".toList, some "c".toList, none, []⟩], some 1, none⟩, true)
      ∧ xml_tree_walk "root-menu".toList [⟨none, []⟩]
          (.node (some "openbox_menu".toList) [] none
            (.node (some "menu".toList) [("label".toList, "X".toList)] none
              (.node (some "menu".toList)
                [("id".toList, "c".toList), ("label".toList, "C".toList)] none .null .null)
              .null)
            .null)
          State.init
        = .ok ⟨[⟨some "X".toList, some "root-menu".toList, none, []⟩,
                ⟨some "C".toList, some "c".toList, none, []⟩], some 1, none⟩ :=
  ⟨rfl, rfl, rfl⟩

/-- C6, amended: for a `menu` node with a `label`, no `execute` and an `id`
other than the root identifier, nested directly in a `menu` node that has an
`id` attribute, where `p` is the first tag in creation order whose id is that
attribute, `menu_start` appends one tag (id and label of the node, parent `p`,
no items) to the tags and one checkout item (label of the node, target its id)
to the items of tag `p`, changes nothing else in the tags, makes the new tag
the current tag, and returns 1. -/
theorem menu_start_nested_submenu (root_menu : Str) (s : State) (n : NodePtr)
    (parent : Elem) (rest : List Elem) (pname pid l i : Str) (p : Nat)
    (hanc : n.ancestors = parent :: rest)
    (hpname : parent.name = some pname) (hmenu : strcasecmp pname "menu".toList = 0)
    (hpid : getProp parent.props "id".toList = some pid)
    (hp : p < s.tags.length)
    (hid : s.tags[p]?.bind (fun tag => tag.id) = some pid)
    (hfirst : ∀ j, j < p → s.tags[j]?.bind (fun tag => tag.id) ≠ some pid)
    (hl : getProp n.props "label".toList = some l)
    (he : getProp n.props "execute".toList = none)
    (hi : getProp n.props "id".toList = some i) (hne : i ≠ root_menu) :
    menu_start root_menu n s
      = .ok (⟨s.tags.modify
                (fun tag => { tag with items := tag.items ++ [⟨some l, some i, false, true, false⟩] })
                p
              ++ [⟨some l, some i, some p, []⟩],
            some s.tags.length,
            some (p, ((s.tags[p]?).map (fun tag => tag.items.length)).getD 0)⟩, true) := by
  have hparent := get_parent_tag_of_menu root_menu s.tags n parent rest pname pid p hanc hpname
    hmenu hpid hp hid hfirst
  have hnew := new_tag_with_parent root_menu s n p i hparent hp hi hne
  rw [hl] at hnew
  unfold menu_start
  simp only [hl, he, hnew]
  rfl

/-- C6, amended, at the menu `<menu id="c" label="C">` inside
`<menu id="r" label="X">`, whose tag is tag 0. -/
theorem menu_start_nested_submenu_witness :
    menu_start "root-menu".toList
        ⟨some "menu".toList, [("id".toList, "c".toList), ("label".toList, "C".toList)], none,
          [⟨some "menu".toList, [("id".toList, "r".toList), ("label".toList, "X".toList)]⟩]⟩
        ⟨[⟨some "X".toList, some "r".toList, none, []⟩], some 0, none⟩
      = .ok (⟨[⟨some "X".toList, some "r".toList, none,
                  [⟨some "C".toList, some "c".toList, false, true, false⟩]⟩,
               ⟨some "C".toList, some "c".toList, some 0, []⟩], some 1, some (0, 0)⟩, true) :=
  menu_start_nested_submenu "root-menu".toList
    ⟨[⟨some "X".toList, some "r".toList, none, []⟩], some 0, none⟩
    ⟨some "menu".toList, [("id".toList, "c".toList), ("label".toList, "C".toList)], none,
      [⟨some "menu".toList, [("id".toList, "r".toList), ("label".toList, "X".toList)]⟩]⟩
    ⟨some "menu".toList, [("id".toList, "r".toList), ("label".toList, "X".toList)]⟩ []
    "menu".toList "r".toList "C".toList "c".toList 0
    rfl rfl (by decide) (by decide) (by decide) (by decide) (by intro j hj; omega)
    (by decide) (by decide) (by decide) (by decide)

theorem new_tag_no_parent (root_menu : Str) (s : State) (n : Option NodePtr)
    (hparent : get_parent_tag root_menu s.tags n = .ok none) :
    new_tag root_menu n s
      = .ok ⟨s.tags ++ [⟨xmlGetProp n "label".toList,
                (if (xmlGetProp n "id".toList).isSome then xmlGetProp n "id".toList
                 else some root_menu), none, []⟩],
            some s.tags.length, s.curitem⟩ := by
  unfold new_tag
  simp only [hparent]
  rfl

theorem new_tag_root_id (root_menu : Str) (s : State) (n : NodePtr) (parent : Option Nat)
    (hparent : get_parent_tag root_menu s.tags (some n) = .ok parent)
    (hi : getProp n.props "id".toList = some root_menu) :
    new_tag root_menu (some n) s
      = .ok ⟨s.tags ++ [⟨getProp n.props "label".toList, some root_menu, parent, []⟩],
            some s.tags.length, s.curitem⟩ := by
  unfold new_tag
  simp only [hparent, xmlGetProp, hi]
  cases parent with
  | none => rfl
  | some p => simp [bind, Except.bind, pure, Except.pure, strcmp]

theorem new_tag_null_eq (root_menu : Str) (s : State) :
    new_tag root_menu none s = .ok (new_tag_null root_menu s) := by
  rw [new_tag_no_parent root_menu s none rfl]
  rfl

theorem new_tag_absent_id (root_menu : Str) (s : State) (n : NodePtr) (p : Nat)
    (hparent : get_parent_tag root_menu s.tags (some n) = .ok (some p))
    (hi : getProp n.props "id".toList = none) :
    new_tag root_menu (some n) s = .error .strcmp_null_id := by
  unfold new_tag
  simp only [hparent, xmlGetProp, hi]
  rfl

/-- C7, the failing input: on the document
`<openbox_pipe_menu><item label="a"/><menu label="m"/></openbox_pipe_menu>`
the `item` makes the root tag, the `menu` has it as parent and no `id`, and
`new_tag` runs into `strcmp(id, root_menu)` with a null `id`. -/
theorem parse_xml_menu_without_id_fault :
    parse_xml "root-menu".toList
        (.node (some "openbox_pipe_menu".toList) [] none
          (.node (some "item".toList) [("label".toList, "a".toList)] none .null
            (.node (some "menu".toList) [("label".toList, "m".toList)] none .null .null))
          .null)
      = .error .strcmp_null_id :=
  rfl

theorem getElem?_of_map_shape_prefix (items items2 : List Item) (item : Item)
    (h : (items ++ [item]).map Item.shape <+: items2.map Item.shape) :
    ∃ item2, items2[items.length]? = some item2 ∧ item2.shape = item.shape := by
  obtain ⟨more, hmore⟩ := h
  have h1 : (items2.map Item.shape)[items.length]? = some item.shape := by
    rw [← hmore, List.map_append, List.append_assoc,
      List.getElem?_append_right (by simp)]
    simp
  rw [List.getElem?_map] at h1
  cases h2 : items2[items.length]? with
  | none => simp [h2] at h1
  | some item2 =>
    refine ⟨item2, rfl, ?_⟩
    simpa [h2] using h1

theorem get_tag_label_eq_find (tags : List Tag) (i : Str) :
    get_tag_label tags (some i)
      = (tags.find? (fun t => decide (t.id = some i))).bind (fun t => t.label) := by
  have hfun : (fun (tag : Tag) =>
        match tag.id with
        | some j => decide (strcmp j i = 0)
        | none => false) = (fun t => decide (t.id = some i)) := by
    funext tag
    cases tag.id with
    | none => simp
    | some j => simp [strcmp_eq_zero]
  unfold get_tag_label
  simp only [hfun]
  cases tags.find? (fun t => decide (t.id = some i)) <;> rfl

theorem menu_start_of_execute (root_menu : Str) (s : State) (n : NodePtr) (c : Nat) (tag : Tag)
    (e : Str) (hc : s.curtag = some c) (htag : s.tags[c]? = some tag)
    (he : getProp n.props "execute".toList = some e) :
    menu_start root_menu n s
      = .ok (⟨s.tags.modify (fun t => { t with items := t.items ++
                [⟨getProp n.props "label".toList, some e, true, false, false⟩] }) c,
            some c, some (c, tag.items.length)⟩, false) := by
  unfold menu_start
  simp only [he, new_item, hc, xmlGetProp, add_to_curtag]
  simp [bind, Except.bind, pure, Except.pure, hc, list_add_tail_item_eq s c tag _ htag]

theorem menu_start_of_id (root_menu : Str) (s : State) (n : NodePtr) (c : Nat) (tag : Tag)
    (i : Str) (hc : s.curtag = some c) (htag : s.tags[c]? = some tag)
    (hl : getProp n.props "label".toList = none)
    (he : getProp n.props "execute".toList = none)
    (hi : getProp n.props "id".toList = some i) :
    menu_start root_menu n s
      = .ok (⟨s.tags.modify (fun t => { t with items := t.items ++
                [⟨get_tag_label s.tags (some i), some i, false, true, false⟩] }) c,
            some c, some (c, tag.items.length)⟩, false) := by
  unfold menu_start
  simp only [hl, he, hi, new_item, hc, xmlGetProp, add_to_curtag]
  simp [bind, Except.bind, pure, Except.pure, hc, list_add_tail_item_eq s c tag _ htag]

/-- C8: for a `menu` node with an `id` and neither `label` nor `execute`, in a
state whose current tag is tag `c`, `menu_start` returns 0 and appends one
checkout item to tag `c`: its target is the id of the node and its label is the
label of the first tag in creation order that has that id at that moment, or
absent if there is none.  No tag is added, the other tags and the current tag
are unchanged, and whatever is walked afterwards, the item stays at its place
with that label. -/
theorem menu_start_forward_checkout (root_menu : Str) (s : State) (n : NodePtr) (c : Nat)
    (tag : Tag) (i : Str) (hc : s.curtag = some c) (htag : s.tags[c]? = some tag)
    (hl : getProp n.props "label".toList = none)
    (he : getProp n.props "execute".toList = none)
    (hi : getProp n.props "id".toList = some i) :
    ∃ s' : State, menu_start root_menu n s = .ok (s', false)
      ∧ s'.tags = s.tags.modify (fun t => { t with items := t.items ++
          [⟨(s.tags.find? (fun t => decide (t.id = some i))).bind (fun t => t.label),
            some i, false, true, false⟩] }) c
      ∧ s'.tags[c]? = some { tag with items := tag.items ++
          [⟨(s.tags.find? (fun t => decide (t.id = some i))).bind (fun t => t.label),
            some i, false, true, false⟩] }
      ∧ s'.tags.length = s.tags.length
      ∧ s'.curtag = some c
      ∧ s'.curitem = some (c, tag.items.length)
      ∧ ∀ (ancestors : List Elem) (doc : XmlNode) (s2 : State),
          xml_tree_walk root_menu ancestors doc s' = .ok s2 →
          ∃ tag2 item2, s2.tags[c]? = some tag2 ∧ tag2.items[tag.items.length]? = some item2
            ∧ item2.label
                = (s.tags.find? (fun t => decide (t.id = some i))).bind (fun t => t.label)
            ∧ item2.checkout = true := by
  have hm := menu_start_of_id root_menu s n c tag i hc htag hl he hi
  rw [get_tag_label_eq_find] at hm
  refine ⟨_, hm, rfl, by simp [htag], by simp, rfl, rfl, ?_⟩
  intro ancestors doc s2 hw
  have hg := tagsGrow_xml_tree_walk root_menu doc ancestors _ s2 hw
  have hget : (s.tags.modify (fun t => { t with items := t.items ++
      [⟨(s.tags.find? (fun t => decide (t.id = some i))).bind (fun t => t.label),
        some i, false, true, false⟩] }) c)[c]?
      = some { tag with items := tag.items ++
          [⟨(s.tags.find? (fun t => decide (t.id = some i))).bind (fun t => t.label),
            some i, false, true, false⟩] } := by
    simp [htag]
  obtain ⟨tag2, h2, _, _, _, hpre⟩ := hg c _ hget
  obtain ⟨item2, h3, h4⟩ := getElem?_of_map_shape_prefix tag.items tag2.items _ hpre
  refine ⟨tag2, item2, h2, h3, ?_, ?_⟩
  · exact congrArg (fun x => x.1) h4
  · exact congrArg (fun x => x.2.2.1) h4

/-- C8 at `<menu id="later"/>` with the tags `root-menu` and `later`. -/
theorem menu_start_forward_checkout_witness :
    ∃ s' : State,
      menu_start "root-menu".toList
          ⟨some "menu".toList, [("id".toList, "later".toList)], none, []⟩
          ⟨[⟨some "R".toList, some "root-menu".toList, none, []⟩,
            ⟨some "L".toList, some "later".toList, none, []⟩], some 0, none⟩ = .ok (s', false)
        ∧ s'.tags[0]? = some ⟨some "R".toList, some "root-menu".toList, none,
            [⟨some "L".toList, some "later".toList, false, true, false⟩]⟩ := by
  obtain ⟨s', h1, _, h3, _⟩ := menu_start_forward_checkout "root-menu".toList
    ⟨[⟨some "R".toList, some "root-menu".toList, none, []⟩,
      ⟨some "L".toList, some "later".toList, none, []⟩], some 0, none⟩
    ⟨some "menu".toList, [("id".toList, "later".toList)], none, []⟩ 0
    ⟨some "R".toList, some "root-menu".toList, none, []⟩ "later".toList
    rfl rfl (by decide) (by decide) (by decide)
  exact ⟨s', h1, h3⟩

/-- C9: for a `menu` node with an `execute` attribute, whatever its other
attributes, in a state whose current tag is tag `c`, `menu_start` returns 0 and
appends one pipe item to tag `c`, with the `execute` value as command and the
`label` attribute of the node, if any, as label.  No tag is added, and the
other tags and the current tag are unchanged. -/
theorem menu_start_pipe_menu (root_menu : Str) (s : State) (n : NodePtr) (c : Nat)
    (tag : Tag) (e : Str) (hc : s.curtag = some c) (htag : s.tags[c]? = some tag)
    (he : getProp n.props "execute".toList = some e) :
    ∃ s' : State, menu_start root_menu n s = .ok (s', false)
      ∧ s'.tags = s.tags.modify (fun t => { t with items := t.items ++
          [⟨getProp n.props "label".toList, some e, true, false, false⟩] }) c
      ∧ s'.tags[c]? = some { tag with items := tag.items ++
          [⟨getProp n.props "label".toList, some e, true, false, false⟩] }
      ∧ (∀ k, k ≠ c → s'.tags[k]? = s.tags[k]?)
      ∧ s'.tags.length = s.tags.length
      ∧ s'.curtag = s.curtag
      ∧ s'.curitem = some (c, tag.items.length) := by
  have hm := menu_start_of_execute root_menu s n c tag e hc htag he
  refine ⟨_, hm, rfl, by simp [htag], ?_, by simp, hc.symm, rfl⟩
  intro k hk
  exact List.getElem?_modify_ne _ _ (Ne.symm hk)

/-- C9 at `<menu id="p" label="P" execute="cmd"/>` with one tag. -/
theorem menu_start_pipe_menu_witness :
    ∃ s' : State,
      menu_start "root-menu".toList
          ⟨some "menu".toList,
            [("id".toList, "p".toList), ("label".toList, "P".toList),
             ("execute".toList, "cmd".toList)], none, []⟩
          ⟨[⟨some "R".toList, some "root-menu".toList, none, []⟩], some 0, none⟩ = .ok (s', false)
        ∧ s'.tags = [⟨some "R".toList, some "root-menu".toList, none,
            [⟨some "P".toList, some "cmd".toList, true, false, false⟩]⟩] := by
  obtain ⟨s', h1, h2, _⟩ := menu_start_pipe_menu "root-menu".toList
    ⟨[⟨some "R".toList, some "root-menu".toList, none, []⟩], some 0, none⟩
    ⟨some "menu".toList,
      [("id".toList, "p".toList), ("label".toList, "P".toList),
       ("execute".toList, "cmd".toList)], none, []⟩ 0
    ⟨some "R".toList, some "root-menu".toList, none, []⟩ "cmd".toList
    rfl rfl (by decide)
  exact ⟨s', h1, h2⟩

/-- The model of `strstrip` removes leading and trailing whitespace and
nothing else. -/
theorem strstrip_spec (s : Str) :
    ∃ pre post, s = pre ++ strstrip s ++ post
      ∧ (∀ c ∈ pre, isspace c = true) ∧ (∀ c ∈ post, isspace c = true)
      ∧ (∀ c, (strstrip s).head? = some c → isspace c = false)
      ∧ (∀ c, (strstrip s).getLast? = some c → isspace c = false) := by
  refine ⟨(s.reverse.dropWhile isspace).reverse.takeWhile isspace,
    (s.reverse.takeWhile isspace).reverse, ?_, ?_, ?_, ?_, ?_⟩
  · unfold strstrip
    rw [List.takeWhile_append_dropWhile, ← List.reverse_append, List.takeWhile_append_dropWhile,
      List.reverse_reverse]
  · intro c hc
    exact List.mem_takeWhile_imp hc
  · intro c hc
    exact List.mem_takeWhile_imp (List.mem_reverse.1 hc)
  · intro c hc
    have h := List.head?_dropWhile_not isspace (s.reverse.dropWhile isspace).reverse
    unfold strstrip at hc
    rw [hc] at h
    simpa using h
  · intro c hc
    have hm : ((s.reverse.dropWhile isspace).reverse).getLast? = some c := by
      have hsplit := List.takeWhile_append_dropWhile isspace (s.reverse.dropWhile isspace).reverse
      rw [← hsplit, List.getLast?_append]
      unfold strstrip at hc
      rw [hc]
      rfl
    rw [List.getLast?_reverse] at hm
    have h := List.head?_dropWhile_not isspace s.reverse
    rw [hm] at h
    simpa using h

/-- C10: for an `item` node with label `l` whose only child is an `action`
node with `name="Execute"`, whose only child is a `command` node, whose only
child is a text node with payload `text`, in a state whose current tag is tag
`c`, the walk of the node and its subtree appends one command item with label
`l` and command `strstrip text` to tag `c` and makes it the current item, and
goes on with the next sibling; `print_it` writes for that item the line
`<escaped l>,<strstrip text>`; and `strstrip text` is `text` without its
leading and trailing whitespace. -/
theorem item_execute_command (root_menu : Str) (ancestors : List Elem) (s : State)
    (c : Nat) (tag : Tag) (iprops aprops cprops tprops : List (Str × Str))
    (icontent : Option Str) (l text : Str) (next : XmlNode) (out : List Str)
    (hc : s.curtag = some c) (htag : s.tags[c]? = some tag)
    (hl : getProp iprops "label".toList = some l)
    (hname : getProp aprops "name".toList = some "Execute".toList) :
    xml_tree_walk root_menu ancestors
        (.node (some "item".toList) iprops icontent
          (.node (some "action".toList) aprops none
            (.node (some "command".toList) cprops none
              (.node (some "text".toList) tprops (some text) .null .null) .null) .null) next) s
      = xml_tree_walk root_menu ancestors next
          ⟨s.tags.modify
              (fun t => { t with items := t.items ++
                [⟨some l, some (strstrip text), false, false, false⟩] }) c,
            some c, some (c, tag.items.length)⟩
      ∧ (s.tags.modify
              (fun t => { t with items := t.items ++
                [⟨some l, some (strstrip text), false, false, false⟩] }) c)[c]?
          = some { tag with items := tag.items ++
              [⟨some l, some (strstrip text), false, false, false⟩] }
      ∧ print_item out ⟨some l, some (strstrip text), false, false, false⟩
          = out ++ [escape_amp l ++ ",".toList ++ strstrip text]
      ∧ ∃ pre post, text = pre ++ strstrip text ++ post
          ∧ (∀ ch ∈ pre, isspace ch = true) ∧ (∀ ch ∈ post, isspace ch = true)
          ∧ (∀ ch, (strstrip text).head? = some ch → isspace ch = false)
          ∧ (∀ ch, (strstrip text).getLast? = some ch → isspace ch = false) := by
  refine ⟨xml_tree_walk_item_execute root_menu ancestors s c tag iprops aprops cprops tprops
    icontent l text next hc htag hl hname, by simp [htag], ?_, strstrip_spec text⟩
  have he : label_escaped ⟨some l, some (strstrip text), false, false, false⟩ = escape_amp l :=
    label_escaped_some _ l rfl
  unfold print_item
  simp [he, printf_s]

/-- C10 at `<item label="Web"><action name="Execute"><command>firefox</command>
</action></item>`: the line is `Web,firefox`. -/
theorem item_execute_command_witness :
    xml_tree_walk "root-menu".toList [⟨some "openbox_menu".toList, []⟩]
        (.node (some "item".toList) [("label".toList, "Web".toList)] none
          (.node (some "action".toList) [("name".toList, "Execute".toList)] none
            (.node (some "command".toList) [] none
              (.node (some "text".toList) [] (some "firefox".toList) .null .null) .null) .null)
          .null)
        ⟨[⟨some "R".toList, some "root-menu".toList, none, []⟩], some 0, none⟩
      = .ok ⟨[⟨some "R".toList, some "root-menu".toList, none,
                [⟨some "Web".toList, some "firefox".toList, false, false, false⟩]⟩],
            some 0, some (0, 0)⟩
      ∧ print_item [] ⟨some "Web".toList, some (strstrip "firefox".toList), false, false, false⟩
          = [] ++ ["Web,firefox".toList] := by
  have h := item_execute_command "root-menu".toList [⟨some "openbox_menu".toList, []⟩]
    ⟨[⟨some "R".toList, some "root-menu".toList, none, []⟩], some 0, none⟩ 0
    ⟨some "R".toList, some "root-menu".toList, none, []⟩
    [("label".toList, "Web".toList)] [("name".toList, "Execute".toList)] [] [] none
    "Web".toList "firefox".toList .null [] rfl rfl (by decide) (by decide)
  exact ⟨h.1.trans rfl, h.2.2.1.trans (by decide)⟩

/-! ## Names compared without case -/

theorem strcasecmp_length (a b : Str) (h : strcasecmp a b = 0) : a.length = b.length := by
  unfold strcasecmp at h
  split_ifs at h with h1
  · have := congrArg List.length h1
    simpa using this
  · simp at h

theorem strcasecmp_ne_of_length (a b : Str) (h : a.length ≠ b.length) : strcasecmp a b ≠ 0 :=
  fun h0 => h (strcasecmp_length a b h0)

theorem strcasecmp_trans_ne (a b c : Str) (hab : strcasecmp a b = 0)
    (hbc : b.map Char.toLower ≠ c.map Char.toLower) : strcasecmp a c ≠ 0 := by
  unfold strcasecmp at hab ⊢
  split_ifs at hab with h1
  · rw [if_neg (by rw [h1]; exact hbc)]
    decide
  · simp at hab

/-! ## Separators and built-in actions -/

theorem xml_tree_walk_separator_leaf (root_menu : Str) (ancestors : List Elem) (s : State)
    (c : Nat) (tag : Tag) (name : Str) (props : List (Str × Str)) (content : Option Str)
    (next : XmlNode) (hname : strcasecmp name "separator".toList = 0)
    (hc : s.curtag = some c) (htag : s.tags[c]? = some tag) :
    xml_tree_walk root_menu ancestors (.node (some name) props content .null next) s
      = xml_tree_walk root_menu ancestors next
          ⟨s.tags.modify
              (fun t => { t with items := t.items ++
                [⟨getProp props "label".toList, none, false, false, true⟩] }) c,
            some c, some (c, tag.items.length)⟩ := by
  have hlen : name.length = 9 := strcasecmp_length _ _ hname
  have h1 : strcasecmp name "menu".toList ≠ 0 :=
    strcasecmp_ne_of_length _ _ (by rw [hlen]; decide)
  have h2 : strcasecmp name "item".toList ≠ 0 :=
    strcasecmp_ne_of_length _ _ (by rw [hlen]; decide)
  have hitem : new_item root_menu (some ⟨some name, props, content, ancestors⟩) true s
      = (s, ⟨getProp props "label".toList, none, false, false, true⟩) := by
    unfold new_item
    simp only [hc, xmlGetProp]
    rfl
  have hadd : add_to_curtag s ⟨getProp props "label".toList, none, false, false, true⟩
      = .ok ⟨s.tags.modify (fun t => { t with items := t.items ++
          [⟨getProp props "label".toList, none, false, false, true⟩] }) c, some c,
          some (c, tag.items.length)⟩ := by
    unfold add_to_curtag
    simp only [hc]
    rw [list_add_tail_item_eq s c tag _ htag, hc]
  rw [xml_tree_walk_separator _ _ _ _ _ _ _ _ h1 h2 hname, hitem]
  simp only [hadd, ok_bind, xml_tree_walk_null]

/-- C12: for a node named `separator` (in any case) with a `label` attribute `l`
and no children, in a state whose current tag is tag `c`, the walk appends one
separator item with label `l` and no command to tag `c`, makes it the current
item, and goes on with the next sibling; `print_it` writes for that item the
single line `^sep(<escaped l>)`, which for the label `—` is `^sep(—)`. -/
theorem separator_line (root_menu : Str) (ancestors : List Elem) (s : State)
    (c : Nat) (tag : Tag) (name : Str) (props : List (Str × Str)) (content : Option Str)
    (next : XmlNode) (l : Str) (out : List Str)
    (hname : strcasecmp name "separator".toList = 0)
    (hc : s.curtag = some c) (htag : s.tags[c]? = some tag)
    (hl : getProp props "label".toList = some l) :
    xml_tree_walk root_menu ancestors (.node (some name) props content .null next) s
      = xml_tree_walk root_menu ancestors next
          ⟨s.tags.modify
              (fun t => { t with items := t.items ++ [⟨some l, none, false, false, true⟩] }) c,
            some c, some (c, tag.items.length)⟩
      ∧ (s.tags.modify
              (fun t => { t with items := t.items ++ [⟨some l, none, false, false, true⟩] }) c)[c]?
          = some { tag with items := tag.items ++ [⟨some l, none, false, false, true⟩] }
      ∧ (s.tags.modify
              (fun t => { t with items := t.items ++ [⟨some l, none, false, false, true⟩] })
              c).length = s.tags.length
      ∧ print_item out ⟨some l, none, false, false, true⟩
          = out ++ ["^sep(".toList ++ escape_amp l ++ ")".toList]
      ∧ print_item out ⟨some "—".toList, none, false, false, true⟩
          = out ++ ["^sep(—)".toList] := by
  have hw := xml_tree_walk_separator_leaf root_menu ancestors s c tag name props content next
    hname hc htag
  rw [hl] at hw
  refine ⟨hw, by simp [htag], by simp, ?_, ?_⟩
  · have he : label_escaped ⟨some l, none, false, false, true⟩ = escape_amp l :=
      label_escaped_some _ l rfl
    unfold print_item
    simp [he]
  · have he : label_escaped ⟨some "—".toList, none, false, false, true⟩ = "—".toList := by
      decide
    unfold print_item
    simp only [he]
    simp

/-- C12 at `<separator label="—"/>` in a model with one tag. -/
theorem separator_line_witness :
    xml_tree_walk "root-menu".toList [⟨some "openbox_menu".toList, []⟩]
        (.node (some "separator".toList) [("label".toList, "—".toList)] none .null .null)
        ⟨[⟨some "R".toList, some "root-menu".toList, none, []⟩], some 0, none⟩
      = .ok ⟨[⟨some "R".toList, some "root-menu".toList, none,
                [⟨some "—".toList, none, false, false, true⟩]⟩], some 0, some (0, 0)⟩ :=
  (separator_line "root-menu".toList [⟨some "openbox_menu".toList, []⟩]
    ⟨[⟨some "R".toList, some "root-menu".toList, none, []⟩], some 0, none⟩ 0
    ⟨some "R".toList, some "root-menu".toList, none, []⟩ "separator".toList
    [("label".toList, "—".toList)] none .null "—".toList [] (by decide) rfl rfl
    (by decide)).1.trans rfl

theorem get_full_node_name_action (ancestors : List Elem) (iprops : List (Str × Str)) :
    ∃ pre, get_full_node_name "action".toList (⟨some "item".toList, iprops⟩ :: ancestors)
      = pre ++ "item.action".toList := by
  have h0 : strcmp "action".toList "text".toList ≠ 0 := by decide
  have h1 : node_filter "action".toList ≠ 0 := by decide
  have h3 : node_filter "item".toList ≠ 0 := by decide
  obtain ⟨pre, hpre⟩ := get_full_node_name_loop_suffix ancestors "item.action".toList
  refine ⟨pre, ?_⟩
  rw [← hpre]
  have hbuf : sbuf_prepend (sbuf_prepend (sbuf_prepend [] "action".toList) ".".toList)
      "item".toList = "item.action".toList := by decide
  unfold get_full_node_name
  rw [if_neg h0, if_pos h1, get_full_node_name_loop_cons _ _ _ _ h3, hbuf]

theorem process_node_action (ancestors : List Elem) (aprops iprops : List (Str × Str))
    (s : State) :
    process_node "action".toList aprops none (⟨some "item".toList, iprops⟩ :: ancestors) s
      = match get_special_action aprops with
        | some v => set_curitem_cmd s v
        | none => .ok s := by
  obtain ⟨pre, hpre⟩ := get_full_node_name_action ancestors iprops
  have hs : strstr (pre ++ "item.action".toList) "item.action".toList = true := by
    have := strstr_append pre "item.action".toList []
    simpa using this
  have hlen : (pre ++ "item.action".toList).length ≠ 0 := by simp
  unfold process_node
  simp only [hpre, if_neg hlen, Option.isSome_none, Bool.and_false, hs, if_true]
  rfl

theorem get_special_action_reconfigure (props : List (Str × Str)) (a : Str)
    (h : getProp props "name".toList = some a)
    (ha : strcasecmp a "reconfigure".toList = 0) :
    get_special_action props = some "openbox --reconfigure".toList := by
  have hlen : a.length = 11 := strcasecmp_length _ _ ha
  have h0 : strcasecmp a "Execute".toList ≠ 0 :=
    strcasecmp_ne_of_length _ _ (by rw [hlen]; decide)
  unfold get_special_action
  rw [h]
  simp only [if_neg h0, if_pos ha]

theorem get_special_action_restart (props : List (Str × Str)) (a : Str)
    (h : getProp props "name".toList = some a)
    (ha : strcasecmp a "restart".toList = 0) :
    get_special_action props = some "openbox --restart".toList := by
  have hlen : a.length = 7 := strcasecmp_length _ _ ha
  have h0 : strcasecmp a "Execute".toList ≠ 0 :=
    strcasecmp_trans_ne a "restart".toList "Execute".toList ha (by decide)
  have h1 : strcasecmp a "reconfigure".toList ≠ 0 :=
    strcasecmp_ne_of_length _ _ (by rw [hlen]; decide)
  unfold get_special_action
  rw [h]
  simp only [if_neg h0, if_neg h1, if_pos ha]

theorem get_special_action_execute_nocase (props : List (Str × Str)) (a : Str)
    (h : getProp props "name".toList = some a)
    (ha : strcasecmp a "Execute".toList = 0) :
    get_special_action props = none := by
  unfold get_special_action
  rw [h]
  simp only [if_pos ha]

theorem xml_tree_walk_item_special (root_menu : Str) (ancestors : List Elem) (s : State)
    (c : Nat) (tag : Tag) (iprops aprops : List (Str × Str)) (icontent : Option Str)
    (l v : Str) (next : XmlNode)
    (hc : s.curtag = some c) (htag : s.tags[c]? = some tag)
    (hl : getProp iprops "label".toList = some l)
    (hv : get_special_action aprops = some v) :
    xml_tree_walk root_menu ancestors
        (.node (some "item".toList) iprops icontent
          (.node (some "action".toList) aprops none .null .null) next) s
      = xml_tree_walk root_menu ancestors next
          ⟨s.tags.modify
              (fun t => { t with items := t.items ++ [⟨some l, some v, false, false, false⟩] }) c,
            some c, some (c, tag.items.length)⟩ := by
  have hitem : new_item root_menu (some ⟨some "item".toList, iprops, icontent, ancestors⟩) false s
      = (s, ⟨some l, none, false, false, false⟩) := by
    unfold new_item
    simp only [hc, xmlGetProp, hl]
    rfl
  have hadd : add_to_curtag s ⟨some l, none, false, false, false⟩
      = .ok ⟨s.tags.modify (fun t => { t with items := t.items ++
          [⟨some l, none, false, false, false⟩] }) c, some c, some (c, tag.items.length)⟩ := by
    unfold add_to_curtag
    simp only [hc]
    rw [list_add_tail_item_eq s c tag _ htag, hc]
  rw [xml_tree_walk_item _ _ _ _ _ _ _ _ (by decide) (by decide), hitem]
  simp only [hadd, ok_bind]
  rw [xml_tree_walk_other _ _ _ _ _ _ _ _ (by decide) (by decide) (by decide) (by decide),
    process_node_action, hv]
  simp only
  rw [set_curitem_cmd_appended _ _ _ _ _ _ htag]
  simp only [ok_bind, xml_tree_walk_null]

theorem print_item_command (out : List Str) (l cmd : Str) :
    print_item out ⟨some l, some cmd, false, false, false⟩
      = out ++ [escape_amp l ++ ",".toList ++ cmd] := by
  have he : label_escaped ⟨some l, some cmd, false, false, false⟩ = escape_amp l :=
    label_escaped_some _ l rfl
  unfold print_item
  simp [he, printf_s]

/-- C11: for an `item` node with label `l` whose only child is an `action` node
without children, in a state whose current tag is tag `c`: if the `name`
attribute of the action is `reconfigure` (respectively `restart`) in any case,
the walk appends one command item with label `l` and command
`openbox --reconfigure` (respectively `openbox --restart`) to tag `c`, and
`print_it` writes for it the line `<escaped l>,openbox --reconfigure`
(respectively `<escaped l>,openbox --restart`); if the `name` is `Execute`,
`process_node` on the action node leaves the state as it is. -/
theorem item_special_action (root_menu : Str) (ancestors : List Elem) (s : State)
    (c : Nat) (tag : Tag) (iprops aprops : List (Str × Str)) (icontent : Option Str)
    (l a : Str) (next : XmlNode) (out : List Str)
    (hc : s.curtag = some c) (htag : s.tags[c]? = some tag)
    (hl : getProp iprops "label".toList = some l)
    (hname : getProp aprops "name".toList = some a) :
    (strcasecmp a "reconfigure".toList = 0 →
        xml_tree_walk root_menu ancestors
            (.node (some "item".toList) iprops icontent
              (.node (some "action".toList) aprops none .null .null) next) s
          = xml_tree_walk root_menu ancestors next
              ⟨s.tags.modify (fun t => { t with items := t.items ++
                  [⟨some l, some "openbox --reconfigure".toList, false, false, false⟩] }) c,
                some c, some (c, tag.items.length)⟩)
      ∧ (strcasecmp a "restart".toList = 0 →
        xml_tree_walk root_menu ancestors
            (.node (some "item".toList) iprops icontent
              (.node (some "action".toList) aprops none .null .null) next) s
          = xml_tree_walk root_menu ancestors next
              ⟨s.tags.modify (fun t => { t with items := t.items ++
                  [⟨some l, some "openbox --restart".toList, false, false, false⟩] }) c,
                some c, some (c, tag.items.length)⟩)
      ∧ print_item out ⟨some l, some "openbox --reconfigure".toList, false, false, false⟩
          = out ++ [escape_amp l ++ ",openbox --reconfigure".toList]
      ∧ print_item out ⟨some l, some "openbox --restart".toList, false, false, false⟩
          = out ++ [escape_amp l ++ ",openbox --restart".toList]
      ∧ (strcasecmp a "Execute".toList = 0 →
        ∀ (anc : List Elem) (s0 : State),
          process_node "action".toList aprops none anc s0 = .ok s0) := by
  refine ⟨?_, ?_, ?_, ?_, ?_⟩
  · intro ha
    exact xml_tree_walk_item_special root_menu ancestors s c tag iprops aprops icontent l _ next
      hc htag hl (get_special_action_reconfigure aprops a hname ha)
  · intro ha
    exact xml_tree_walk_item_special root_menu ancestors s c tag iprops aprops icontent l _ next
      hc htag hl (get_special_action_restart aprops a hname ha)
  · rw [print_item_command, List.append_assoc]
    rfl
  · rw [print_item_command, List.append_assoc]
    rfl
  · intro ha anc s0
    exact process_node_without_content _ _ _ _ (get_special_action_execute_nocase aprops a hname ha)

/-- C11 at `<item label="Reload"><action name="Reconfigure"/></item>`. -/
theorem item_special_action_witness :
    xml_tree_walk "root-menu".toList [⟨some "openbox_menu".toList, []⟩]
        (.node (some "item".toList) [("label".toList, "Reload".toList)] none
          (.node (some "action".toList) [("name".toList, "Reconfigure".toList)] none .null .null)
          .null)
        ⟨[⟨some "R".toList, some "root-menu".toList, none, []⟩], some 0, none⟩
      = .ok ⟨[⟨some "R".toList, some "root-menu".toList, none,
                [⟨some "Reload".toList, some "openbox --reconfigure".toList,
                  false, false, false⟩]⟩], some 0, some (0, 0)⟩ :=
  ((item_special_action "root-menu".toList [⟨some "openbox_menu".toList, []⟩]
    ⟨[⟨some "R".toList, some "root-menu".toList, none, []⟩], some 0, none⟩ 0
    ⟨some "R".toList, some "root-menu".toList, none, []⟩
    [("label".toList, "Reload".toList)] [("name".toList, "Reconfigure".toList)] none
    "Reload".toList "Reconfigure".toList .null [] rfl rfl (by decide) (by decide)).1
    (by decide)).trans rfl

/-! ## The scenario of the specification -/

/-- C13, counterexample: on the document
`<openbox_pipe_menu><item label="A"><action name="Execute"><command>xterm</command></action></item></openbox_pipe_menu>`
with the root identifier `root-menu` the output is the three lines
`(null),^tag(root-menu)`, `A,xterm` and an empty line, not the four lines
`,^tag(root-menu)`, an empty line, `A,xterm`, an empty line. -/
theorem parse_xml_scenario_counterexample :
    parse_xml "root-menu".toList
        (.node (some "openbox_pipe_menu".toList) [] none
          (.node (some "item".toList) [("label".toList, "A".toList)] none
            (.node (some "action".toList) [("name".toList, "Execute".toList)] none
              (.node (some "command".toList) [] none
                (.node (some "text".toList) [] (some "xterm".toList) .null .null) .null) .null)
            .null)
          .null)
        = .ok ["(null),^tag(root-menu)".toList, "A,xterm".toList, []]
      ∧ ["(null),^tag(root-menu)".toList, "A,xterm".toList, []]
        ≠ [",^tag(root-menu)".toList, [], "A,xterm".toList, []] :=
  ⟨rfl, by decide⟩

/-- C13, amended: on that document with the root identifier `root-menu` the
output is exactly three lines: the tag-open line of `root-menu`, whose label
field is what `printf` writes for the absent label, then `A,xterm`, then an
empty line; there is no `Back,^back()` line and no empty line before the item
line. -/
theorem parse_xml_scenario :
    parse_xml "root-menu".toList
        (.node (some "openbox_pipe_menu".toList) [] none
          (.node (some "item".toList) [("label".toList, "A".toList)] none
            (.node (some "action".toList) [("name".toList, "Execute".toList)] none
              (.node (some "command".toList) [] none
                (.node (some "text".toList) [] (some "xterm".toList) .null .null) .null) .null)
            .null)
          .null)
      = .ok [printf_s none ++ ",^tag(root-menu)".toList, "A,xterm".toList, []] :=
  rfl

/-! ## Items before any menu -/

theorem modify_append_length {α : Type} (f : α → α) (l : List α) (a : α) :
    (l ++ [a]).modify f l.length = l ++ [f a] := by
  induction l with
  | nil => rfl
  | cons b l ih => simp [ih]

theorem new_item_without_curtag (root_menu : Str) (n : Option NodePtr) (sep : Bool) (s : State)
    (hc : s.curtag = none) :
    new_item root_menu n sep s
      = (⟨s.tags ++ [⟨none, some root_menu, none, []⟩], some s.tags.length, s.curitem⟩,
          ⟨xmlGetProp n "label".toList, none, false, false, sep⟩) := by
  unfold new_item
  simp only [hc, Option.isNone_none, if_true]
  rfl

theorem add_to_curtag_new_root (root_menu : Str) (tags : List Tag) (cur : Option (Nat × Nat))
    (item : Item) :
    add_to_curtag ⟨tags ++ [⟨none, some root_menu, none, []⟩], some tags.length, cur⟩ item
      = .ok ⟨tags ++ [⟨none, some root_menu, none, [item]⟩], some tags.length,
          some (tags.length, 0)⟩ := by
  unfold add_to_curtag list_add_tail_item modifyTag
  simp only
  rw [modify_append_length]
  simp

/-- C14: in a state without current tag, an `item` node, a `separator` node, a
`menu` node with `execute` and a `menu` node with only an `id` each first make
one tag with the root identifier as id, no label, no parent and no items (the
call `new_tag(NULL)`, which succeeds), make it the current tag, and append the
new item to it; none of them fails. -/
theorem item_without_current_tag (root_menu : Str) (s : State) (hc : s.curtag = none) :
    new_tag root_menu none s
        = .ok ⟨s.tags ++ [⟨none, some root_menu, none, []⟩], some s.tags.length, s.curitem⟩
      ∧ (∀ (ancestors : List Elem) (name : Str) (props : List (Str × Str))
          (content : Option Str) (children next : XmlNode),
          strcasecmp name "item".toList = 0 →
          xml_tree_walk root_menu ancestors (.node (some name) props content children next) s
            = (xml_tree_walk root_menu (⟨some name, props⟩ :: ancestors) children
                ⟨s.tags ++ [⟨none, some root_menu, none,
                    [⟨getProp props "label".toList, none, false, false, false⟩]⟩],
                  some s.tags.length, some (s.tags.length, 0)⟩
              >>= fun s2 => xml_tree_walk root_menu ancestors next s2))
      ∧ (∀ (ancestors : List Elem) (name : Str) (props : List (Str × Str))
          (content : Option Str) (children next : XmlNode),
          strcasecmp name "separator".toList = 0 →
          xml_tree_walk root_menu ancestors (.node (some name) props content children next) s
            = (xml_tree_walk root_menu (⟨some name, props⟩ :: ancestors) children
                ⟨s.tags ++ [⟨none, some root_menu, none,
                    [⟨getProp props "label".toList, none, false, false, true⟩]⟩],
                  some s.tags.length, some (s.tags.length, 0)⟩
              >>= fun s2 => xml_tree_walk root_menu ancestors next s2))
      ∧ (∀ (n : NodePtr) (e : Str), getProp n.props "execute".toList = some e →
          menu_start root_menu n s
            = .ok (⟨s.tags ++ [⟨none, some root_menu, none,
                      [⟨getProp n.props "label".toList, some e, true, false, false⟩]⟩],
                    some s.tags.length, some (s.tags.length, 0)⟩, false))
      ∧ (∀ (n : NodePtr) (i : Str), getProp n.props "label".toList = none →
          getProp n.props "execute".toList = none → getProp n.props "id".toList = some i →
          menu_start root_menu n s
            = .ok (⟨s.tags ++ [⟨none, some root_menu, none,
                      [⟨get_tag_label (s.tags ++ [⟨none, some root_menu, none, []⟩]) (some i),
                        some i, false, true, false⟩]⟩],
                    some s.tags.length, some (s.tags.length, 0)⟩, false)) := by
  refine ⟨?_, ?_, ?_, ?_, ?_⟩
  · rw [new_tag_null_eq]
    rfl
  · intro ancestors name props content children next hname
    have h1 : strcasecmp name "menu".toList ≠ 0 :=
      strcasecmp_trans_ne name "item".toList "menu".toList hname (by decide)
    rw [xml_tree_walk_item _ _ _ _ _ _ _ _ h1 hname, new_item_without_curtag _ _ _ _ hc]
    simp only [add_to_curtag_new_root, ok_bind, xmlGetProp]
  · intro ancestors name props content children next hname
    have hlen : name.length = 9 := strcasecmp_length _ _ hname
    have h1 : strcasecmp name "menu".toList ≠ 0 :=
      strcasecmp_ne_of_length _ _ (by rw [hlen]; decide)
    have h2 : strcasecmp name "item".toList ≠ 0 :=
      strcasecmp_ne_of_length _ _ (by rw [hlen]; decide)
    rw [xml_tree_walk_separator _ _ _ _ _ _ _ _ h1 h2 hname, new_item_without_curtag _ _ _ _ hc]
    simp only [add_to_curtag_new_root, ok_bind, xmlGetProp]
  · intro n e he
    unfold menu_start
    simp only [he, new_item_without_curtag _ _ _ _ hc, xmlGetProp]
    simp [add_to_curtag_new_root, bind, Except.bind, pure, Except.pure]
  · intro n i hl he hi
    unfold menu_start
    simp only [hl, he, hi, new_item_without_curtag _ _ _ _ hc, xmlGetProp]
    simp [add_to_curtag_new_root, bind, Except.bind, pure, Except.pure]

/-- C14 at `<item label="a"/>` in the empty model. -/
theorem item_without_current_tag_witness :
    xml_tree_walk "root-menu".toList [⟨some "openbox_pipe_menu".toList, []⟩]
        (.node (some "item".toList) [("label".toList, "a".toList)] none .null .null) State.init
      = .ok ⟨[⟨none, some "root-menu".toList, none,
                [⟨some "a".toList, none, false, false, false⟩]⟩], some 0, some (0, 0)⟩ :=
  ((item_without_current_tag "root-menu".toList State.init rfl).2.1
    [⟨some "openbox_pipe_menu".toList, []⟩] "item".toList [("label".toList, "a".toList)]
    none .null .null (by decide)).trans rfl

/-! ## Comments -/

theorem xml_tree_walk_skip_comment (root_menu : Str) (ancestors : List Elem) (name : Str)
    (props : List (Str × Str)) (content : Option Str) (children next : XmlNode) (s : State)
    (h : strcasecmp name "Comment".toList = 0) :
    xml_tree_walk root_menu ancestors (.node (some name) props content children next) s
      = xml_tree_walk root_menu ancestors next s := by
  have hlen : name.length = 7 := strcasecmp_length _ _ h
  exact xml_tree_walk_comment _ _ _ _ _ _ _ _
    (strcasecmp_ne_of_length _ _ (by rw [hlen]; decide))
    (strcasecmp_ne_of_length _ _ (by rw [hlen]; decide))
    (strcasecmp_ne_of_length _ _ (by rw [hlen]; decide)) h

theorem xml_tree_walk_append_congr (root_menu : Str) (ancestors : List Elem) (a b : XmlNode)
    (hab : ∀ s, xml_tree_walk root_menu ancestors a s = xml_tree_walk root_menu ancestors b s)
    (before : XmlNode) :
    ∀ s, xml_tree_walk root_menu ancestors (before.append a) s
      = xml_tree_walk root_menu ancestors (before.append b) s := by
  induction before with
  | null =>
    intro s
    exact hab s
  | node name props content children next _ ihn =>
    intro s
    cases name with
    | none => simp only [XmlNode.append, xml_tree_walk]
    | some name =>
      simp only [XmlNode.append]
      rw [xml_tree_walk, xml_tree_walk]
      simp only [ihn]

/-- C18: a node named `Comment` in any case is skipped with its whole subtree:
whatever its attributes, payload and descendants, the walk of a sibling list
with the node put in at any place (after the siblings `before`, before the
siblings `after`) gives, from every state, the same result as the walk of the
list without it: the same tags with the same items, the same current tag and
the same current item. -/
theorem comment_skipped (root_menu : Str) (ancestors : List Elem) (name : Str)
    (props : List (Str × Str)) (content : Option Str) (children before after : XmlNode)
    (s : State) (h : strcasecmp name "Comment".toList = 0) :
    xml_tree_walk root_menu ancestors
        (before.append (.node (some name) props content children after)) s
      = xml_tree_walk root_menu ancestors (before.append after) s :=
  xml_tree_walk_append_congr root_menu ancestors _ _
    (fun s0 => xml_tree_walk_skip_comment root_menu ancestors name props content children after
      s0 h) before s

/-- C18 at `<item label="a"/><Comment><item label="x"/></Comment><item label="b"/>`. -/
theorem comment_skipped_witness :
    xml_tree_walk "root-menu".toList [⟨some "openbox_pipe_menu".toList, []⟩]
        (.node (some "item".toList) [("label".toList, "a".toList)] none .null
          (.node (some "Comment".toList) [] none
            (.node (some "item".toList) [("label".toList, "x".toList)] none .null .null)
            (.node (some "item".toList) [("label".toList, "b".toList)] none .null .null)))
        State.init
      = .ok ⟨[⟨none, some "root-menu".toList, none,
                [⟨some "a".toList, none, false, false, false⟩,
                 ⟨some "b".toList, none, false, false, false⟩]⟩], some 0, some (0, 1)⟩ :=
  (comment_skipped "root-menu".toList [⟨some "openbox_pipe_menu".toList, []⟩]
    "Comment".toList [] none
    (.node (some "item".toList) [("label".toList, "x".toList)] none .null .null)
    (.node (some "item".toList) [("label".toList, "a".toList)] none .null .null)
    (.node (some "item".toList) [("label".toList, "b".toList)] none .null .null)
    State.init (by decide)).trans rfl

/-! ## Dotted paths -/

theorem intercalate_concat (sep : Str) (names : List Str) (last : Str) :
    sep.intercalate (names ++ [last]) = names.flatMap (fun name => name ++ sep) ++ last := by
  induction names with
  | nil => simp [List.intercalate]
  | cons a rest ih =>
    cases rest with
    | nil => simp [List.intercalate]
    | cons b rest2 =>
      have h : sep.intercalate (a :: (b :: rest2 ++ [last]))
          = a ++ sep ++ sep.intercalate (b :: rest2 ++ [last]) := by
        simp [List.intercalate]
      rw [List.cons_append, h, ih]
      simp

theorem get_full_node_name_loop_eq (up : List Elem) (buf : Str) :
    get_full_node_name_loop buf up
      = ((((up.takeWhile (fun e => e.name.isSome)).filterMap (fun e => e.name)).filter
            (fun name => decide (node_filter name ≠ 0))).reverse).flatMap
          (fun name => name ++ ".".toList) ++ buf := by
  induction up generalizing buf with
  | nil => rfl
  | cons parent rest ih =>
    rw [get_full_node_name_loop]
    cases hn : parent.name with
    | none => simp [hn]
    | some pname =>
      by_cases hf : node_filter pname = 0
      · simp [hn, hf, ih]
      · simp [hn, hf, ih, sbuf_prepend]

theorem get_full_node_name_start (start : Str) (up : List Elem)
    (hstart : node_filter start ≠ 0) :
    get_full_node_name_loop (sbuf_prepend [] start) up
      = ".".toList.intercalate (path_names start up) := by
  rw [get_full_node_name_loop_eq]
  unfold path_names
  rw [List.filter_cons]
  simp only [hstart, ne_eq, not_false_eq_true, decide_True, if_true, List.reverse_cons]
  rw [intercalate_concat]
  simp [sbuf_prepend]

/-- C20: for a starting element `start` that is not named `menu` in any case,
with the chain of parents `up`: `get_full_node_name` gives, for the element
itself (when it is not named `text`) and for a node named `text` whose parent
it is, the names of `path_names start up` joined by single dots, so that
cutting the result at the dots gives those names back when no name has a dot
in it; a `command` under `action` under `item` under two `menu` nodes under
`openbox_menu` gives `openbox_menu.item.action.command`, and so does a text
payload under it. -/
theorem get_full_node_name_dotted (start : Str) (up : List Elem)
    (hstart : node_filter start ≠ 0) :
    (strcmp start "text".toList ≠ 0 →
        get_full_node_name start up = ".".toList.intercalate (path_names start up))
      ∧ (∀ props : List (Str × Str),
          get_full_node_name "text".toList (⟨some start, props⟩ :: up)
            = ".".toList.intercalate (path_names start up))
      ∧ ((∀ name ∈ path_names start up, '.' ∉ name) →
          (".".toList.intercalate (path_names start up)).splitOn '.' = path_names start up)
      ∧ get_full_node_name "command".toList
          [⟨some "action".toList, []⟩, ⟨some "item".toList, []⟩, ⟨some "menu".toList, []⟩,
           ⟨some "menu".toList, []⟩, ⟨some "openbox_menu".toList, []⟩, ⟨none, []⟩]
          = "openbox_menu.item.action.command".toList
      ∧ get_full_node_name "text".toList
          [⟨some "command".toList, []⟩, ⟨some "action".toList, []⟩, ⟨some "item".toList, []⟩,
           ⟨some "menu".toList, []⟩, ⟨some "menu".toList, []⟩,
           ⟨some "openbox_menu".toList, []⟩, ⟨none, []⟩]
          = "openbox_menu.item.action.command".toList := by
  refine ⟨?_, ?_, ?_, by decide, by decide⟩
  · intro htext
    unfold get_full_node_name
    rw [if_neg htext, if_pos hstart]
    exact get_full_node_name_start start up hstart
  · intro props
    have h1 : strcmp "text".toList "text".toList = 0 := by decide
    unfold get_full_node_name
    rw [if_pos h1]
    simp only [if_pos hstart]
    exact get_full_node_name_start start up hstart
  · intro hdot
    have hne : path_names start up ≠ [] := by
      unfold path_names
      rw [List.filter_cons]
      simp [hstart]
    exact List.splitOn_intercalate _ '.' hdot hne

/-- C20 at an `action` under `item` under `menu` under `openbox_menu`. -/
theorem get_full_node_name_dotted_witness :
    get_full_node_name "action".toList
        [⟨some "item".toList, []⟩, ⟨some "menu".toList, []⟩, ⟨some "openbox_menu".toList, []⟩,
         ⟨none, []⟩]
      = "openbox_menu.item.action".toList :=
  ((get_full_node_name_dotted "action".toList
    [⟨some "item".toList, []⟩, ⟨some "menu".toList, []⟩, ⟨some "openbox_menu".toList, []⟩,
     ⟨none, []⟩] (by decide)).1 (by decide)).trans (by decide)

/-! ## Invariants of the tags along the walk -/

theorem find_tag_by_id_lt (id : Str) (tags : List Tag) (k p : Nat)
    (h : find_tag_by_id id tags k = some p) : k ≤ p ∧ p < k + tags.length := by
  induction tags generalizing k with
  | nil => simp [find_tag_by_id] at h
  | cons tag rest ih =>
    unfold find_tag_by_id at h
    cases hi : tag.id with
    | none =>
      simp only [hi] at h
      have := ih (k + 1) h
      simp only [List.length_cons]
      omega
    | some j =>
      simp only [hi] at h
      split_ifs at h
      · simp only [Option.some.injEq] at h
        simp only [List.length_cons]
        omega
      · have := ih (k + 1) h
        simp only [List.length_cons]
        omega

theorem get_parent_tag_lt (root_menu : Str) (tags : List Tag) (n : Option NodePtr) (p : Nat)
    (h : get_parent_tag root_menu tags n = .ok (some p)) : p < tags.length := by
  unfold get_parent_tag at h
  cases n with
  | none => simp at h
  | some node =>
    simp only at h
    cases hanc : node.ancestors with
    | nil => simp [hanc] at h
    | cons parent rest =>
      simp only [hanc] at h
      cases hname : parent.name with
      | none => simp [hname] at h
      | some pname =>
        simp only [hname] at h
        generalize (if strcmp pname "openbox_pipe_menu".toList = 0 then some root_menu
          else getProp parent.props "id".toList) = idv at h
        cases idv with
        | none => simp at h
        | some i =>
          simp only [Except.ok.injEq] at h
          have := find_tag_by_id_lt i tags 0 p h
          omega

theorem inv_list_add_tail_item {P : List Tag → Prop} (hP : TagsInvariant P) (s : State)
    (k : Nat) (item : Item) (h : P s.tags) : P (list_add_tail_item s k item).tags :=
  hP.modify s.tags k _ (fun _ => ⟨rfl, rfl, rfl⟩) h

theorem inv_new_item {P : List Tag → Prop} (hP : TagsInvariant P) (root_menu : Str)
    (n : Option NodePtr) (sep : Bool) (s : State) (h : P s.tags) :
    P (new_item root_menu n sep s).1.tags := by
  unfold new_item
  cases hc : s.curtag with
  | none =>
    have := hP.append s.tags ⟨none, some root_menu, none, []⟩
      ⟨rfl, rfl, fun p hp => by simp at hp⟩ h
    simpa [hc, new_tag_null] using this
  | some c => simpa [hc] using h

theorem inv_new_tag {P : List Tag → Prop} (hP : TagsInvariant P) (root_menu : Str)
    (n : Option NodePtr) (s s' : State) (h : new_tag root_menu n s = .ok s') (ha : P s.tags) :
    P s'.tags := by
  unfold new_tag at h
  obtain ⟨parent, hpar, h⟩ := bind_ok _ _ _ h
  generalize xmlGetProp n "id".toList = idv at h
  generalize xmlGetProp n "label".toList = lbl at h
  have hnew : P (s.tags ++ [(⟨lbl, if idv.isSome = true then idv else some root_menu,
      parent, []⟩ : Tag)]) := by
    apply hP.append _ _ _ ha
    refine ⟨by cases idv <;> rfl, rfl, ?_⟩
    intro p hp
    simp only at hp
    rw [hp] at hpar
    exact get_parent_tag_lt root_menu s.tags n p hpar
  cases parent with
  | none =>
    simp only [pure, Except.pure, Except.ok.injEq] at h
    subst h
    exact hnew
  | some p =>
    cases idv with
    | none => simp [throw, throwThe, MonadExceptOf.throw] at h
    | some i =>
      simp only [Option.isSome_some, if_true] at h hnew
      split_ifs at h with hne
      · simp only [pure, Except.pure, Except.ok.injEq] at h
        subst h
        exact inv_list_add_tail_item hP _ p _ (inv_new_item hP root_menu n false _ hnew)
      · simp only [pure, Except.pure, Except.ok.injEq] at h
        subst h
        exact hnew

theorem inv_add_to_curtag {P : List Tag → Prop} (hP : TagsInvariant P) (s s' : State)
    (item : Item) (h : add_to_curtag s item = .ok s') (ha : P s.tags) : P s'.tags := by
  unfold add_to_curtag at h
  cases hc : s.curtag with
  | none => simp [hc] at h
  | some c =>
    simp only [hc, Except.ok.injEq] at h
    subst h
    exact inv_list_add_tail_item hP s c item ha

theorem inv_set_curitem_cmd {P : List Tag → Prop} (hP : TagsInvariant P) (s s' : State)
    (v : Str) (h : set_curitem_cmd s v = .ok s') (ha : P s.tags) : P s'.tags := by
  unfold set_curitem_cmd at h
  cases hc : s.curitem with
  | none => simp [hc] at h
  | some ref =>
    simp only [hc, Except.ok.injEq] at h
    subst h
    exact hP.modify s.tags ref.1 _ (fun _ => ⟨rfl, rfl, rfl⟩) ha

theorem inv_process_node {P : List Tag → Prop} (hP : TagsInvariant P) (name : Str)
    (props : List (Str × Str)) (content : Option Str) (ancestors : List Elem) (s s' : State)
    (h : process_node name props content ancestors s = .ok s') (ha : P s.tags) :
    P s'.tags := by
  unfold process_node at h
  simp only at h
  split_ifs at h
  · simp only [Except.ok.injEq] at h
    subst h
    exact ha
  · cases content with
    | none =>
      simp only [Except.ok.injEq] at h
      subst h
      exact ha
    | some text => exact inv_set_curitem_cmd hP s s' _ h ha
  · cases hsp : get_special_action props with
    | none =>
      simp only [hsp, Except.ok.injEq] at h
      subst h
      exact ha
    | some v =>
      simp only [hsp] at h
      exact inv_set_curitem_cmd hP s s' _ h ha
  · simp only [Except.ok.injEq] at h
    subst h
    exact ha

theorem inv_menu_start {P : List Tag → Prop} (hP : TagsInvariant P) (root_menu : Str)
    (n : NodePtr) (s s' : State) (ret : Bool)
    (h : menu_start root_menu n s = .ok (s', ret)) (ha : P s.tags) : P s'.tags := by
  unfold menu_start at h
  simp only at h
  split_ifs at h
  · obtain ⟨s1, h1, h2⟩ := bind_ok _ _ _ h
    simp only [pure, Except.pure, Except.ok.injEq, Prod.mk.injEq] at h2
    rw [← h2.1]
    exact inv_new_tag hP root_menu (some n) s s1 h1 ha
  · obtain ⟨s1, h1, h2⟩ := bind_ok _ _ _ h
    simp only [pure, Except.pure, Except.ok.injEq, Prod.mk.injEq] at h2
    rw [← h2.1]
    exact inv_add_to_curtag hP _ s1 _ h1 (inv_new_item hP root_menu (some n) false s ha)
  · obtain ⟨s1, h1, h2⟩ := bind_ok _ _ _ h
    simp only [pure, Except.pure, Except.ok.injEq, Prod.mk.injEq] at h2
    rw [← h2.1]
    exact inv_add_to_curtag hP _ s1 _ h1 (inv_new_item hP root_menu (some n) false s ha)
  · simp only [pure, Except.pure, Except.ok.injEq, Prod.mk.injEq] at h
    rw [← h.1]
    exact ha

/-- The walk keeps every invariant of the tags. -/
theorem inv_xml_tree_walk {P : List Tag → Prop} (hP : TagsInvariant P) (root_menu : Str)
    (doc : XmlNode) :
    ∀ (ancestors : List Elem) (s s' : State),
      xml_tree_walk root_menu ancestors doc s = .ok s' → P s.tags → P s'.tags := by
  induction doc with
  | null =>
    intro ancestors s s' h ha
    simp only [xml_tree_walk, Except.ok.injEq] at h
    subst h
    exact ha
  | node name props content children next ihc ihn =>
    intro ancestors s s' h ha
    cases name with
    | none =>
      simp only [xml_tree_walk, Except.ok.injEq] at h
      subst h
      exact ha
    | some name =>
      unfold xml_tree_walk at h
      simp only at h
      split_ifs at h
      · obtain ⟨r, h1, h⟩ := bind_ok _ _ _ h
        obtain ⟨s2, h2, h⟩ := bind_ok _ _ _ h
        have g1 := inv_menu_start hP root_menu _ s r.1 r.2 h1 ha
        have g2 := ihc _ _ _ h2 g1
        have g4 : (if r.2 = true then revert_to_parent s2 else s2).tags = s2.tags := by
          split_ifs
          · exact revert_to_parent_tags s2
          · rfl
        exact ihn _ _ _ h (by rw [g4]; exact g2)
      · obtain ⟨s1, h1, h⟩ := bind_ok _ _ _ h
        obtain ⟨s2, h2, h⟩ := bind_ok _ _ _ h
        exact ihn _ _ _ h (ihc _ _ _ h2
          (inv_add_to_curtag hP _ s1 _ h1 (inv_new_item hP root_menu _ false s ha)))
      · obtain ⟨s1, h1, h⟩ := bind_ok _ _ _ h
        obtain ⟨s2, h2, h⟩ := bind_ok _ _ _ h
        exact ihn _ _ _ h (ihc _ _ _ h2
          (inv_add_to_curtag hP _ s1 _ h1 (inv_new_item hP root_menu _ true s ha)))
      · exact ihn _ _ _ h ha
      · obtain ⟨s1, h1, h⟩ := bind_ok _ _ _ h
        obtain ⟨s2, h2, h⟩ := bind_ok _ _ _ h
        exact ihn _ _ _ h (ihc _ _ _ h2 (inv_process_node hP _ _ _ _ s s1 h1 ha))

theorem parentsEarlier_invariant : TagsInvariant ParentsEarlier := by
  constructor
  · intro tags k f hf hP m tag p hget hpar
    rw [List.getElem?_modify] at hget
    cases hold : tags[m]? with
    | none => simp [hold] at hget
    | some old =>
      simp only [hold, Option.map_eq_map, Option.map_some', Option.some.injEq] at hget
      have hp : old.parent = some p := by
        rw [← hpar, ← hget]
        split_ifs
        · exact ((hf old).2.2).symm
        · rfl
      exact hP m old p hold hp
  · intro tags new hnew hP m tag p hget hpar
    by_cases hm : m < tags.length
    · rw [List.getElem?_append_left hm] at hget
      exact hP m tag p hget hpar
    · have hm2 : tags.length ≤ m := Nat.le_of_not_lt hm
      rw [List.getElem?_append_right hm2] at hget
      have hz : m - tags.length = 0 := by
        by_contra hne
        have : ([new] : List Tag)[m - tags.length]? = none := by
          apply List.getElem?_eq_none
          simp
          omega
        rw [this] at hget
        simp at hget
      rw [hz] at hget
      simp only [List.getElem?_cons_zero, Option.some.injEq] at hget
      rw [← hget] at hpar
      have := hnew.2.2 p hpar
      omega

/-! ## Tags without parent -/

/-- C15, counterexample: the walk of
`<openbox_menu><menu id="apps" label="Apps"><item label="a"/></menu>
<menu id="root-menu" label="R"><menu id="apps"/></menu></openbox_menu>`
from the empty model ends with two tags, and both have no parent. -/
theorem two_tags_without_parent_counterexample :
    xml_tree_walk "root-menu".toList [⟨none, []⟩]
        (.node (some "openbox_menu".toList) [] none
          (.node (some "menu".toList)
            [("id".toList, "apps".toList), ("label".toList, "Apps".toList)] none
            (.node (some "item".toList) [("label".toList, "a".toList)] none .null .null)
            (.node (some "menu".toList)
              [("id".toList, "root-menu".toList), ("label".toList, "R".toList)] none
              (.node (some "menu".toList) [("id".toList, "apps".toList)] none .null .null)
              .null))
          .null) State.init
        = .ok ⟨[⟨some "Apps".toList, some "apps".toList, none,
                  [⟨some "a".toList, none, false, false, false⟩]⟩,
                ⟨some "R".toList, some "root-menu".toList, none,
                  [⟨some "Apps".toList, some "apps".toList, false, true, false⟩]⟩],
              some 1, some (1, 0)⟩
      ∧ (List.filter (fun t : Tag => t.parent.isNone)
          [⟨some "Apps".toList, some "apps".toList, none,
              [⟨some "a".toList, none, false, false, false⟩]⟩,
            ⟨some "R".toList, some "root-menu".toList, none,
              [⟨some "Apps".toList, some "apps".toList, false, true, false⟩]⟩]).length = 2 :=
  ⟨rfl, by decide⟩

/-- C15, amended: after the walk of any tree from the empty model, the parent
of a tag, when it has one, is a tag created before it; so the first tag has no
parent, and a tag is never its own ancestor. -/
theorem parents_created_earlier (root_menu : Str) (ancestors : List Elem) (doc : XmlNode)
    (s' : State) (h : xml_tree_walk root_menu ancestors doc State.init = .ok s') :
    (∀ (k : Nat) (tag : Tag) (p : Nat),
        s'.tags[k]? = some tag → tag.parent = some p → p < k ∧ p < s'.tags.length)
      ∧ ∀ tag : Tag, s'.tags[0]? = some tag → tag.parent = none := by
  have hinit : ParentsEarlier State.init.tags := by
    intro k tag p hget
    simp [State.init] at hget
  have hP := inv_xml_tree_walk parentsEarlier_invariant root_menu doc ancestors _ s' h hinit
  refine ⟨?_, ?_⟩
  · intro k tag p hget hpar
    have hk : k < s'.tags.length := (List.getElem?_eq_some_iff.1 hget).1
    have := hP k tag p hget hpar
    omega
  · intro tag hget
    cases hpar : tag.parent with
    | none => rfl
    | some p =>
      have := hP 0 tag p hget hpar
      omega

/-- C15, amended, at a menu nested in a menu with an id: the nested menu is
tag 1 and its parent is tag 0. -/
theorem parents_created_earlier_witness :
    xml_tree_walk "root-menu".toList [⟨none, []⟩]
        (.node (some "openbox_menu".toList) [] none
          (.node (some "menu".toList) [("id".toList, "r".toList), ("label".toList, "R".toList)]
            none
            (.node (some "menu".toList)
              [("id".toList, "c".toList), ("label".toList, "C".toList)] none .null .null)
            .null)
          .null) State.init
        = .ok ⟨[⟨some "R".toList, some "r".toList, none,
                  [⟨some "C".toList, some "c".toList, false, true, false⟩]⟩,
                ⟨some "C".toList, some "c".toList, some 0, []⟩], some 0, some (0, 0)⟩
      ∧ (0 < 1 ∧ 0 < 2) :=
  ⟨rfl, (parents_created_earlier "root-menu".toList [⟨none, []⟩]
    (.node (some "openbox_menu".toList) [] none
      (.node (some "menu".toList) [("id".toList, "r".toList), ("label".toList, "R".toList)] none
        (.node (some "menu".toList)
          [("id".toList, "c".toList), ("label".toList, "C".toList)] none .null .null)
        .null)
      .null)
    ⟨[⟨some "R".toList, some "r".toList, none,
        [⟨some "C".toList, some "c".toList, false, true, false⟩]⟩,
      ⟨some "C".toList, some "c".toList, some 0, []⟩], some 0, some (0, 0)⟩ rfl).1
    1 ⟨some "C".toList, some "c".toList, some 0, []⟩ 0 rfl rfl⟩

/-! ## Faults -/

theorem bind_error {α β : Type} (x : Except Fault α) (f : α → Except Fault β) (e : Fault)
    (h : (x >>= f) = .error e) : x = .error e ∨ ∃ a, x = .ok a ∧ f a = .error e := by
  cases x with
  | error e0 =>
    left
    simpa [bind, Except.bind] using h
  | ok a => exact Or.inr ⟨a, rfl, h⟩

theorem new_item_curtag (root_menu : Str) (n : Option NodePtr) (sep : Bool) (s : State) :
    ∃ c, (new_item root_menu n sep s).1.curtag = some c := by
  unfold new_item
  cases hc : s.curtag with
  | none => exact ⟨s.tags.length, by simp [hc, new_tag_null]⟩
  | some c => exact ⟨c, by simp [hc]⟩

theorem add_to_curtag_new_item (root_menu : Str) (n : Option NodePtr) (sep : Bool) (s : State)
    (item : Item) :
    ∃ s', add_to_curtag (new_item root_menu n sep s).1 item = .ok s' := by
  obtain ⟨c, hc⟩ := new_item_curtag root_menu n sep s
  unfold add_to_curtag
  rw [hc]
  exact ⟨_, rfl⟩

theorem get_parent_tag_error (root_menu : Str) (tags : List Tag) (n : Option NodePtr)
    (e : Fault) (h : get_parent_tag root_menu tags n = .error e) : e = .parent_name_null := by
  unfold get_parent_tag at h
  cases n with
  | none => simp at h
  | some node =>
    simp only at h
    cases hanc : node.ancestors with
    | nil => simp [hanc] at h
    | cons parent rest =>
      simp only [hanc] at h
      cases hname : parent.name with
      | none =>
        simp only [hname, Except.error.injEq] at h
        exact h.symm
      | some pname =>
        simp only [hname] at h
        generalize (if strcmp pname "openbox_pipe_menu".toList = 0 then some root_menu
          else getProp parent.props "id".toList) = idv at h
        cases idv <;> simp at h

theorem new_tag_error (root_menu : Str) (n : Option NodePtr) (s : State) (e : Fault)
    (h : new_tag root_menu n s = .error e) : e ≠ .curtag_null := by
  unfold new_tag at h
  rcases bind_error _ _ _ h with h1 | ⟨parent, _, h2⟩
  · rw [get_parent_tag_error _ _ _ _ h1]
    decide
  · generalize xmlGetProp n "id".toList = idv at h2
    cases parent with
    | none => simp [pure, Except.pure] at h2
    | some p =>
      cases idv with
      | none =>
        simp only [throw, throwThe, MonadExceptOf.throw, Except.error.injEq] at h2
        rw [← h2]
        decide
      | some i =>
        simp only at h2
        split_ifs at h2 <;> simp [pure, Except.pure] at h2

theorem process_node_error (name : Str) (props : List (Str × Str)) (content : Option Str)
    (ancestors : List Elem) (s : State) (e : Fault)
    (h : process_node name props content ancestors s = .error e) : e ≠ .curtag_null := by
  have hset : ∀ v, set_curitem_cmd s v = .error e → e ≠ .curtag_null := by
    intro v hv
    unfold set_curitem_cmd at hv
    cases hc : s.curitem with
    | none =>
      simp only [hc, Except.error.injEq] at hv
      rw [← hv]
      decide
    | some ref => simp [hc] at hv
  unfold process_node at h
  simp only at h
  split_ifs at h
  · cases content with
    | none => simp at h
    | some text => exact hset _ h
  · cases hsp : get_special_action props with
    | none => simp [hsp] at h
    | some v =>
      simp only [hsp] at h
      exact hset _ h

theorem menu_start_error (root_menu : Str) (n : NodePtr) (s : State) (e : Fault)
    (h : menu_start root_menu n s = .error e) : e ≠ .curtag_null := by
  unfold menu_start at h
  simp only at h
  split_ifs at h
  · rcases bind_error _ _ _ h with h1 | ⟨s1, _, h2⟩
    · exact new_tag_error _ _ _ _ h1
    · simp [pure, Except.pure] at h2
  · rcases bind_error _ _ _ h with h1 | ⟨s1, _, h2⟩
    · obtain ⟨s', hs'⟩ := add_to_curtag_new_item root_menu (some n) false s
        { (new_item root_menu (some n) false s).2 with
          pipe := true, cmd := getProp n.props "execute".toList }
      rw [hs'] at h1
      simp at h1
    · simp [pure, Except.pure] at h2
  · rcases bind_error _ _ _ h with h1 | ⟨s1, _, h2⟩
    · obtain ⟨s', hs'⟩ := add_to_curtag_new_item root_menu (some n) false s
        { (new_item root_menu (some n) false s).2 with
          checkout := true, cmd := getProp n.props "id".toList,
          label := get_tag_label (new_item root_menu (some n) false s).1.tags
            (getProp n.props "id".toList) }
      rw [hs'] at h1
      simp at h1
    · simp [pure, Except.pure] at h2
  · simp [pure, Except.pure] at h

/-- The walk never appends an item to a missing current tag. -/
theorem xml_tree_walk_error (root_menu : Str) (doc : XmlNode) :
    ∀ (ancestors : List Elem) (s : State) (e : Fault),
      xml_tree_walk root_menu ancestors doc s = .error e → e ≠ .curtag_null := by
  induction doc with
  | null =>
    intro ancestors s e h
    simp [xml_tree_walk] at h
  | node name props content children next ihc ihn =>
    intro ancestors s e h
    cases name with
    | none => simp [xml_tree_walk] at h
    | some name =>
      unfold xml_tree_walk at h
      simp only at h
      split_ifs at h
      · rcases bind_error _ _ _ h with h1 | ⟨r, _, h⟩
        · exact menu_start_error _ _ _ _ h1
        · rcases bind_error _ _ _ h with h2 | ⟨s2, _, h⟩
          · exact ihc _ _ _ h2
          · exact ihn _ _ _ h
      · rcases bind_error _ _ _ h with h1 | ⟨s1, _, h⟩
        · obtain ⟨s', hs'⟩ := add_to_curtag_new_item root_menu
            (some ⟨some name, props, content, ancestors⟩) false s
            (new_item root_menu (some ⟨some name, props, content, ancestors⟩) false s).2
          rw [hs'] at h1
          simp at h1
        · rcases bind_error _ _ _ h with h2 | ⟨s2, _, h⟩
          · exact ihc _ _ _ h2
          · exact ihn _ _ _ h
      · rcases bind_error _ _ _ h with h1 | ⟨s1, _, h⟩
        · obtain ⟨s', hs'⟩ := add_to_curtag_new_item root_menu
            (some ⟨some name, props, content, ancestors⟩) true s
            (new_item root_menu (some ⟨some name, props, content, ancestors⟩) true s).2
          rw [hs'] at h1
          simp at h1
        · rcases bind_error _ _ _ h with h2 | ⟨s2, _, h⟩
          · exact ihc _ _ _ h2
          · exact ihn _ _ _ h
      · exact ihn _ _ _ h
      · rcases bind_error _ _ _ h with h1 | ⟨s1, _, h⟩
        · exact process_node_error _ _ _ _ _ _ h1
        · rcases bind_error _ _ _ h with h2 | ⟨s2, _, h⟩
          · exact ihc _ _ _ h2
          · exact ihn _ _ _ h

/-- C19, failing inputs: from the empty model, the walk of
`<openbox_pipe_menu><item label="a"/><menu label="m"/></openbox_pipe_menu>`
stops at `strcmp(id, root_menu)` in `new_tag` with a null `id`, and the walk of
`<openbox_menu><myitem><action name="Restart"/></myitem></openbox_menu>` stops
in `process_node` at the write of the command of a null `curitem`; an item is
never appended to a missing current tag. -/
theorem xml_tree_walk_faults :
    xml_tree_walk "root-menu".toList [⟨none, []⟩]
        (.node (some "openbox_pipe_menu".toList) [] none
          (.node (some "item".toList) [("label".toList, "a".toList)] none .null
            (.node (some "menu".toList) [("label".toList, "m".toList)] none .null .null))
          .null) State.init
        = .error .strcmp_null_id
      ∧ xml_tree_walk "root-menu".toList [⟨none, []⟩]
          (.node (some "openbox_menu".toList) [] none
            (.node (some "myitem".toList) [] none
              (.node (some "action".toList) [("name".toList, "Restart".toList)] none
                .null .null) .null)
            .null) State.init
        = .error .curitem_null
      ∧ ∀ (root_menu : Str) (ancestors : List Elem) (doc : XmlNode) (s : State),
          xml_tree_walk root_menu ancestors doc s ≠ .error .curtag_null :=
  ⟨rfl, rfl, fun root_menu ancestors doc s h =>
    xml_tree_walk_error root_menu doc ancestors s _ h rfl⟩

/-! ## Subtrees of action and content nodes -/

theorem map_skel_modify (tags : List Tag) (k : Nat) (f : Tag → Tag)
    (hf : ∀ t, (f t).skel = t.skel) : (tags.modify f k).map Tag.skel = tags.map Tag.skel := by
  induction tags generalizing k with
  | nil => simp
  | cons tag rest ih =>
    cases k with
    | zero => simp [hf]
    | succ k => simp [ih]

theorem map_skel_modifyItem (tags : List Tag) (ref : Nat × Nat) (f : Item → Item)
    (hf : ∀ item, (f item).shape = item.shape) :
    (modifyItem tags ref f).map Tag.skel = tags.map Tag.skel := by
  apply map_skel_modify
  intro t
  simp only [Tag.skel]
  rw [map_shape_modify _ _ _ hf]

theorem set_curitem_cmd_frame (s s' : State) (v : Str) (h : set_curitem_cmd s v = .ok s') :
    s'.curtag = s.curtag ∧ s'.curitem = s.curitem
      ∧ s'.tags.map Tag.skel = s.tags.map Tag.skel := by
  unfold set_curitem_cmd at h
  cases hc : s.curitem with
  | none => simp [hc] at h
  | some ref =>
    simp only [hc, Except.ok.injEq] at h
    subst h
    exact ⟨rfl, rfl, map_skel_modifyItem s.tags ref _ (fun _ => rfl)⟩

theorem process_node_frame (name : Str) (props : List (Str × Str)) (content : Option Str)
    (ancestors : List Elem) (s s' : State)
    (h : process_node name props content ancestors s = .ok s') :
    s'.curtag = s.curtag ∧ s'.curitem = s.curitem
      ∧ s'.tags.map Tag.skel = s.tags.map Tag.skel := by
  have hrefl : ∀ s0 : State, Except.ok s = (Except.ok s0 : Except Fault State) →
      s0.curtag = s.curtag ∧ s0.curitem = s.curitem
        ∧ s0.tags.map Tag.skel = s.tags.map Tag.skel := by
    intro s0 h0
    simp only [Except.ok.injEq] at h0
    subst h0
    exact ⟨rfl, rfl, rfl⟩
  unfold process_node at h
  simp only at h
  split_ifs at h
  · exact hrefl s' h
  · cases content with
    | none => exact hrefl s' h
    | some text => exact set_curitem_cmd_frame s s' _ h
  · cases hsp : get_special_action props with
    | none =>
      simp only [hsp] at h
      exact hrefl s' h
    | some v =>
      simp only [hsp] at h
      exact set_curitem_cmd_frame s s' _ h
  · exact hrefl s' h

theorem process_node_total (name : Str) (props : List (Str × Str)) (content : Option Str)
    (ancestors : List Elem) (s : State) (ref : Nat × Nat) (hc : s.curitem = some ref) :
    ∃ s', process_node name props content ancestors s = .ok s' := by
  have hset : ∀ v, ∃ s', set_curitem_cmd s v = .ok s' := by
    intro v
    unfold set_curitem_cmd
    rw [hc]
    exact ⟨_, rfl⟩
  unfold process_node
  simp only
  split_ifs
  · exact ⟨s, rfl⟩
  · cases content with
    | none => exact ⟨s, rfl⟩
    | some text => exact hset _
  · cases get_special_action props with
    | none => exact ⟨s, rfl⟩
    | some v => exact hset v
  · exact ⟨s, rfl⟩

theorem quiet_node (name : Str) (props : List (Str × Str)) (content : Option Str)
    (children next : XmlNode) :
    quiet (.node (some name) props content children next)
      = (if strcasecmp name "menu".toList = 0 then false
        else if strcasecmp name "item".toList = 0 then false
        else if strcasecmp name "separator".toList = 0 then false
        else if strcasecmp name "Comment".toList = 0 then quiet next
        else quiet children && quiet next) := by
  rw [quiet]

theorem quiet_names (name : Str) (props : List (Str × Str)) (content : Option Str)
    (children next : XmlNode)
    (hq : quiet (.node (some name) props content children next) = true) :
    strcasecmp name "menu".toList ≠ 0 ∧ strcasecmp name "item".toList ≠ 0
      ∧ strcasecmp name "separator".toList ≠ 0
      ∧ (strcasecmp name "Comment".toList = 0 → quiet next = true)
      ∧ (strcasecmp name "Comment".toList ≠ 0 → quiet children = true ∧ quiet next = true) := by
  rw [quiet_node] at hq
  by_cases h1 : strcasecmp name "menu".toList = 0
  · rw [if_pos h1] at hq
    cases hq
  rw [if_neg h1] at hq
  by_cases h2 : strcasecmp name "item".toList = 0
  · rw [if_pos h2] at hq
    cases hq
  rw [if_neg h2] at hq
  by_cases h3 : strcasecmp name "separator".toList = 0
  · rw [if_pos h3] at hq
    cases hq
  rw [if_neg h3] at hq
  refine ⟨h1, h2, h3, ?_, ?_⟩
  · intro h4
    rw [if_pos h4] at hq
    exact hq
  · intro h4
    rw [if_neg h4, Bool.and_eq_true] at hq
    exact hq

/-- The walk of a quiet sibling list changes neither the cursors nor the tags,
but for the commands of items. -/
theorem quiet_frame (root_menu : Str) (doc : XmlNode) :
    ∀ (ancestors : List Elem) (s s' : State), quiet doc = true →
      xml_tree_walk root_menu ancestors doc s = .ok s' →
      s'.curtag = s.curtag ∧ s'.curitem = s.curitem
        ∧ s'.tags.map Tag.skel = s.tags.map Tag.skel := by
  induction doc with
  | null =>
    intro ancestors s s' _ h
    simp only [xml_tree_walk, Except.ok.injEq] at h
    subst h
    exact ⟨rfl, rfl, rfl⟩
  | node name props content children next ihc ihn =>
    intro ancestors s s' hq h
    cases name with
    | none =>
      simp only [xml_tree_walk, Except.ok.injEq] at h
      subst h
      exact ⟨rfl, rfl, rfl⟩
    | some name =>
      obtain ⟨h1, h2, h3, hq4, hq5⟩ := quiet_names name props content children next hq
      by_cases h4 : strcasecmp name "Comment".toList = 0
      · have hq := hq4 h4
        rw [xml_tree_walk_comment _ _ _ _ _ _ _ _ h1 h2 h3 h4] at h
        exact ihn _ _ _ hq h
      · have hq := hq5 h4
        rw [xml_tree_walk_other _ _ _ _ _ _ _ _ h1 h2 h3 h4] at h
        obtain ⟨s1, e1, h⟩ := bind_ok _ _ _ h
        obtain ⟨s2, e2, h⟩ := bind_ok _ _ _ h
        obtain ⟨a1, b1, c1⟩ := process_node_frame _ _ _ _ _ _ e1
        obtain ⟨a2, b2, c2⟩ := ihc _ _ _ hq.1 e2
        obtain ⟨a3, b3, c3⟩ := ihn _ _ _ hq.2 h
        exact ⟨a3.trans (a2.trans a1), b3.trans (b2.trans b1), c3.trans (c2.trans c1)⟩

/-- The walk of a quiet sibling list goes through when there is a current
item. -/
theorem quiet_total (root_menu : Str) (doc : XmlNode) :
    ∀ (ancestors : List Elem) (s : State) (ref : Nat × Nat), quiet doc = true →
      s.curitem = some ref → ∃ s', xml_tree_walk root_menu ancestors doc s = .ok s' := by
  induction doc with
  | null =>
    intro ancestors s ref _ _
    exact ⟨s, by rw [xml_tree_walk]⟩
  | node name props content children next ihc ihn =>
    intro ancestors s ref hq hc
    cases name with
    | none => exact ⟨s, by rw [xml_tree_walk]⟩
    | some name =>
      obtain ⟨h1, h2, h3, hq4, hq5⟩ := quiet_names name props content children next hq
      by_cases h4 : strcasecmp name "Comment".toList = 0
      · have hq := hq4 h4
        rw [xml_tree_walk_comment _ _ _ _ _ _ _ _ h1 h2 h3 h4]
        exact ihn _ _ ref hq hc
      · have hq := hq5 h4
        rw [xml_tree_walk_other _ _ _ _ _ _ _ _ h1 h2 h3 h4]
        obtain ⟨s1, e1⟩ := process_node_total name props content ancestors s ref hc
        have f1 := process_node_frame _ _ _ _ _ _ e1
        obtain ⟨s2, e2⟩ := ihc (⟨some name, props⟩ :: ancestors) s1 ref hq.1 (f1.2.1.trans hc)
        have f2 := quiet_frame root_menu children _ _ _ hq.1 e2
        obtain ⟨s3, e3⟩ := ihn ancestors s2 ref hq.2 (f2.2.1.trans (f1.2.1.trans hc))
        exact ⟨s3, by rw [e1, ok_bind, e2, ok_bind, e3]⟩

/-! ## Items in document order -/

theorem map_modify_comm {α β : Type} (h : α → β) (f : α → α) (g : β → β) (l : List α) (k : Nat)
    (hfg : ∀ a, h (f a) = g (h a)) : (l.modify f k).map h = (l.map h).modify g k := by
  induction l generalizing k with
  | nil => simp
  | cons a rest ih =>
    cases k with
    | zero => simp [hfg]
    | succ k => simp [ih]

theorem map_modify_invariant {α β : Type} (h : α → β) (f : α → α) (l : List α) (k : Nat)
    (hf : ∀ a, h (f a) = h a) : (l.modify f k).map h = l.map h := by
  induction l generalizing k with
  | nil => simp
  | cons a rest ih =>
    cases k with
    | zero => simp [hf]
    | succ k => simp [ih]

theorem map_skel_add_item (tags : List Tag) (k : Nat) (item : Item) :
    (tags.modify (fun t => { t with items := t.items ++ [item] }) k).map Tag.skel
      = (tags.map Tag.skel).modify (skel_append [item.shape]) k := by
  apply map_modify_comm
  intro t
  simp [Tag.skel, skel_append]

theorem get_tag_label_heads (a b : List Tag) (i : Option Str)
    (h : a.map (fun t => (t.id, t.label)) = b.map (fun t => (t.id, t.label))) :
    get_tag_label a i = get_tag_label b i := by
  cases i with
  | none => rfl
  | some i =>
    rw [get_tag_label_eq_find, get_tag_label_eq_find]
    induction a generalizing b with
    | nil =>
      cases b with
      | nil => rfl
      | cons y b' => simp at h
    | cons x a' ih =>
      cases b with
      | nil => simp at h
      | cons y b' =>
        simp only [List.map_cons, List.cons.injEq, Prod.mk.injEq] at h
        obtain ⟨⟨hid, hlab⟩, hrest⟩ := h
        rw [List.find?_cons, List.find?_cons, hid]
        by_cases hy : y.id = some i
        · simp [hy, hlab]
        · simp [hy, ih b' hrest]

theorem heads_of_skel (a b : List Tag)
    (shapes : List (Option Str × Bool × Bool × Bool)) (k : Nat)
    (h : b.map Tag.skel = (a.map Tag.skel).modify (skel_append shapes) k) :
    b.map (fun t => (t.id, t.label)) = a.map (fun t => (t.id, t.label)) := by
  have hb : b.map (fun t => (t.id, t.label))
      = (b.map Tag.skel).map (fun s => (s.2.1, s.1)) := by
    rw [List.map_map]
    rfl
  have ha : a.map (fun t => (t.id, t.label))
      = (a.map Tag.skel).map (fun s => (s.2.1, s.1)) := by
    rw [List.map_map]
    rfl
  rw [hb, ha, h]
  exact map_modify_invariant _ _ _ _ (fun _ => rfl)

theorem child_shape_congr (a b : List Tag) (name : Str) (props : List (Str × Str))
    (h : ∀ i, get_tag_label a i = get_tag_label b i) :
    child_shape a name props = child_shape b name props := by
  unfold child_shape
  rw [h]

theorem flat_children_congr (a b : List Tag) (doc : XmlNode)
    (h : ∀ i, get_tag_label a i = get_tag_label b i) :
    flat_children a doc = flat_children b doc := by
  induction doc with
  | null => rfl
  | node name props content children next _ ihn =>
    cases name with
    | none => rfl
    | some name =>
      rw [flat_children, flat_children, child_shape_congr a b name props h, ihn]

/-- One child of a flat sibling list: the walk appends one item of the shape
of the child to the current tag and goes on below the child. -/
theorem flat_child_step (root_menu : Str) (ancestors : List Elem) (s : State) (c : Nat)
    (tag : Tag) (name : Str) (props : List (Str × Str)) (content : Option Str)
    (shape : Option Str × Bool × Bool × Bool)
    (hc : s.curtag = some c) (htag : s.tags[c]? = some tag)
    (hshape : child_shape s.tags name props = some shape) :
    ∃ item : Item, item.shape = shape ∧ ∀ children next : XmlNode,
      xml_tree_walk root_menu ancestors (.node (some name) props content children next) s
        = (xml_tree_walk root_menu (⟨some name, props⟩ :: ancestors) children
              ⟨s.tags.modify (fun t => { t with items := t.items ++ [item] }) c, some c,
                some (c, tag.items.length)⟩
            >>= fun s2 => xml_tree_walk root_menu ancestors next s2) := by
  have hadd : ∀ item : Item, add_to_curtag s item
      = .ok ⟨s.tags.modify (fun t => { t with items := t.items ++ [item] }) c, some c,
          some (c, tag.items.length)⟩ := by
    intro item
    unfold add_to_curtag
    simp only [hc]
    rw [list_add_tail_item_eq s c tag _ htag, hc]
  have hitem : ∀ sep, new_item root_menu (some ⟨some name, props, content, ancestors⟩) sep s
      = (s, ⟨getProp props "label".toList, none, false, false, sep⟩) := by
    intro sep
    unfold new_item
    simp only [hc, xmlGetProp]
    rfl
  unfold child_shape at hshape
  by_cases h1 : strcasecmp name "menu".toList = 0
  · rw [if_pos h1] at hshape
    generalize hex : getProp props "execute".toList = ex at hshape
    generalize hlab : getProp props "label".toList = lab at hshape
    generalize hid : getProp props "id".toList = idv at hshape
    cases ex with
    | some e =>
      simp only [Option.isSome_some, if_true, Option.some.injEq] at hshape
      refine ⟨⟨lab, some e, true, false, false⟩, hshape, ?_⟩
      intro children next
      rw [xml_tree_walk_menu _ _ _ _ _ _ _ _ h1,
        menu_start_of_execute root_menu s ⟨some name, props, content, ancestors⟩ c tag e hc htag
          hex, hlab]
      simp only [ok_bind]
      rfl
    | none =>
      simp only [Option.isSome_none, Bool.false_eq_true, if_false] at hshape
      cases lab with
      | some l => simp at hshape
      | none =>
        cases idv with
        | none => simp at hshape
        | some i =>
          simp only [Option.isNone_none, Option.isSome_some, Bool.and_self, if_true,
            Option.some.injEq] at hshape
          refine ⟨⟨get_tag_label s.tags (some i), some i, false, true, false⟩, hshape, ?_⟩
          intro children next
          rw [xml_tree_walk_menu _ _ _ _ _ _ _ _ h1,
            menu_start_of_id root_menu s ⟨some name, props, content, ancestors⟩ c tag i hc htag
              hlab hex hid]
          simp only [ok_bind]
          rfl
  · rw [if_neg h1] at hshape
    by_cases h2 : strcasecmp name "item".toList = 0
    · rw [if_pos h2] at hshape
      simp only [Option.some.injEq] at hshape
      refine ⟨⟨getProp props "label".toList, none, false, false, false⟩, hshape, ?_⟩
      intro children next
      rw [xml_tree_walk_item _ _ _ _ _ _ _ _ h1 h2, hitem, hadd]
      rfl
    · rw [if_neg h2] at hshape
      by_cases h3 : strcasecmp name "separator".toList = 0
      · rw [if_pos h3] at hshape
        simp only [Option.some.injEq] at hshape
        refine ⟨⟨getProp props "label".toList, none, false, false, true⟩, hshape, ?_⟩
        intro children next
        rw [xml_tree_walk_separator _ _ _ _ _ _ _ _ h1 h2 h3, hitem, hadd]
        rfl
      · rw [if_neg h3] at hshape
        cases hshape

theorem skel_append_append (a b : List (Option Str × Bool × Bool × Bool)) :
    skel_append b ∘ skel_append a = skel_append (a ++ b) := by
  funext k
  simp [skel_append]

/-- The walk of a flat sibling list goes through, keeps the current tag, and
appends to it, in order, one item of the shape of each node of the list; the
other tags keep their items. -/
theorem flat_walk (root_menu : Str) (doc : XmlNode) :
    ∀ (ancestors : List Elem) (s : State) (c : Nat) (tag : Tag)
      (shapes : List (Option Str × Bool × Bool × Bool)),
      s.curtag = some c → s.tags[c]? = some tag → flat_children s.tags doc = some shapes →
      ∃ s', xml_tree_walk root_menu ancestors doc s = .ok s' ∧ s'.curtag = some c
        ∧ s'.tags.map Tag.skel = (s.tags.map Tag.skel).modify (skel_append shapes) c := by
  induction doc with
  | null =>
    intro ancestors s c tag shapes hc htag hflat
    simp only [flat_children, Option.some.injEq] at hflat
    subst hflat
    refine ⟨s, by rw [xml_tree_walk], hc, ?_⟩
    have hid : skel_append ([] : List (Option Str × Bool × Bool × Bool)) = id := by
      funext k
      simp [skel_append]
    rw [hid, List.modify_id]
  | node name props content children next _ ihn =>
    intro ancestors s c tag shapes hc htag hflat
    cases name with
    | none => simp [flat_children] at hflat
    | some name =>
      rw [flat_children] at hflat
      cases hsh : child_shape s.tags name props with
      | none => simp [hsh] at hflat
      | some shape =>
        cases hq : quiet children with
        | false => simp [hsh, hq] at hflat
        | true =>
          cases hrest : flat_children s.tags next with
          | none => simp [hsh, hq, hrest] at hflat
          | some rest =>
            simp only [hsh, hq, hrest, Option.some.injEq] at hflat
            subst hflat
            obtain ⟨item, hitem, hstep⟩ := flat_child_step root_menu ancestors s c tag name props
              content shape hc htag hsh
            obtain ⟨s2, e2⟩ := quiet_total root_menu children (⟨some name, props⟩ :: ancestors)
              ⟨s.tags.modify (fun t => { t with items := t.items ++ [item] }) c, some c,
                some (c, tag.items.length)⟩ (c, tag.items.length) hq rfl
            obtain ⟨f1, _, f3⟩ := quiet_frame root_menu children _ _ _ hq e2
            simp only at f1 f3
            rw [map_skel_add_item, hitem] at f3
            have hlen : s2.tags.length = s.tags.length := by
              have := congrArg List.length f3
              simpa using this
            have hclt : c < s.tags.length := (List.getElem?_eq_some_iff.1 htag).1
            have hc2 : c < s2.tags.length := by omega
            obtain ⟨tag2, htag2⟩ : ∃ tag2, s2.tags[c]? = some tag2 :=
              ⟨s2.tags[c], List.getElem?_eq_getElem hc2⟩
            have hlabel : ∀ i, get_tag_label s.tags i = get_tag_label s2.tags i := fun i =>
              (get_tag_label_heads _ _ i (heads_of_skel s.tags s2.tags [shape] c f3)).symm
            have hflat2 : flat_children s2.tags next = some rest := by
              rw [← flat_children_congr s.tags s2.tags next hlabel]
              exact hrest
            obtain ⟨s3, e3, g1, g3⟩ := ihn ancestors s2 c tag2 rest f1 htag2 hflat2
            refine ⟨s3, ?_, g1, ?_⟩
            · rw [hstep, e2, ok_bind, e3]
            · rw [g3, f3, List.modify_modify_eq, skel_append_append]
              rfl

theorem new_tag_made (root_menu : Str) (n : NodePtr) (s s' : State)
    (h : new_tag root_menu (some n) s = .ok s') :
    s'.curtag = some s.tags.length ∧ s'.tags.length = s.tags.length + 1
      ∧ ∃ tag, s'.tags[s.tags.length]? = some tag ∧ tag.items = []
          ∧ tag.label = getProp n.props "label".toList := by
  unfold new_tag at h
  obtain ⟨parent, hpar, h⟩ := bind_ok _ _ _ h
  simp only [xmlGetProp] at h
  generalize getProp n.props "id".toList = idv at h
  generalize getProp n.props "label".toList = lbl at h
  have hlast : ∀ t : Tag, (s.tags ++ [t])[s.tags.length]? = some t := by
    intro t
    rw [List.getElem?_append_right (Nat.le_refl _)]
    simp
  cases parent with
  | none =>
    simp only [pure, Except.pure, Except.ok.injEq] at h
    subst h
    exact ⟨rfl, by simp, _, hlast _, rfl, rfl⟩
  | some p =>
    have hp : p < s.tags.length := get_parent_tag_lt root_menu s.tags (some n) p hpar
    cases idv with
    | none => simp [throw, throwThe, MonadExceptOf.throw] at h
    | some i =>
      simp only [Option.isSome_some, if_true] at h
      split_ifs at h with hne
      · simp only [pure, Except.pure, Except.ok.injEq, new_item, Option.isNone_some,
          Bool.false_eq_true, if_false, list_add_tail_item, modifyTag] at h
        subst h
        refine ⟨rfl, by simp, ⟨lbl, some i, some p, []⟩, ?_, rfl, rfl⟩
        simp only
        rw [List.getElem?_modify_ne _ _ (by omega), hlast]
      · simp only [pure, Except.pure, Except.ok.injEq] at h
        subst h
        exact ⟨rfl, by simp, _, hlast _, rfl, rfl⟩

theorem flat_children_length (tags : List Tag) (doc : XmlNode) :
    ∀ shapes, flat_children tags doc = some shapes → shapes.length = sibling_count doc := by
  induction doc with
  | null =>
    intro shapes h
    simp only [flat_children, Option.some.injEq] at h
    subst h
    rfl
  | node name props content children next _ ihn =>
    intro shapes h
    cases name with
    | none => simp [flat_children] at h
    | some name =>
      rw [flat_children] at h
      cases hsh : child_shape tags name props with
      | none => simp [hsh] at h
      | some shape =>
        cases hq : quiet children with
        | false => simp [hsh, hq] at h
        | true =>
          cases hrest : flat_children tags next with
          | none => simp [hsh, hq, hrest] at h
          | some rest =>
            simp only [hsh, hq, hrest, Option.some.injEq] at h
            subst h
            simp [sibling_count, ihn rest hrest]

/-- C16: for a `menu` node with a `label` and no `execute` for which `new_tag`
makes a tag (tag number `s.tags.length`), and whose children are only `item`,
`separator`, pipe-menu and forward-checkout nodes with nothing but action and
content nodes below them: the walk of the children goes through, and after it
the item list of that tag has exactly one item per child, in the order of the
children, each with the kind and the label of its child (for a forward
checkout the label looked up for its id); the tag is still the current tag
when the subtree is done.  And whatever is walked, from whatever state, the
tags and the items that exist stay where they are, with their labels and
kinds: tags and items are only appended. -/
theorem items_in_document_order (root_menu : Str) (ancestors : List Elem) (s s1 : State)
    (name : Str) (props : List (Str × Str)) (content : Option Str) (children next : XmlNode)
    (shapes : List (Option Str × Bool × Bool × Bool))
    (hname : strcasecmp name "menu".toList = 0)
    (hl : (getProp props "label".toList).isSome = true)
    (he : getProp props "execute".toList = none)
    (hnew : new_tag root_menu (some ⟨some name, props, content, ancestors⟩) s = .ok s1)
    (hflat : flat_children s1.tags children = some shapes) :
    (∃ s2 tag2,
        xml_tree_walk root_menu (⟨some name, props⟩ :: ancestors) children s1 = .ok s2
          ∧ xml_tree_walk root_menu ancestors (.node (some name) props content children next) s
              = xml_tree_walk root_menu ancestors next (revert_to_parent s2)
          ∧ s2.tags[s.tags.length]? = some tag2
          ∧ tag2.label = getProp props "label".toList
          ∧ tag2.items.map Item.shape = shapes
          ∧ shapes.length = sibling_count children
          ∧ s2.curtag = some s.tags.length
          ∧ s2.tags.length = s.tags.length + 1)
      ∧ ∀ (root : Str) (anc : List Elem) (doc : XmlNode) (s0 s0' : State),
          xml_tree_walk root anc doc s0 = .ok s0' → TagsGrow s0.tags s0'.tags := by
  refine ⟨?_, fun root anc doc s0 s0' h => tagsGrow_xml_tree_walk root doc anc s0 s0' h⟩
  obtain ⟨hcur, hlen, tag1, htag1, hitems1, hlabel1⟩ := new_tag_made root_menu _ s s1 hnew
  obtain ⟨s2, hwalk, hcur2, hskel⟩ := flat_walk root_menu children
    (⟨some name, props⟩ :: ancestors) s1 s.tags.length tag1 shapes hcur htag1 hflat
  have hlen2 : s2.tags.length = s1.tags.length := by
    have := congrArg List.length hskel
    simpa using this
  have hget : (s2.tags.map Tag.skel)[s.tags.length]?
      = some (skel_append shapes tag1.skel) := by
    rw [hskel, List.getElem?_modify_eq, List.getElem?_map, htag1]
    rfl
  rw [List.getElem?_map] at hget
  cases htag2 : s2.tags[s.tags.length]? with
  | none => simp [htag2] at hget
  | some tag2 =>
    simp only [htag2, Option.map_some', Option.some.injEq] at hget
    have hmenu : menu_start root_menu ⟨some name, props, content, ancestors⟩ s
        = .ok (s1, true) := by
      unfold menu_start
      simp only [hl, he, Option.isNone_none, Bool.and_self, if_true, hnew]
      rfl
    refine ⟨s2, tag2, hwalk, ?_, htag2, ?_, ?_, flat_children_length _ _ _ hflat, hcur2,
      by omega⟩
    · rw [xml_tree_walk_menu _ _ _ _ _ _ _ _ hname, hmenu, ok_bind, hwalk, ok_bind]
      rfl
    · have h1 := congrArg (fun k => k.1) hget
      simp only [Tag.skel, skel_append] at h1
      rw [h1, hlabel1]
    · have h4 := congrArg (fun k => k.2.2.2) hget
      simp only [Tag.skel, skel_append, hitems1, List.map_nil, List.nil_append] at h4
      exact h4

/-- C16 at `<menu id="m" label="M"><item label="a"/><separator/>
<menu id="p" label="P" execute="cmd"/><menu id="r"/></menu>` inside the menu
`r` with label `R`. -/
theorem items_in_document_order_witness :
    ∃ s2 tag2,
      xml_tree_walk "root-menu".toList
          [⟨some "menu".toList, [("id".toList, "m".toList), ("label".toList, "M".toList)]⟩,
           ⟨some "menu".toList, [("id".toList, "r".toList), ("label".toList, "R".toList)]⟩]
          (.node (some "item".toList) [("label".toList, "a".toList)] none .null
            (.node (some "separator".toList) [] none .null
              (.node (some "menu".toList)
                [("id".toList, "p".toList), ("label".toList, "P".toList),
                 ("execute".toList, "cmd".toList)] none .null
                (.node (some "menu".toList) [("id".toList, "r".toList)] none .null .null))))
          ⟨[⟨some "R".toList, some "r".toList, none,
              [⟨some "M".toList, some "m".toList, false, true, false⟩]⟩,
            ⟨some "M".toList, some "m".toList, some 0, []⟩], some 1, some (0, 0)⟩ = .ok s2
        ∧ s2.tags[1]? = some tag2
        ∧ tag2.items.map Item.shape
            = [(some "a".toList, false, false, false), (none, false, false, true),
               (some "P".toList, true, false, false), (some "R".toList, false, true, false)] := by
  obtain ⟨s2, tag2, h1, _, h3, _, h5, _⟩ := (items_in_document_order "root-menu".toList
    [⟨some "menu".toList, [("id".toList, "r".toList), ("label".toList, "R".toList)]⟩]
    ⟨[⟨some "R".toList, some "r".toList, none, []⟩], some 0, none⟩
    ⟨[⟨some "R".toList, some "r".toList, none,
        [⟨some "M".toList, some "m".toList, false, true, false⟩]⟩,
      ⟨some "M".toList, some "m".toList, some 0, []⟩], some 1, some (0, 0)⟩
    "menu".toList [("id".toList, "m".toList), ("label".toList, "M".toList)] none
    (.node (some "item".toList) [("label".toList, "a".toList)] none .null
      (.node (some "separator".toList) [] none .null
        (.node (some "menu".toList)
          [("id".toList, "p".toList), ("label".toList, "P".toList),
           ("execute".toList, "cmd".toList)] none .null
          (.node (some "menu".toList) [("id".toList, "r".toList)] none .null .null))))
    .null
    [(some "a".toList, false, false, false), (none, false, false, true),
     (some "P".toList, true, false, false), (some "R".toList, false, true, false)]
    (by decide) (by decide) (by decide) rfl (by decide)).1
  exact ⟨s2, tag2, h1, h3, h5⟩

/-! ## Back to the enclosing menu -/

theorem get_parent_tag_ancestors (root_menu : Str) (tags : List Tag) (n m : NodePtr)
    (h : n.ancestors = m.ancestors) :
    get_parent_tag root_menu tags (some n) = get_parent_tag root_menu tags (some m) := by
  unfold get_parent_tag
  simp only [h]

theorem find_tag_by_id_spec (id : Str) (tags : List Tag) (k p : Nat)
    (h : find_tag_by_id id tags k = some p) :
    ∃ q, p = k + q ∧ q < tags.length ∧ tags[q]?.bind (fun tag => tag.id) = some id
      ∧ ∀ j, j < q → tags[j]?.bind (fun tag => tag.id) ≠ some id := by
  induction tags generalizing k with
  | nil => simp [find_tag_by_id] at h
  | cons tag rest ih =>
    rw [find_tag_by_id] at h
    have hrec : find_tag_by_id id rest (k + 1) = some p → tag.id ≠ some id →
        ∃ q, p = k + q ∧ q < (tag :: rest).length
          ∧ (tag :: rest)[q]?.bind (fun tag => tag.id) = some id
          ∧ ∀ j, j < q → (tag :: rest)[j]?.bind (fun tag => tag.id) ≠ some id := by
      intro hf hne
      obtain ⟨q, hq1, hq2, hq3, hq4⟩ := ih (k + 1) hf
      refine ⟨q + 1, by omega, by simp; omega, by simpa using hq3, ?_⟩
      intro j hj
      cases j with
      | zero => simpa using hne
      | succ j =>
        have := hq4 j (by omega)
        simpa using this
    cases hi : tag.id with
    | none =>
      simp only [hi] at h
      exact hrec h (by simp [hi])
    | some j =>
      simp only [hi] at h
      by_cases hj : strcmp j id = 0
      · rw [if_pos hj] at h
        simp only [Option.some.injEq] at h
        have hji : j = id := (strcmp_eq_zero j id).1 hj
        refine ⟨0, by omega, by simp, by simp [hi, hji], ?_⟩
        intro j0 hj0
        omega
      · rw [if_neg hj] at h
        have hne : tag.id ≠ some id := by
          rw [hi]
          intro e
          exact hj ((strcmp_eq_zero j id).2 (Option.some.inj e))
        exact hrec h hne

theorem find_tag_by_id_grow (id : Str) (a b : List Tag) (p : Nat) (hg : TagsGrow a b)
    (h : find_tag_by_id id a 0 = some p) : find_tag_by_id id b 0 = some p := by
  obtain ⟨q, hq1, hq2, hq3, hq4⟩ := find_tag_by_id_spec id a 0 p h
  have hpq : p = q := by omega
  subst hpq
  have hkeep : ∀ j, j < a.length → b[j]?.bind (fun tag => tag.id) = a[j]?.bind (fun tag => tag.id)
      ∧ j < b.length := by
    intro j hj
    have hget : a[j]? = some a[j] := List.getElem?_eq_getElem hj
    obtain ⟨tag', h1, _, h3, _⟩ := hg j _ hget
    refine ⟨by rw [h1, hget]; simp [h3], (List.getElem?_eq_some_iff.1 h1).1⟩
  have := find_tag_by_id_first id b 0 p (hkeep p hq2).2
    (by rw [(hkeep p hq2).1]; exact hq3)
    (fun j hj => by rw [(hkeep j (by omega)).1]; exact hq4 j hj)
  simpa using this

theorem get_parent_tag_grow (root_menu : Str) (a b : List Tag) (n : NodePtr) (p : Nat)
    (hg : TagsGrow a b) (h : get_parent_tag root_menu a (some n) = .ok (some p)) :
    get_parent_tag root_menu b (some n) = .ok (some p) := by
  unfold get_parent_tag at h ⊢
  simp only at h ⊢
  cases hanc : n.ancestors with
  | nil => simp [hanc] at h
  | cons parent rest =>
    simp only [hanc] at h ⊢
    cases hname : parent.name with
    | none => simp [hname] at h
    | some pname =>
      simp only [hname] at h ⊢
      generalize (if strcmp pname "openbox_pipe_menu".toList = 0 then some root_menu
        else getProp parent.props "id".toList) = idv at h ⊢
      cases idv with
      | none => simp at h
      | some i =>
        simp only [Except.ok.injEq] at h ⊢
        exact find_tag_by_id_grow i a b p hg h

theorem ids_of_skel (a b : List Tag) (h : a.map Tag.skel = b.map Tag.skel) :
    a.map (fun t => t.id) = b.map (fun t => t.id) := by
  have ha : a.map (fun t => t.id) = (a.map Tag.skel).map (fun k => k.2.1) := by
    rw [List.map_map]
    rfl
  have hb : b.map (fun t => t.id) = (b.map Tag.skel).map (fun k => k.2.1) := by
    rw [List.map_map]
    rfl
  rw [ha, hb, h]

theorem ids_add_item (tags : List Tag) (k : Nat) (item : Item) :
    (tags.modify (fun t => { t with items := t.items ++ [item] }) k).map (fun t => t.id)
      = tags.map (fun t => t.id) :=
  map_modify_invariant _ _ _ _ (fun _ => rfl)

/-- A node that is not an inline submenu, with a quiet subtree, in a state with
a current tag: the walk of the node and its subtree keeps the current tag and
the ids of the tags. -/
theorem plain_node_frame (root_menu : Str) (ancestors : List Elem) (s s' : State) (c : Nat)
    (name : Str) (props : List (Str × Str)) (content : Option Str) (children : XmlNode)
    (hc : s.curtag = some c) (hq : quiet children = true)
    (hplain : strcasecmp name "menu".toList = 0 →
      ((getProp props "label".toList).isSome && (getProp props "execute".toList).isNone) = false)
    (h : xml_tree_walk root_menu ancestors (.node (some name) props content children .null) s
      = .ok s') :
    s'.curtag = some c ∧ s'.tags.map (fun t => t.id) = s.tags.map (fun t => t.id) := by
  have hitem : ∀ sep, (new_item root_menu (some ⟨some name, props, content, ancestors⟩) sep s).1
      = s := by
    intro sep
    unfold new_item
    simp [hc]
  have hadd : ∀ (item : Item) (s1 : State), add_to_curtag s item = .ok s1 →
      s1.curtag = some c ∧ s1.tags.map (fun t => t.id) = s.tags.map (fun t => t.id) := by
    intro item s1 h1
    unfold add_to_curtag at h1
    simp only [hc, Except.ok.injEq] at h1
    subst h1
    exact ⟨hc, ids_add_item s.tags c item⟩
  have hkids : ∀ (s1 s2 : State),
      s1.curtag = some c ∧ s1.tags.map (fun t => t.id) = s.tags.map (fun t => t.id) →
      xml_tree_walk root_menu (⟨some name, props⟩ :: ancestors) children s1 = .ok s2 →
      s2.curtag = some c ∧ s2.tags.map (fun t => t.id) = s.tags.map (fun t => t.id) := by
    intro s1 s2 h1 h2
    obtain ⟨f1, _, f3⟩ := quiet_frame root_menu children _ _ _ hq h2
    exact ⟨f1.trans h1.1, (ids_of_skel _ _ f3).trans h1.2⟩
  by_cases h1 : strcasecmp name "menu".toList = 0
  · rw [xml_tree_walk_menu _ _ _ _ _ _ _ _ h1] at h
    obtain ⟨r, e1, h⟩ := bind_ok _ _ _ h
    obtain ⟨s2, e2, h⟩ := bind_ok _ _ _ h
    rw [xml_tree_walk_null] at h
    have hr : (r.1.curtag = some c ∧ r.1.tags.map (fun t => t.id) = s.tags.map (fun t => t.id))
        ∧ r.2 = false := by
      unfold menu_start at e1
      simp only [hplain h1, Bool.false_eq_true, if_false] at e1
      split_ifs at e1
      · obtain ⟨s1, a1, a2⟩ := bind_ok _ _ _ e1
        simp only [pure, Except.pure, Except.ok.injEq] at a2
        rw [hitem] at a1
        rw [← a2]
        exact ⟨hadd _ s1 a1, rfl⟩
      · obtain ⟨s1, a1, a2⟩ := bind_ok _ _ _ e1
        simp only [pure, Except.pure, Except.ok.injEq] at a2
        rw [hitem] at a1
        rw [← a2]
        exact ⟨hadd _ s1 a1, rfl⟩
      · simp only [pure, Except.pure, Except.ok.injEq] at e1
        rw [← e1]
        exact ⟨⟨hc, rfl⟩, rfl⟩
    simp only [hr.2, Bool.false_eq_true, if_false, Except.ok.injEq] at h
    subst h
    exact hkids _ _ hr.1 e2
  by_cases h2 : strcasecmp name "item".toList = 0
  · rw [xml_tree_walk_item _ _ _ _ _ _ _ _ h1 h2, hitem] at h
    obtain ⟨s1, e1, h⟩ := bind_ok _ _ _ h
    obtain ⟨s2, e2, h⟩ := bind_ok _ _ _ h
    rw [xml_tree_walk_null] at h
    simp only [Except.ok.injEq] at h
    subst h
    exact hkids _ _ (hadd _ s1 e1) e2
  by_cases h3 : strcasecmp name "separator".toList = 0
  · rw [xml_tree_walk_separator _ _ _ _ _ _ _ _ h1 h2 h3, hitem] at h
    obtain ⟨s1, e1, h⟩ := bind_ok _ _ _ h
    obtain ⟨s2, e2, h⟩ := bind_ok _ _ _ h
    rw [xml_tree_walk_null] at h
    simp only [Except.ok.injEq] at h
    subst h
    exact hkids _ _ (hadd _ s1 e1) e2
  by_cases h4 : strcasecmp name "Comment".toList = 0
  · rw [xml_tree_walk_comment _ _ _ _ _ _ _ _ h1 h2 h3 h4, xml_tree_walk_null] at h
    simp only [Except.ok.injEq] at h
    subst h
    exact ⟨hc, rfl⟩
  · rw [xml_tree_walk_other _ _ _ _ _ _ _ _ h1 h2 h3 h4] at h
    obtain ⟨s1, e1, h⟩ := bind_ok _ _ _ h
    obtain ⟨s2, e2, h⟩ := bind_ok _ _ _ h
    rw [xml_tree_walk_null] at h
    simp only [Except.ok.injEq] at h
    subst h
    obtain ⟨f1, _, f3⟩ := process_node_frame _ _ _ _ _ _ e1
    exact hkids _ _ ⟨f1.trans hc, ids_of_skel _ _ f3⟩ e2

/-- The walk of a sibling list is the walk of its first node, with the subtree
of that node, followed by the walk of the rest of the list. -/
theorem xml_tree_walk_cons (root_menu : Str) (ancestors : List Elem) (name : Str)
    (props : List (Str × Str)) (content : Option Str) (children next : XmlNode) (s : State) :
    xml_tree_walk root_menu ancestors (.node (some name) props content children next) s
      = (xml_tree_walk root_menu ancestors (.node (some name) props content children .null) s
          >>= fun s1 => xml_tree_walk root_menu ancestors next s1) := by
  by_cases h1 : strcasecmp name "menu".toList = 0
  · rw [xml_tree_walk_menu _ _ _ _ _ _ _ _ h1, xml_tree_walk_menu _ _ _ _ _ _ _ _ h1]
    cases menu_start root_menu ⟨some name, props, content, ancestors⟩ s with
    | error e => rfl
    | ok r =>
      rw [ok_bind, ok_bind]
      cases xml_tree_walk root_menu (⟨some name, props⟩ :: ancestors) children r.1 with
      | error e => rfl
      | ok s1 => rw [ok_bind, ok_bind, xml_tree_walk_null, ok_bind]
  by_cases h2 : strcasecmp name "item".toList = 0
  · rw [xml_tree_walk_item _ _ _ _ _ _ _ _ h1 h2, xml_tree_walk_item _ _ _ _ _ _ _ _ h1 h2]
    cases add_to_curtag (new_item root_menu (some ⟨some name, props, content, ancestors⟩) false s).1
        (new_item root_menu (some ⟨some name, props, content, ancestors⟩) false s).2 with
    | error e => rfl
    | ok r =>
      rw [ok_bind, ok_bind]
      cases xml_tree_walk root_menu (⟨some name, props⟩ :: ancestors) children r with
      | error e => rfl
      | ok s1 => rw [ok_bind, ok_bind, xml_tree_walk_null, ok_bind]
  by_cases h3 : strcasecmp name "separator".toList = 0
  · rw [xml_tree_walk_separator _ _ _ _ _ _ _ _ h1 h2 h3,
      xml_tree_walk_separator _ _ _ _ _ _ _ _ h1 h2 h3]
    cases add_to_curtag (new_item root_menu (some ⟨some name, props, content, ancestors⟩) true s).1
        (new_item root_menu (some ⟨some name, props, content, ancestors⟩) true s).2 with
    | error e => rfl
    | ok r =>
      rw [ok_bind, ok_bind]
      cases xml_tree_walk root_menu (⟨some name, props⟩ :: ancestors) children r with
      | error e => rfl
      | ok s1 => rw [ok_bind, ok_bind, xml_tree_walk_null, ok_bind]
  by_cases h4 : strcasecmp name "Comment".toList = 0
  · rw [xml_tree_walk_comment _ _ _ _ _ _ _ _ h1 h2 h3 h4,
      xml_tree_walk_comment _ _ _ _ _ _ _ _ h1 h2 h3 h4, xml_tree_walk_null, ok_bind]
  · rw [xml_tree_walk_other _ _ _ _ _ _ _ _ h1 h2 h3 h4,
      xml_tree_walk_other _ _ _ _ _ _ _ _ h1 h2 h3 h4]
    cases process_node name props content ancestors s with
    | error e => rfl
    | ok r =>
      rw [ok_bind, ok_bind]
      cases xml_tree_walk root_menu (⟨some name, props⟩ :: ancestors) children r with
      | error e => rfl
      | ok s1 => rw [ok_bind, ok_bind, xml_tree_walk_null, ok_bind]

/-- The tag that `new_tag` makes for a node with an id whose parent lookup
finds the tag `T`: it is appended with that id and the parent `T`, it becomes
the current tag, and a current item exists afterwards if the id differs from the
root id or if one existed before. -/
theorem new_tag_nested (root_menu : Str) (s : State) (n : NodePtr) (T : Nat) (i : Str)
    (hparent : get_parent_tag root_menu s.tags (some n) = .ok (some T))
    (hi : getProp n.props "id".toList = some i)
    (hsafe : i = root_menu → ∃ ref, s.curitem = some ref) :
    ∃ s1, new_tag root_menu (some n) s = .ok s1 ∧ s1.curtag = some s.tags.length
      ∧ s1.tags.map (fun t => t.id) = s.tags.map (fun t => t.id) ++ [some i]
      ∧ (∃ tag, s1.tags[s.tags.length]? = some tag ∧ tag.parent = some T)
      ∧ ∃ ref, s1.curitem = some ref := by
  have hT : T < s.tags.length := get_parent_tag_lt _ _ _ _ hparent
  by_cases hroot : i = root_menu
  · subst hroot
    refine ⟨_, new_tag_root_id i s n (some T) hparent hi, rfl, by simp, ?_, hsafe rfl⟩
    refine ⟨⟨getProp n.props "label".toList, some i, some T, []⟩, ?_, rfl⟩
    simp only
    rw [List.getElem?_append_right (Nat.le_refl _)]
    simp
  · refine ⟨_, new_tag_with_parent root_menu s n T i hparent hT hi hroot, rfl, ?_, ?_, _, rfl⟩
    · simp only [List.map_append, List.map_cons, List.map_nil]
      rw [ids_add_item]
    · refine ⟨⟨getProp n.props "label".toList, some i, some T, []⟩, ?_, rfl⟩
      simp only
      rw [List.getElem?_append_right (by simp)]
      simp

/-- A node that is not an inline submenu, with a quiet subtree, in a state with
a current tag and a current item: the walk of the node and its subtree gives a
state, which has a current item. -/
theorem plain_node_total (root_menu : Str) (ancestors : List Elem) (s : State) (c : Nat)
    (ref : Nat × Nat) (name : Str) (props : List (Str × Str)) (content : Option Str)
    (children : XmlNode)
    (hc : s.curtag = some c) (hr : s.curitem = some ref) (hq : quiet children = true)
    (hplain : strcasecmp name "menu".toList = 0 →
      ((getProp props "label".toList).isSome && (getProp props "execute".toList).isNone) = false) :
    ∃ s', xml_tree_walk root_menu ancestors (.node (some name) props content children .null) s
        = .ok s' ∧ ∃ ref', s'.curitem = some ref' := by
  have hitem : ∀ sep, (new_item root_menu (some ⟨some name, props, content, ancestors⟩) sep s).1
      = s := by
    intro sep
    unfold new_item
    simp [hc]
  have hadd : ∀ (item : Item), ∃ s1, add_to_curtag s item = .ok s1
      ∧ ∃ ref', s1.curitem = some ref' := by
    intro item
    unfold add_to_curtag
    simp only [hc]
    exact ⟨_, rfl, _, rfl⟩
  have hkids : ∀ (s1 : State), (∃ ref', s1.curitem = some ref') →
      ∃ s2, xml_tree_walk root_menu (⟨some name, props⟩ :: ancestors) children s1 = .ok s2
        ∧ ∃ ref', s2.curitem = some ref' := by
    intro s1 h1
    obtain ⟨ref1, h1⟩ := h1
    obtain ⟨s2, h2⟩ := quiet_total root_menu children (⟨some name, props⟩ :: ancestors) s1 ref1
      hq h1
    obtain ⟨_, f2, _⟩ := quiet_frame root_menu children _ _ _ hq h2
    exact ⟨s2, h2, ref1, f2.trans h1⟩
  by_cases h1 : strcasecmp name "menu".toList = 0
  · rw [xml_tree_walk_menu _ _ _ _ _ _ _ _ h1]
    have hr1 : ∃ s1, menu_start root_menu ⟨some name, props, content, ancestors⟩ s
        = .ok (s1, false) ∧ ∃ ref', s1.curitem = some ref' := by
      unfold menu_start
      simp only [hplain h1, Bool.false_eq_true, if_false]
      split_ifs
      · rw [hitem]
        obtain ⟨s1, a1, a2⟩ := hadd
          { (new_item root_menu (some ⟨some name, props, content, ancestors⟩) false s).2 with
            pipe := true, cmd := getProp props "execute".toList }
        exact ⟨s1, by rw [a1]; rfl, a2⟩
      · rw [hitem]
        obtain ⟨s1, a1, a2⟩ := hadd
          { (new_item root_menu (some ⟨some name, props, content, ancestors⟩) false s).2 with
            checkout := true, cmd := getProp props "id".toList,
            label := get_tag_label s.tags (getProp props "id".toList) }
        exact ⟨s1, by rw [a1]; rfl, a2⟩
      · exact ⟨s, rfl, ref, hr⟩
    obtain ⟨s1, e1, r1⟩ := hr1
    obtain ⟨s2, e2, r2⟩ := hkids s1 r1
    refine ⟨s2, ?_, r2⟩
    rw [e1, ok_bind, e2, ok_bind, xml_tree_walk_null]
    rfl
  by_cases h2 : strcasecmp name "item".toList = 0
  · rw [xml_tree_walk_item _ _ _ _ _ _ _ _ h1 h2, hitem]
    obtain ⟨s1, e1, r1⟩ := hadd
      (new_item root_menu (some ⟨some name, props, content, ancestors⟩) false s).2
    obtain ⟨s2, e2, r2⟩ := hkids s1 r1
    exact ⟨s2, by rw [e1, ok_bind, e2, ok_bind, xml_tree_walk_null], r2⟩
  by_cases h3 : strcasecmp name "separator".toList = 0
  · rw [xml_tree_walk_separator _ _ _ _ _ _ _ _ h1 h2 h3, hitem]
    obtain ⟨s1, e1, r1⟩ := hadd
      (new_item root_menu (some ⟨some name, props, content, ancestors⟩) true s).2
    obtain ⟨s2, e2, r2⟩ := hkids s1 r1
    exact ⟨s2, by rw [e1, ok_bind, e2, ok_bind, xml_tree_walk_null], r2⟩
  by_cases h4 : strcasecmp name "Comment".toList = 0
  · rw [xml_tree_walk_comment _ _ _ _ _ _ _ _ h1 h2 h3 h4, xml_tree_walk_null]
    exact ⟨s, rfl, ref, hr⟩
  · rw [xml_tree_walk_other _ _ _ _ _ _ _ _ h1 h2 h3 h4]
    obtain ⟨s1, e1⟩ := process_node_total name props content ancestors s ref hr
    obtain ⟨_, f2, _⟩ := process_node_frame _ _ _ _ _ _ e1
    obtain ⟨s2, e2, r2⟩ := hkids s1 ⟨ref, f2.trans hr⟩
    exact ⟨s2, by rw [e1, ok_bind, e2, ok_bind, xml_tree_walk_null], r2⟩

theorem menu_start_inline (root_menu : Str) (n : NodePtr) (s : State)
    (h : ((getProp n.props "label".toList).isSome && (getProp n.props "execute".toList).isNone)
      = true) :
    menu_start root_menu n s = (new_tag root_menu (some n) s >>= fun s1 => pure (s1, true)) := by
  unfold menu_start
  simp only
  rw [if_pos h]

theorem first_of_ids (tags : List Tag) (used : List (Option Str)) (i : Str)
    (h : tags.map (fun t => t.id) = used ++ [some i]) (hfresh : some i ∉ used) :
    used.length < tags.length ∧ tags[used.length]?.bind (fun tag => tag.id) = some i
      ∧ ∀ j, j < used.length → tags[j]?.bind (fun tag => tag.id) ≠ some i := by
  have hlen : tags.length = used.length + 1 := by
    have := congrArg List.length h
    simpa using this
  have hget : ∀ j : Nat, tags[j]?.map (fun (t : Tag) => t.id) = (used ++ [some i])[j]? := by
    intro j
    rw [← h, List.getElem?_map]
  refine ⟨by omega, ?_, ?_⟩
  · have h1 := hget used.length
    rw [List.getElem?_append_right (Nat.le_refl _)] at h1
    simp only [Nat.sub_self, List.getElem?_cons_zero] at h1
    cases ht : tags[used.length]? with
    | none => rw [ht] at h1; simp at h1
    | some tag =>
      rw [ht] at h1
      simp only [Option.map_some', Option.some.injEq] at h1
      simpa using h1
  · intro j hj hcontra
    have h1 := hget j
    rw [List.getElem?_append_left hj] at h1
    cases ht : tags[j]? with
    | none => rw [ht] at hcontra; simp at hcontra
    | some tag =>
      rw [ht] at h1 hcontra
      simp only [Option.map_some', Option.some_bind] at h1 hcontra
      rw [hcontra] at h1
      exact hfresh (List.mem_iff_getElem?.2 ⟨j, h1.symm⟩)

theorem tidy_plain (used used' : List (Option Str)) (name : Str) (props : List (Str × Str))
    (content : Option Str) (children next : XmlNode)
    (hplain : strcasecmp name "menu".toList = 0 →
      ((getProp props "label".toList).isSome && (getProp props "execute".toList).isNone) = false)
    (h : tidy used (.node (some name) props content children next) = some used') :
    tidy used next = some used'
      ∧ (strcasecmp name "Comment".toList ≠ 0 → quiet children = true) := by
  rw [tidy] at h
  have hq : ∀ (x : Option (List (Option Str))),
      (if quiet children = true then x else none) = some used' →
      x = some used' ∧ quiet children = true := by
    intro x hx
    by_cases hc : quiet children = true
    · rw [if_pos hc] at hx
      exact ⟨hx, hc⟩
    · rw [if_neg hc] at hx
      cases hx
  by_cases h1 : strcasecmp name "menu".toList = 0
  · rw [if_pos h1, hplain h1, if_neg Bool.false_ne_true] at h
    exact ⟨(hq _ h).1, fun _ => (hq _ h).2⟩
  rw [if_neg h1] at h
  by_cases h2 : strcasecmp name "item".toList = 0
  · rw [if_pos h2] at h
    exact ⟨(hq _ h).1, fun _ => (hq _ h).2⟩
  rw [if_neg h2] at h
  by_cases h3 : strcasecmp name "separator".toList = 0
  · rw [if_pos h3] at h
    exact ⟨(hq _ h).1, fun _ => (hq _ h).2⟩
  rw [if_neg h3] at h
  by_cases h4 : strcasecmp name "Comment".toList = 0
  · rw [if_pos h4] at h
    exact ⟨h, fun hne => absurd h4 hne⟩
  rw [if_neg h4] at h
  exact ⟨(hq _ h).1, fun _ => (hq _ h).2⟩

theorem tidy_inline (used used' : List (Option Str)) (name : Str) (props : List (Str × Str))
    (content : Option Str) (children next : XmlNode)
    (h1 : strcasecmp name "menu".toList = 0)
    (hin : ((getProp props "label".toList).isSome && (getProp props "execute".toList).isNone)
      = true)
    (h : tidy used (.node (some name) props content children next) = some used') :
    ∃ i used1, getProp props "id".toList = some i ∧ some i ∉ used
      ∧ tidy (used ++ [some i]) children = some used1 ∧ tidy used1 next = some used' := by
  rw [tidy, if_pos h1, if_pos hin] at h
  cases hid : getProp props "id".toList with
  | none =>
    rw [hid] at h
    cases h
  | some i =>
    rw [hid] at h
    simp only at h
    by_cases hmem : some i ∈ used
    · rw [if_pos hmem] at h
      cases h
    · rw [if_neg hmem] at h
      cases hk : tidy (used ++ [some i]) children with
      | none =>
        rw [hk] at h
        cases h
      | some used1 =>
        rw [hk] at h
        exact ⟨i, used1, rfl, hmem, hk, h⟩

theorem revert_to_parent_of_parent (s : State) (c p : Nat) (tag : Tag)
    (hc : s.curtag = some c) (ht : s.tags[c]? = some tag) (hp : tag.parent = some p) :
    revert_to_parent s = { s with curtag := some p } := by
  unfold revert_to_parent
  simp only [hc, ht, Option.some_bind, hp]

/-- The walk of a tidy sibling list whose nodes have a parent with the tag `T`,
started with `T` as the current tag and with a current item: the walk gives a
state, `T` is the current tag again, and the ids of the tags are those that
`tidy` lists. -/
theorem tidy_walk (root_menu : Str) (doc : XmlNode) :
    ∀ (ancestors : List Elem) (s : State) (T : Nat) (ref : Nat × Nat)
      (used' : List (Option Str)),
      s.curtag = some T → s.curitem = some ref →
      get_parent_tag root_menu s.tags (some ⟨none, [], none, ancestors⟩) = .ok (some T) →
      tidy (s.tags.map (fun t => t.id)) doc = some used' →
      ∃ s', xml_tree_walk root_menu ancestors doc s = .ok s' ∧ s'.curtag = some T
        ∧ (∃ ref', s'.curitem = some ref') ∧ s'.tags.map (fun t => t.id) = used'
        ∧ TagsGrow s.tags s'.tags := by
  induction doc with
  | null =>
    intro ancestors s T ref used' hc hr _ htidy
    rw [tidy] at htidy
    exact ⟨s, xml_tree_walk_null _ _ _, hc, ⟨ref, hr⟩, Option.some.inj htidy, TagsGrow.refl _⟩
  | node name props content children next ihc ihn =>
    intro ancestors s T ref used' hc hr hpar htidy
    cases name with
    | none =>
      rw [tidy] at htidy
      refine ⟨s, ?_, hc, ⟨ref, hr⟩, Option.some.inj htidy, TagsGrow.refl _⟩
      rw [xml_tree_walk]
    | some name =>
      rw [xml_tree_walk_cons]
      by_cases hin : strcasecmp name "menu".toList = 0
          ∧ ((getProp props "label".toList).isSome && (getProp props "execute".toList).isNone)
            = true
      · obtain ⟨h1, hin⟩ := hin
        obtain ⟨i, used1, hid, hfresh, hk, hn⟩ := tidy_inline _ _ _ _ _ _ _ h1 hin htidy
        have hparn : get_parent_tag root_menu s.tags (some ⟨some name, props, content, ancestors⟩)
            = .ok (some T) :=
          (get_parent_tag_ancestors root_menu s.tags ⟨some name, props, content, ancestors⟩
            ⟨none, [], none, ancestors⟩ rfl).trans hpar
        obtain ⟨s1, e1, c1, ids1, ⟨tag1, ht1, hp1⟩, ⟨ref1, r1⟩⟩ :=
          new_tag_nested root_menu s ⟨some name, props, content, ancestors⟩ T i hparn hid
            (fun _ => ⟨ref, hr⟩)
        have ems : menu_start root_menu ⟨some name, props, content, ancestors⟩ s
            = .ok (s1, true) := by
          rw [menu_start_inline root_menu ⟨some name, props, content, ancestors⟩ s hin, e1]
          rfl
        obtain ⟨f1, f2, f3⟩ := first_of_ids s1.tags (s.tags.map (fun t => t.id)) i ids1 hfresh
        rw [List.length_map] at f1 f2 f3
        have hpar1 : get_parent_tag root_menu s1.tags
            (some ⟨none, [], none, ⟨some name, props⟩ :: ancestors⟩) = .ok (some s.tags.length) :=
          get_parent_tag_of_menu root_menu s1.tags _ ⟨some name, props⟩ ancestors name i
            s.tags.length rfl rfl h1 hid f1 f2 f3
        obtain ⟨s2, e2, c2, ⟨ref2, r2⟩, ids2, g2⟩ :=
          ihc (⟨some name, props⟩ :: ancestors) s1 s.tags.length ref1 used1 c1 r1 hpar1
            (by rw [ids1]; exact hk)
        obtain ⟨tag2, ht2, _, _, hp2, _⟩ := g2 _ _ ht1
        have hrev : revert_to_parent s2 = { s2 with curtag := some T } :=
          revert_to_parent_of_parent s2 _ T tag2 c2 ht2 (hp2.trans hp1)
        have hg : TagsGrow s.tags s2.tags :=
          (tagsGrow_new_tag root_menu _ s s1 e1).trans g2
        obtain ⟨s3, e3, c3, r3, ids3, g3⟩ :=
          ihn ancestors { s2 with curtag := some T } T ref2 used' rfl r2
            (get_parent_tag_grow root_menu s.tags s2.tags _ T hg hpar)
            (by rw [ids2]; exact hn)
        refine ⟨s3, ?_, c3, r3, ids3, hg.trans g3⟩
        rw [xml_tree_walk_menu _ _ _ _ _ _ _ _ h1, ems, ok_bind, e2, ok_bind, xml_tree_walk_null,
          ok_bind]
        simp only [if_true, hrev]
        exact e3
      · have hplain : strcasecmp name "menu".toList = 0 →
            ((getProp props "label".toList).isSome && (getProp props "execute".toList).isNone)
              = false := by
          intro h1
          cases hb : ((getProp props "label".toList).isSome
            && (getProp props "execute".toList).isNone) with
          | false => rfl
          | true => exact absurd ⟨h1, hb⟩ hin
        obtain ⟨hn, hq⟩ := tidy_plain _ _ _ _ _ _ _ hplain htidy
        by_cases h4 : strcasecmp name "Comment".toList = 0
        · rw [xml_tree_walk_skip_comment _ _ _ _ _ _ _ _ h4, xml_tree_walk_null, ok_bind]
          exact ihn ancestors s T ref used' hc hr hpar hn
        · obtain ⟨s1, e1, ref1, r1⟩ := plain_node_total root_menu ancestors s T ref name props
            content children hc hr (hq h4) hplain
          obtain ⟨c1, ids1⟩ := plain_node_frame root_menu ancestors s s1 T name props content
            children hc (hq h4) hplain e1
          have hg : TagsGrow s.tags s1.tags := tagsGrow_xml_tree_walk root_menu _ _ _ _ e1
          obtain ⟨s3, e3, c3, r3, ids3, g3⟩ :=
            ihn ancestors s1 T ref1 used' c1 r1
              (get_parent_tag_grow root_menu s.tags s1.tags _ T hg hpar)
              (by rw [ids1]; exact hn)
          refine ⟨s3, ?_, c3, r3, ids3, hg.trans g3⟩
          rw [e1, ok_bind]
          exact e3

/-- One inline submenu whose parent lookup finds the current tag `T`, with a
new id and a tidy subtree: the walk of the node and its subtree gives a state
in which `T` is the current tag again. -/
theorem inline_node_walk (root_menu : Str) (ancestors : List Elem) (s : State) (T : Nat)
    (name : Str) (props : List (Str × Str)) (content : Option Str) (children : XmlNode)
    (i : Str) (used1 : List (Option Str))
    (h1 : strcasecmp name "menu".toList = 0)
    (hin : ((getProp props "label".toList).isSome && (getProp props "execute".toList).isNone)
      = true)
    (hpar : get_parent_tag root_menu s.tags (some ⟨some name, props, content, ancestors⟩)
      = .ok (some T))
    (hid : getProp props "id".toList = some i)
    (hsafe : i = root_menu → ∃ ref, s.curitem = some ref)
    (hfresh : some i ∉ s.tags.map (fun t => t.id))
    (hk : tidy (s.tags.map (fun t => t.id) ++ [some i]) children = some used1) :
    ∃ s', xml_tree_walk root_menu ancestors (.node (some name) props content children .null) s
        = .ok s' ∧ s'.curtag = some T ∧ s'.tags.map (fun t => t.id) = used1
      ∧ TagsGrow s.tags s'.tags := by
  obtain ⟨s1, e1, c1, ids1, ⟨tag1, ht1, hp1⟩, ⟨ref1, r1⟩⟩ :=
    new_tag_nested root_menu s ⟨some name, props, content, ancestors⟩ T i hpar hid hsafe
  have ems : menu_start root_menu ⟨some name, props, content, ancestors⟩ s
      = .ok (s1, true) := by
    rw [menu_start_inline root_menu ⟨some name, props, content, ancestors⟩ s hin, e1]
    rfl
  obtain ⟨f1, f2, f3⟩ := first_of_ids s1.tags (s.tags.map (fun t => t.id)) i ids1 hfresh
  rw [List.length_map] at f1 f2 f3
  have hpar1 : get_parent_tag root_menu s1.tags
      (some ⟨none, [], none, ⟨some name, props⟩ :: ancestors⟩) = .ok (some s.tags.length) :=
    get_parent_tag_of_menu root_menu s1.tags _ ⟨some name, props⟩ ancestors name i
      s.tags.length rfl rfl h1 hid f1 f2 f3
  obtain ⟨s2, e2, c2, _, ids2, g2⟩ :=
    tidy_walk root_menu children (⟨some name, props⟩ :: ancestors) s1 s.tags.length ref1 used1
      c1 r1 hpar1 (by rw [ids1]; exact hk)
  obtain ⟨tag2, ht2, _, _, hp2, _⟩ := g2 _ _ ht1
  have hrev : revert_to_parent s2 = { s2 with curtag := some T } :=
    revert_to_parent_of_parent s2 _ T tag2 c2 ht2 (hp2.trans hp1)
  refine ⟨{ s2 with curtag := some T }, ?_, rfl, ids2,
    (tagsGrow_new_tag root_menu _ s s1 e1).trans g2⟩
  rw [xml_tree_walk_menu _ _ _ _ _ _ _ _ h1, ems, ok_bind, e2, ok_bind, xml_tree_walk_null]
  simp only [if_true, hrev]

theorem xml_tree_walk_leaf_item (root_menu : Str) (ancestors : List Elem) (s : State)
    (c : Nat) (name : Str) (props : List (Str × Str)) (content : Option Str)
    (hname : strcasecmp name "item".toList = 0) (hc : s.curtag = some c) :
    xml_tree_walk root_menu ancestors (.node (some name) props content .null .null) s
      = .ok (list_add_tail_item s c ⟨getProp props "label".toList, none, false, false, false⟩) := by
  have h1 : strcasecmp name "menu".toList ≠ 0 :=
    strcasecmp_trans_ne name "item".toList "menu".toList hname (by decide)
  have hitem : new_item root_menu (some ⟨some name, props, content, ancestors⟩) false s
      = (s, ⟨getProp props "label".toList, none, false, false, false⟩) := by
    unfold new_item
    simp only [hc, xmlGetProp]
    rfl
  rw [xml_tree_walk_item _ _ _ _ _ _ _ _ h1 hname, hitem]
  unfold add_to_curtag
  simp only [hc, ok_bind, xml_tree_walk_null]

theorem xml_tree_walk_leaf_separator (root_menu : Str) (ancestors : List Elem) (s : State)
    (c : Nat) (name : Str) (props : List (Str × Str)) (content : Option Str)
    (hname : strcasecmp name "separator".toList = 0) (hc : s.curtag = some c) :
    xml_tree_walk root_menu ancestors (.node (some name) props content .null .null) s
      = .ok (list_add_tail_item s c ⟨getProp props "label".toList, none, false, false, true⟩) := by
  have hlen : name.length = 9 := strcasecmp_length _ _ hname
  have h1 : strcasecmp name "menu".toList ≠ 0 :=
    strcasecmp_ne_of_length _ _ (by rw [hlen]; decide)
  have h2 : strcasecmp name "item".toList ≠ 0 :=
    strcasecmp_ne_of_length _ _ (by rw [hlen]; decide)
  have hitem : new_item root_menu (some ⟨some name, props, content, ancestors⟩) true s
      = (s, ⟨getProp props "label".toList, none, false, false, true⟩) := by
    unfold new_item
    simp only [hc, xmlGetProp]
    rfl
  rw [xml_tree_walk_separator _ _ _ _ _ _ _ _ h1 h2 hname, hitem]
  unfold add_to_curtag
  simp only [hc, ok_bind, xml_tree_walk_null]

/-- C17, counterexample: in `<openbox_menu><menu label="X"><menu id="c"
label="C"/><item label="after"/></menu></openbox_menu>` the submenu `c` is
processed while the tag of `X` (tag 0) is the current tag; `X` has no `id`
attribute, so the submenu gets no parent, the current tag stays the tag of `c`
(tag 1) after its subtree, and the item `after` lands in the tag of `c`. -/
theorem revert_to_parent_counterexample :
    xml_tree_walk "root-menu".toList [⟨none, []⟩]
        (.node (some "openbox_menu".toList) [] none
          (.node (some "menu".toList) [("label".toList, "X".toList)] none
            (.node (some "menu".toList)
              [("id".toList, "c".toList), ("label".toList, "C".toList)] none .null
              (.node (some "item".toList) [("label".toList, "after".toList)] none .null .null))
            .null)
          .null)
        State.init
      = .ok ⟨[⟨some "X".toList, some "root-menu".toList, none, []⟩,
              ⟨some "C".toList, some "c".toList, none,
                [⟨some "after".toList, none, false, false, false⟩]⟩],
            some 1, some (1, 0)⟩ := rfl

/-- C17, amended: let a `menu` node with a `label` and no `execute` stand
directly inside a `menu` node whose `id` attribute is looked up to the current
tag `T` (the first tag with that id), let its own `id` and the ids of the inline
submenus below it be new when they are met, with nothing but action and content
nodes below the other nodes of its subtree (`tidy`), and let a current item
exist in case its id is the root id.  Then the walk of the node and its whole
subtree goes through, and after it the current tag is again the one it was
before, `T`, however deep the submenus are nested; the tags that existed are kept; the walk goes on with
the next sibling from that state; and an `item` or `separator` sibling that
follows the submenu is appended to tag `T`. -/
theorem revert_to_enclosing_menu (root_menu : Str) (s : State) (name : Str)
    (props : List (Str × Str)) (content : Option Str) (children : XmlNode)
    (parent : Elem) (rest : List Elem) (pname pid : Str) (T : Nat)
    (used : List (Option Str))
    (hname : strcasecmp name "menu".toList = 0)
    (hlabel : (getProp props "label".toList).isSome = true)
    (hexec : getProp props "execute".toList = none)
    (hpname : parent.name = some pname) (hmenu : strcasecmp pname "menu".toList = 0)
    (hpid : getProp parent.props "id".toList = some pid)
    (hcur : s.curtag = some T) (hT : T < s.tags.length)
    (hid : s.tags[T]?.bind (fun tag => tag.id) = some pid)
    (hfirst : ∀ j, j < T → s.tags[j]?.bind (fun tag => tag.id) ≠ some pid)
    (hsafe : getProp props "id".toList = some root_menu → s.curitem.isSome = true)
    (htidy : tidy (s.tags.map (fun t => t.id))
      (.node (some name) props content children .null) = some used) :
    ∃ s', xml_tree_walk root_menu (parent :: rest)
          (.node (some name) props content children .null) s = .ok s'
      ∧ s'.curtag = s.curtag
      ∧ TagsGrow s.tags s'.tags
      ∧ (∀ next, xml_tree_walk root_menu (parent :: rest)
            (.node (some name) props content children next) s
          = xml_tree_walk root_menu (parent :: rest) next s')
      ∧ (∀ (iname : Str) (iprops : List (Str × Str)) (icontent : Option Str),
          strcasecmp iname "item".toList = 0 →
          xml_tree_walk root_menu (parent :: rest)
            (.node (some name) props content children
              (.node (some iname) iprops icontent .null .null)) s
          = .ok (list_add_tail_item s' T
              ⟨getProp iprops "label".toList, none, false, false, false⟩))
      ∧ (∀ (iname : Str) (iprops : List (Str × Str)) (icontent : Option Str),
          strcasecmp iname "separator".toList = 0 →
          xml_tree_walk root_menu (parent :: rest)
            (.node (some name) props content children
              (.node (some iname) iprops icontent .null .null)) s
          = .ok (list_add_tail_item s' T
              ⟨getProp iprops "label".toList, none, false, false, true⟩)) := by
  have hin : ((getProp props "label".toList).isSome && (getProp props "execute".toList).isNone)
      = true := by
    rw [hlabel, hexec]
    rfl
  obtain ⟨i, used1, hi, hfresh, hk, _⟩ := tidy_inline _ _ _ _ _ _ _ hname hin htidy
  have hpar : get_parent_tag root_menu s.tags
      (some ⟨some name, props, content, parent :: rest⟩) = .ok (some T) :=
    get_parent_tag_of_menu root_menu s.tags _ parent rest pname pid T rfl hpname hmenu hpid hT
      hid hfirst
  have hsafe1 : i = root_menu → ∃ ref, s.curitem = some ref := by
    intro hroot
    have := hsafe (by rw [hi, hroot])
    cases hci : s.curitem with
    | none => rw [hci] at this; cases this
    | some ref => exact ⟨ref, rfl⟩
  obtain ⟨s', e, c, _, g⟩ := inline_node_walk root_menu (parent :: rest) s T name props content
    children i used1 hname hin hpar hi hsafe1 hfresh hk
  refine ⟨s', e, c.trans hcur.symm, g, ?_, ?_, ?_⟩
  · intro next
    rw [xml_tree_walk_cons, e, ok_bind]
  · intro iname iprops icontent hitem
    rw [xml_tree_walk_cons, e, ok_bind]
    exact xml_tree_walk_leaf_item root_menu _ s' T iname iprops icontent hitem c
  · intro iname iprops icontent hsep
    rw [xml_tree_walk_cons, e, ok_bind]
    exact xml_tree_walk_leaf_separator root_menu _ s' T iname iprops icontent hsep c

/-- C17, amended, at the submenu `<menu id="apps" label="Apps"><item label="x"/>
<menu id="deep" label="Deep"><item label="y"/></menu></menu>` inside
`<menu id="root-menu" label="Top">`, followed by `<item label="after"/>`: the
item `after` is appended to tag 0, the tag of `Top`. -/
theorem revert_to_enclosing_menu_witness :
    ∃ s', xml_tree_walk "root-menu".toList
          [⟨some "menu".toList,
              [("id".toList, "root-menu".toList), ("label".toList, "Top".toList)]⟩,
            ⟨some "openbox_menu".toList, []⟩, ⟨none, []⟩]
          (.node (some "menu".toList)
            [("id".toList, "apps".toList), ("label".toList, "Apps".toList)] none
            (.node (some "item".toList) [("label".toList, "x".toList)] none .null
              (.node (some "menu".toList)
                [("id".toList, "deep".toList), ("label".toList, "Deep".toList)] none
                (.node (some "item".toList) [("label".toList, "y".toList)] none .null .null)
                .null))
            .null)
          ⟨[⟨some "Top".toList, some "root-menu".toList, none, []⟩], some 0, none⟩ = .ok s'
      ∧ s'.curtag = some 0
      ∧ xml_tree_walk "root-menu".toList
          [⟨some "menu".toList,
              [("id".toList, "root-menu".toList), ("label".toList, "Top".toList)]⟩,
            ⟨some "openbox_menu".toList, []⟩, ⟨none, []⟩]
          (.node (some "menu".toList)
            [("id".toList, "apps".toList), ("label".toList, "Apps".toList)] none
            (.node (some "item".toList) [("label".toList, "x".toList)] none .null
              (.node (some "menu".toList)
                [("id".toList, "deep".toList), ("label".toList, "Deep".toList)] none
                (.node (some "item".toList) [("label".toList, "y".toList)] none .null .null)
                .null))
            (.node (some "item".toList) [("label".toList, "after".toList)] none .null .null))
          ⟨[⟨some "Top".toList, some "root-menu".toList, none, []⟩], some 0, none⟩
        = .ok (list_add_tail_item s' 0 ⟨some "after".toList, none, false, false, false⟩) := by
  obtain ⟨s', h1, h2, _, _, h5, _⟩ := revert_to_enclosing_menu "root-menu".toList
    ⟨[⟨some "Top".toList, some "root-menu".toList, none, []⟩], some 0, none⟩
    "menu".toList [("id".toList, "apps".toList), ("label".toList, "Apps".toList)] none
    (.node (some "item".toList) [("label".toList, "x".toList)] none .null
      (.node (some "menu".toList)
        [("id".toList, "deep".toList), ("label".toList, "Deep".toList)] none
        (.node (some "item".toList) [("label".toList, "y".toList)] none .null .null)
        .null))
    ⟨some "menu".toList, [("id".toList, "root-menu".toList), ("label".toList, "Top".toList)]⟩
    [⟨some "openbox_menu".toList, []⟩, ⟨none, []⟩] "menu".toList "root-menu".toList 0
    [some "root-menu".toList, some "apps".toList, some "deep".toList]
    (by decide) (by decide) (by decide) rfl (by decide) (by decide) rfl (by decide) (by decide)
    (fun j hj => absurd hj (Nat.not_lt_zero j)) (fun h => absurd h (by decide)) (by decide)
  exact ⟨s', h1, h2, h5 "item".toList [("label".toList, "after".toList)] none (by decide)⟩

end JgmenuOb
